import Mathlib

/-!
# A verification development for `heaplib.c`

`heaplib.c` is a first-fit allocator that keeps all of its bookkeeping inside a
caller-supplied byte buffer.  This file embeds the four library functions
(`hl_init`, `hl_alloc`, `hl_release`, `hl_resize`) in Lean and proves
properties of them.

## Embedding conventions

* Memory is a byte-addressed map `Nat → Nat`; the byte stored at `a` is
  `m a % 256`.  `unsigned int` fields are four bytes, `unsigned long` fields and
  pointers are eight bytes (LP64), stored little-endian.
* `unsigned int` arithmetic is reduced modulo `2^32` (`u32`); `int` arithmetic
  is reduced to the two's-complement range (`i32`); `long` likewise (`i64`).
* Pointer arithmetic goes through `ADD_BYTES`, as in the source, and is reduced
  modulo `2^64`.
* The two `while` loops of `hl_alloc` carry a fuel argument.  Every iteration
  that does not stall moves the cursor forward by at least two bytes, so
  `endp - cursor + 1` iterations are enough whenever the C loop terminates
  inside the region; the functions return `none` otherwise.
* `MIN_HEAP_SIZE`, `SUCCESS` and `FAILURE` come from `heaplib.h`, which is not
  part of the sources; they are parameters (`Consts`).
-/

set_option linter.all false

namespace Heaplib

/-! ## Machine integers and memory -/

/-- Byte-addressed memory. -/
abbrev Mem := Nat → Nat

/-- Conversion to `unsigned int`: reduction modulo `2^32`. -/
def u32 (x : Int) : Nat := (x % 4294967296).toNat

/-- Conversion to `int`: two's-complement reduction to `[-2^31, 2^31)`. -/
def i32 (x : Int) : Int := (x + 2147483648) % 4294967296 - 2147483648

/-- Conversion to `long`: two's-complement reduction to `[-2^63, 2^63)`. -/
def i64 (x : Int) : Int :=
  (x + 9223372036854775808) % 18446744073709551616 - 9223372036854775808

/-- Conversion to `size_t`: reduction modulo `2^64`. -/
def size_t (x : Int) : Nat := (x % 18446744073709551616).toNat

/-- The macro `ADD_BYTES(base_addr, num_bytes)`: `((char *) base_addr) + num_bytes`. -/
def ADD_BYTES (base_addr : Nat) (num_bytes : Int) : Nat :=
  (((base_addr : Int) + num_bytes) % 18446744073709551616).toNat

/-- The byte stored at address `a`. -/
def read8 (m : Mem) (a : Nat) : Nat := m a % 256

/-- Load of a 4-byte `unsigned int` at address `a`. -/
def read32 (m : Mem) (a : Nat) : Nat :=
  read8 m a + 256 * read8 m (a + 1) + 65536 * read8 m (a + 2) + 16777216 * read8 m (a + 3)

/-- Store of a 4-byte `unsigned int` at address `a`. -/
def write32 (m : Mem) (a v : Nat) : Mem := fun x =>
  if x = a then v % 256
  else if x = a + 1 then v / 256 % 256
  else if x = a + 2 then v / 65536 % 256
  else if x = a + 3 then v / 16777216 % 256
  else m x

/-- Load of an 8-byte `unsigned long` at address `a`. -/
def read64 (m : Mem) (a : Nat) : Nat := read32 m a + 4294967296 * read32 m (a + 4)

/-- Store of an 8-byte `unsigned long` at address `a`. -/
def write64 (m : Mem) (a v : Nat) : Mem :=
  write32 (write32 m a (v % 4294967296)) (a + 4) (v / 4294967296 % 4294967296)

/-- The library call `memmove(dst, src, n)`: the `n` bytes at `dst` become the `n`
bytes that were at `src`. -/
def memmove (m : Mem) (dst src n : Nat) : Mem := fun x =>
  if dst ≤ x ∧ x < dst + n then m (src + (x - dst)) else m x

/-- The constants of `heaplib.h` that the source uses. -/
structure Consts where
  MIN_HEAP_SIZE : Nat
  SUCCESS : Int
  FAILURE : Int

/-! ## The library functions -/

/-- The function `hl_init` (heaplib.c, lines 28-45).  Returns the memory after the
call and the returned status. -/
def hl_init (c : Consts) (m : Mem) (heap heap_size : Nat) : Mem × Int :=
  if heap_size < c.MIN_HEAP_SIZE then (m, c.FAILURE)
  else
    let padding : Int := i32 (8 - Int.tmod (i64 (i64 heap + 4)) 8)
    let m1 := write32 m heap (u32 ((heap_size : Int) - padding - 16) / 8 * 8)
    let m2 := write32 m1 (heap + 4) (u32 padding)
    let m3 := write64 m2 (heap + 8) (ADD_BYTES heap (i32 (padding + 16)))
    let first := ADD_BYTES heap (i32 (padding + 16))
    let m4 := write32 m3 first (read32 m3 heap)
    let endp := ADD_BYTES first (i32 (i32 (read32 m4 first) - 4))
    let m5 := write32 m4 endp (read32 m4 heap)
    (m5, c.SUCCESS)

/-- The search loop of `hl_alloc` (line 65-67): skip blocks that are allocated or
too small, starting at `empty`, until a block fits or `endp` is reached. -/
def allocScan (m : Mem) (endp block_size : Nat) : Nat → Nat → Option Nat
  | 0, _ => none
  | fuel + 1, empty =>
    if empty < endp ∧ (read32 m empty % 2 ≠ 0 ∨
        i32 (i32 (read32 m empty) - 8) < i32 block_size) then
      allocScan m endp block_size fuel (ADD_BYTES empty (read32 m empty / 2 * 2))
    else some empty

/-- The hint loop of `hl_alloc` (line 76-78): skip allocated blocks starting at
`next_empty` until a free block or `endp` is reached. -/
def hintScan (m : Mem) (endp : Nat) : Nat → Nat → Option Nat
  | 0, _ => none
  | fuel + 1, next_empty =>
    if next_empty < endp ∧ read32 m next_empty % 2 ≠ 0 then
      hintScan m endp fuel (ADD_BYTES next_empty (u32 ((read32 m next_empty : Int) - 1)))
    else some next_empty

/-- The consume branch of `hl_alloc` (lines 71-80, then the `return` of line 94):
`empty` is the block found, `endp` the end of the usable region. -/
def allocConsume (m : Mem) (heap endp empty : Nat) : Option (Mem × Nat) :=
  let footer := ADD_BYTES empty (u32 ((read32 m empty : Int) - 4))
  let m1 := write32 m empty (u32 ((read32 m empty : Int) + 1))
  let m2 := write32 m1 footer (u32 ((read32 m1 footer : Int) + 1))
  if empty = read64 m2 (heap + 8) then
    let next_empty := ADD_BYTES empty (u32 ((read32 m2 empty : Int) - 1))
    match hintScan m2 endp (endp - next_empty + 1) next_empty with
    | none => none
    | some next_empty => some (write64 m2 (heap + 8) next_empty, ADD_BYTES empty 4)
  else some (m2, ADD_BYTES empty 4)

/-- The split branch of `hl_alloc` (lines 83-92, then the `return` of line 94). -/
def allocSplit (m : Mem) (heap empty block_size next_size : Nat) : Option (Mem × Nat) :=
  let m1 := write32 m empty (u32 ((block_size : Int) + 9))
  let footer := ADD_BYTES empty (u32 ((read32 m1 empty : Int) - 5))
  let m2 := write32 m1 footer (read32 m1 empty)
  let next := ADD_BYTES empty (u32 ((read32 m2 empty : Int) - 1))
  let m3 := write32 m2 next next_size
  let next_footer := ADD_BYTES next (u32 ((read32 m3 next : Int) - 4))
  let m4 := write32 m3 next_footer next_size
  if empty = read64 m4 (heap + 8) then
    some (write64 m4 (heap + 8) next, ADD_BYTES empty 4)
  else some (m4, ADD_BYTES empty 4)

/-- Round-up of a request to a multiple of 8, as `hl_alloc` (lines 61-63) and
`hl_resize` (lines 151-153) do it. -/
def roundUp (block_size : Nat) : Nat :=
  if block_size % 8 ≠ 0 then u32 ((block_size : Int) + (8 - block_size % 8)) else block_size

/-- The function `hl_alloc` (heaplib.c, lines 54-98).  Returns the memory after the
call and the returned pointer (`0` is `NULL`); `none` when a loop does not
terminate. -/
def hl_alloc (m : Mem) (heap block_size : Nat) : Option (Mem × Nat) :=
  let heap_size := read32 m heap
  let padding := read32 m (heap + 4)
  let empty0 := read64 m (heap + 8)
  let first := ADD_BYTES heap (u32 ((padding : Int) + 16))
  let endp := ADD_BYTES first heap_size
  let block_size := roundUp block_size
  match allocScan m endp block_size (endp - empty0 + 1) empty0 with
  | none => none
  | some empty =>
    if empty < endp then
      let next_size := u32 ((read32 m empty : Int) - block_size - 8)
      if next_size < 16 then allocConsume m heap endp empty
      else allocSplit m heap empty block_size next_size
    else some (m, 0)

/-- The function `hl_release` (heaplib.c, lines 107-135). -/
def hl_release (m : Mem) (heap block : Nat) : Mem :=
  if block = 0 then m
  else
    let first_free := read64 m (heap + 8)
    let first := ADD_BYTES heap (u32 ((read32 m (heap + 4) : Int) + 16))
    let last := ADD_BYTES first (read32 m heap)
    let header := ADD_BYTES block (-4)
    let m1 := write32 m header (u32 ((read32 m header : Int) - 1))
    let footer := ADD_BYTES header (u32 ((read32 m1 header : Int) - 4))
    let m2 := write32 m1 footer (u32 ((read32 m1 footer : Int) - 1))
    let m3 :=
      if ADD_BYTES footer 4 < last then
        let next_header := ADD_BYTES footer 4
        if read32 m2 next_header % 2 = 0 then
          let next_footer := ADD_BYTES next_header (i32 (i32 (read32 m2 next_header) - 4))
          let new_block_size := u32 ((read32 m2 next_header : Int) + read32 m2 header)
          write32 (write32 m2 next_footer new_block_size) header new_block_size
        else m2
      else m2
    if header < first_free then write64 m3 (heap + 8) header else m3

/-- The function `hl_resize` (heaplib.c, lines 145-165).  Returns the memory after
the call and the returned pointer (`0` is `NULL`). -/
def hl_resize (m : Mem) (heap block new_size : Nat) : Option (Mem × Nat) :=
  if block = 0 then hl_alloc m heap new_size
  else
    let header := ADD_BYTES block (-4)
    let new_size := roundUp new_size
    if i32 (i32 (read32 m header) - 9) ≥ i32 new_size then some (m, block)
    else
      match hl_alloc m heap new_size with
      | none => none
      | some (m1, new_header) =>
        if new_header = 0 then some (m1, 0)
        else
          let m2 := memmove m1 new_header block (size_t (i32 (i32 (read32 m1 header) - 8)))
          some (hl_release m2 heap block, new_header)

/-! ## Block layout

A block is described by its header word: the span with the status in bit 0
(even = free, odd = allocated).  A heap is described by the list of its header
words in address order. -/

/-- The span recorded in a header word: the word with the status bit masked. -/
def span (h : Nat) : Nat := h / 2 * 2

/-- The number of bytes covered by a list of blocks. -/
def total : List Nat → Nat
  | [] => 0
  | h :: t => span h + total t

/-- The blocks with header words `hs` are laid out back to back from address `a`:
each header word is in memory, and so is the matching footer word in the last
four bytes of the block. -/
def Chain (m : Mem) : Nat → List Nat → Prop
  | _, [] => True
  | a, h :: t => read32 m a = h ∧ read32 m (a + span h - 4) = h ∧ Chain m (a + span h) t

/-- Every span is a positive multiple of 8. -/
def Valid (hs : List Nat) : Prop := ∀ h ∈ hs, 8 ≤ span h ∧ span h % 8 = 0

/-- The blocks (start address, header word) of a layout that starts at `a`. -/
def blocksOf : Nat → List Nat → List (Nat × Nat)
  | _, [] => []
  | a, h :: t => (a, h) :: blocksOf (a + span h) t

/-- Address of the first block: `heap + padding + 16`. -/
def heapFirst (m : Mem) (heap : Nat) : Nat := heap + read32 m (heap + 4) + 16

/-- End of the usable region: `heap + padding + 16 + heap_size`. -/
def heapEnd (m : Mem) (heap : Nat) : Nat := heapFirst m heap + read32 m heap

/-- The search hint `header->first_free`. -/
def heapHint (m : Mem) (heap : Nat) : Nat := read64 m (heap + 8)

/-- Walk the heap from `a` by the spans found in the headers, up to `endp`. -/
def walk (m : Mem) (endp : Nat) : Nat → Nat → List (Nat × Nat)
  | 0, _ => []
  | fuel + 1, a =>
    if a < endp then (a, read32 m a) :: walk m endp fuel (a + span (read32 m a)) else []

/-- The blocks (start address, header word) found by walking the usable region. -/
def heapBlocks (m : Mem) (heap : Nat) : List (Nat × Nat) :=
  walk m (heapEnd m heap) (read32 m heap) (heapFirst m heap)

/-- The payload pointers of the allocated blocks found by walking the heap. -/
def allocated (m : Mem) (heap : Nat) : List Nat :=
  ((heapBlocks m heap).filter (fun b => b.2 % 2 = 1)).map (fun b => b.1 + 4)

/-- Total free capacity: the sum of the spans of the free blocks. -/
def freeCapacity (m : Mem) (heap : Nat) : Nat :=
  (((heapBlocks m heap).filter (fun b => b.2 % 2 = 0)).map (fun b => span b.2)).sum

/-- The layout invariant of a heap whose usable size is at most `2^31`: the header
fields are in range and the blocks `hs` tile the usable region with matching
headers and footers. -/
structure Layout (m : Mem) (heap : Nat) (hs : List Nat) : Prop where
  pad : read32 m (heap + 4) ≤ 15
  range : heapEnd m heap < 18446744073709551616
  small : read32 m heap ≤ 2147483648
  tot : total hs = read32 m heap
  chain : Chain m (heapFirst m heap) hs
  valid : Valid hs

/-- The search hint is a block boundary below which every block is allocated. -/
def HintOk (m : Mem) (heap : Nat) (hs : List Nat) : Prop :=
  ∃ pre suf, hs = pre ++ suf ∧ heapHint m heap = heapFirst m heap + total pre ∧
    ∀ h ∈ pre, h % 2 = 1

/-- The invariant of a heap whose usable size is at most `2^31`. -/
structure HeapInv (m : Mem) (heap : Nat) (hs : List Nat) : Prop where
  lay : Layout m heap hs
  hint : HintOk m heap hs

/-- A heap whose usable size exceeds `2^31`, as `hl_init` leaves it: one free block
whose header records the usable size, and the hint on it. -/
structure HugeFresh (m : Mem) (heap : Nat) : Prop where
  pad : read32 m (heap + 4) ≤ 15
  range : heapEnd m heap < 18446744073709551616
  huge : 2147483648 < read32 m heap
  even : read32 m heap % 8 = 0
  head : read32 m (heapFirst m heap) = read32 m heap
  hint : heapHint m heap = heapFirst m heap

/-- Well-formed heap states. -/
def WF (m : Mem) (heap : Nat) : Prop := (∃ hs, HeapInv m heap hs) ∨ HugeFresh m heap

/-- The loop condition of the search (second conjunct): the block with header word
`h` is allocated or too small for a request of (rounded) size `bs`. -/
def NoFit (bs h : Nat) : Prop := h % 2 ≠ 0 ∨ i32 (i32 h - 8) < i32 bs

instance (bs h : Nat) : Decidable (NoFit bs h) :=
  inferInstanceAs (Decidable (h % 2 ≠ 0 ∨ i32 (i32 h - 8) < i32 bs))

/-- The memories `m` and `m'` hold the same bytes outside `[lo, hi)`. -/
def SameOutside (m m' : Mem) (lo hi : Nat) : Prop :=
  ∀ x, (x < lo ∨ hi ≤ x) → read8 m' x = read8 m x

/-- The memories `m` and `m'` hold the same bytes outside `[lo, hi)` and outside the
hint field `[heap + 8, heap + 16)`. -/
def Frame (m m' : Mem) (heap lo hi : Nat) : Prop :=
  ∀ x, (x < lo ∨ hi ≤ x) → (x < heap + 8 ∨ heap + 16 ≤ x) → read8 m' x = read8 m x

/-- Span of a released block of span `s` after forward coalescing with the blocks
`rest` that follow it: the next block is absorbed when it is free. -/
def mergedSpan (s : Nat) : List Nat → Nat
  | [] => s
  | t :: _ => if t % 2 = 0 then s + t else s

/-- The blocks that remain after a released block has coalesced with its
successor. -/
def afterMerge : List Nat → List Nat
  | [] => []
  | t :: rest => if t % 2 = 0 then rest else t :: rest

/-- The blocks that replace a selected free block with header word `h` for a rounded
request `r` (split-or-consume). -/
def placed (h r : Nat) : List Nat :=
  if h - r - 8 < 16 then [h + 1] else [r + 9, h - r - 8]

/-! ## Reachable states -/

/-- Store of one byte, as a client does into memory it owns. -/
def write8 (m : Mem) (a v : Nat) : Mem := fun x => if x = a then v % 256 else m x

/-- Payload capacity of the block whose payload pointer is `p`: the span recorded in
the header at `p - 4`, minus header and footer. -/
def capacity (m : Mem) (p : Nat) : Nat := span (read32 m (p - 4)) - 8

/-- A state of the library and its client: the memory and the pointers that the
client currently holds (returned by `hl_alloc` or `hl_resize`, not yet released). -/
structure State where
  mem : Mem
  live : List Nat

/-- The states reachable from a successful `hl_init` on a buffer at `heap` by calls
with valid arguments (sizes at most `2^31 - 8`, pointers that are currently
allocated or null), interleaved with client stores into live payloads. -/
inductive Reachable (c : Consts) (heap : Nat) : State → Prop
  | init (m0 : Mem) (heap_size : Nat) (h32 : heap_size < 4294967296)
      (hfit : heap + heap_size < 18446744073709551616)
      (hok : (hl_init c m0 heap heap_size).2 = c.SUCCESS) :
      Reachable c heap ⟨(hl_init c m0 heap heap_size).1, []⟩
  | alloc (s : State) (n : Nat) (m' : Mem) (q : Nat) (hs : Reachable c heap s)
      (hn : n ≤ 2147483640) (hcall : hl_alloc s.mem heap n = some (m', q)) :
      Reachable c heap ⟨m', if q = 0 then s.live else q :: s.live⟩
  | release (s : State) (p : Nat) (hs : Reachable c heap s) (hp : p ∈ s.live ∨ p = 0) :
      Reachable c heap ⟨hl_release s.mem heap p, s.live.filter (fun x => x ≠ p)⟩
  | resize (s : State) (p n : Nat) (m' : Mem) (q : Nat) (hs : Reachable c heap s)
      (hp : p ∈ s.live ∨ p = 0) (hn : n ≤ 2147483640)
      (hcall : hl_resize s.mem heap p n = some (m', q)) :
      Reachable c heap ⟨m', if q = 0 then s.live else q :: s.live.filter (fun x => x ≠ p)⟩
  | store (s : State) (p i v : Nat) (hs : Reachable c heap s) (hp : p ∈ s.live)
      (hi : i < capacity s.mem p) :
      Reachable c heap ⟨write8 s.mem (p + i) v, s.live⟩

/-- The invariant of reachable states: the heap is well formed and the pointers the
client holds are exactly the payload pointers of the allocated blocks. -/
def RInv (heap : Nat) (s : State) : Prop :=
  (∃ hs, HeapInv s.mem heap hs ∧ ∀ p, p ∈ s.live ↔ p ∈ allocated s.mem heap) ∨
    (HugeFresh s.mem heap ∧ s.live = [])

/-! ## Client-side steps and a concrete scenario -/

/-- A call `hl_alloc(heap, n)` as a step on states; the state is kept when the call
does not return. -/
def allocStep (heap n : Nat) (s : State) : State :=
  match hl_alloc s.mem heap n with
  | some (m', q) => ⟨m', if q = 0 then s.live else q :: s.live⟩
  | none => s

/-- A call `hl_release(heap, p)` as a step on states. -/
def releaseStep (heap p : Nat) (s : State) : State :=
  ⟨hl_release s.mem heap p, s.live.filter (fun x => x ≠ p)⟩

/-- A call `hl_resize(heap, p, n)` as a step on states. -/
def resizeStep (heap p n : Nat) (s : State) : State :=
  match hl_resize s.mem heap p n with
  | some (m', q) => ⟨m', if q = 0 then s.live else q :: s.live.filter (fun x => x ≠ p)⟩
  | none => s

/-- The pointer returned by `hl_alloc(heap, n)` (`0` also when it does not return). -/
def allocPtr (m : Mem) (heap n : Nat) : Nat :=
  match hl_alloc m heap n with
  | some (_, q) => q
  | none => 0

/-- The memory after `hl_alloc(heap, n)`. -/
def allocMem (m : Mem) (heap n : Nat) : Mem :=
  match hl_alloc m heap n with
  | some (m', _) => m'
  | none => m

/-- Memory that holds zero everywhere. -/
def zeroMem : Mem := fun _ => 0

/-- Sample values for the constants of `heaplib.h`. -/
def demoConsts : Consts := ⟨40, 0, -1⟩

/-- A 64-byte buffer at address 4096 after `hl_init`: padding 4, one free block of
span 40 at address 4116. -/
def demoHeap : Mem := (hl_init demoConsts zeroMem 4096 64).1

/-- The state after `hl_init` on the 64-byte buffer. -/
def demoState : State := ⟨demoHeap, []⟩

/-- The state after `hl_init` and two calls `hl_alloc(heap, 8)` on the 64-byte
buffer: a block of span 16 at 4116 and a block of span 24 at 4132 are allocated
(the second call consumed the 24-byte remainder whole); no free block remains. -/
def demoState2 : State := allocStep 4096 8 (allocStep 4096 8 demoState)

/-- A buffer of `2^31 + 64` bytes at address 4096 after `hl_init`: one free block of
span `2^31 + 40` at address 4116.  The four bytes where the footer of that block
belongs already hold the span before the call. -/
def hugeHeap : Mem :=
  (hl_init demoConsts (write32 zeroMem 2147487800 2147483688) 4096 2147483712).1

/-- Free bytes of a layout: the sum of the spans of its free blocks. -/
def freeOf : List Nat → Nat
  | [] => 0
  | h :: t => (if h % 2 = 0 then span h else 0) + freeOf t


/-- The search of `hl_alloc` (lines 55-67) on its own: the address at which the loop
of line 65 stops for a request of `block_size` bytes, `none` when it does not
terminate.  The call selects a block when this address is below the end of the
usable region (line 68). -/
def allocSearch (m : Mem) (heap block_size : Nat) : Option Nat :=
  let heap_size := read32 m heap
  let padding := read32 m (heap + 4)
  let empty0 := read64 m (heap + 8)
  let first := ADD_BYTES heap (u32 ((padding : Int) + 16))
  let endp := ADD_BYTES first heap_size
  allocScan m endp (roundUp block_size) (endp - empty0 + 1) empty0

/-- The memory after `hl_resize(heap, p, n)`. -/
def resizeMem (m : Mem) (heap p n : Nat) : Mem :=
  match hl_resize m heap p n with
  | some (m', _) => m'
  | none => m

/-- The state after `hl_init` on a 256-byte buffer at address 4096: padding 4, one
free block of span 232 at address 4116. -/
def demoState256 : State := ⟨(hl_init demoConsts zeroMem 4096 256).1, []⟩

/-- The state after four calls `hl_alloc(heap, 32)` on the 256-byte buffer: blocks
of span 40 at 4116, 4156, 4196 and 4236 are allocated (payload pointers 4120,
4160, 4200, 4240), one free block of span 72 remains at 4276. -/
def fourBlocks : State :=
  allocStep 4096 32 (allocStep 4096 32 (allocStep 4096 32 (allocStep 4096 32 demoState256)))


/-- The state after the four allocations and the calls `hl_release(heap, 4160)` and
`hl_release(heap, 4200)`, in that order: the blocks at 4156 and 4196 are free,
each of span 40; the blocks at 4116 and 4236 are allocated. -/
def twoFreed : State := releaseStep 4096 4200 (releaseStep 4096 4160 fourBlocks)

/-- Address `x` lies inside a free block of the heap. -/
def inFreeBlock (m : Mem) (heap x : Nat) : Prop :=
  ∃ b ∈ heapBlocks m heap, b.2 % 2 = 0 ∧ b.1 ≤ x ∧ x < b.1 + span b.2

/-- Address `x` lies in the field `first_free` of the heap header. -/
def inHintField (heap x : Nat) : Prop := heap + 8 ≤ x ∧ x < heap + 16

/-- Address `x` lies in the header word or in the footer word of the block whose
payload pointer is `p`. -/
def inHeaderFooter (m : Mem) (p x : Nat) : Prop :=
  (p - 4 ≤ x ∧ x < p) ∨ (p + capacity m p ≤ x ∧ x < p + capacity m p + 4)

/-- Address `x` lies in the block (header word, payload, footer word) whose payload
pointer is `p`. -/
def inBlock (m : Mem) (p x : Nat) : Prop := p - 4 ≤ x ∧ x < p + capacity m p + 4

/-- The states reachable as in `Reachable` when no call asks for a block of 0 bytes:
`hl_alloc` is called with `n >= 1`, `hl_resize` with a null pointer is called
with `n >= 1`, and `hl_init` ran on a base address that is non-negative as a
`long` (`heap + 4 < 2^63`) or on a buffer of at least 47 bytes. -/
inductive ReachableNZ (c : Consts) (heap : Nat) : State → Prop
  | init (m0 : Mem) (heap_size : Nat) (h32 : heap_size < 4294967296)
      (hfit : heap + heap_size < 18446744073709551616)
      (hok : (hl_init c m0 heap heap_size).2 = c.SUCCESS)
      (hbase : heap + 4 < 9223372036854775808 ∨ 47 ≤ heap_size) :
      ReachableNZ c heap ⟨(hl_init c m0 heap heap_size).1, []⟩
  | alloc (s : State) (n : Nat) (m' : Mem) (q : Nat) (hs : ReachableNZ c heap s)
      (hn : n ≤ 2147483640) (hpos : 1 ≤ n) (hcall : hl_alloc s.mem heap n = some (m', q)) :
      ReachableNZ c heap ⟨m', if q = 0 then s.live else q :: s.live⟩
  | release (s : State) (p : Nat) (hs : ReachableNZ c heap s) (hp : p ∈ s.live ∨ p = 0) :
      ReachableNZ c heap ⟨hl_release s.mem heap p, s.live.filter (fun x => x ≠ p)⟩
  | resize (s : State) (p n : Nat) (m' : Mem) (q : Nat) (hs : ReachableNZ c heap s)
      (hp : p ∈ s.live ∨ (p = 0 ∧ 1 ≤ n)) (hn : n ≤ 2147483640)
      (hcall : hl_resize s.mem heap p n = some (m', q)) :
      ReachableNZ c heap ⟨m', if q = 0 then s.live else q :: s.live.filter (fun x => x ≠ p)⟩
  | store (s : State) (p i v : Nat) (hs : ReachableNZ c heap s) (hp : p ∈ s.live)
      (hi : i < capacity s.mem p) :
      ReachableNZ c heap ⟨write8 s.mem (p + i) v, s.live⟩

/-! ## Memory lemmas -/

theorem read8_lt (m : Mem) (a : Nat) : read8 m a < 256 := by
  unfold read8; omega

theorem read32_lt (m : Mem) (a : Nat) : read32 m a < 4294967296 := by
  have h0 := read8_lt m a
  have h1 := read8_lt m (a + 1)
  have h2 := read8_lt m (a + 2)
  have h3 := read8_lt m (a + 3)
  unfold read32; omega

theorem read64_lt (m : Mem) (a : Nat) : read64 m a < 18446744073709551616 := by
  have h0 := read32_lt m a
  have h1 := read32_lt m (a + 4)
  unfold read64; omega

theorem read32_congr {m m' : Mem} {b : Nat}
    (h : ∀ x, b ≤ x → x < b + 4 → read8 m' x = read8 m x) : read32 m' b = read32 m b := by
  unfold read32
  rw [h b (by omega) (by omega), h (b + 1) (by omega) (by omega),
    h (b + 2) (by omega) (by omega), h (b + 3) (by omega) (by omega)]

theorem read64_congr {m m' : Mem} {b : Nat}
    (h : ∀ x, b ≤ x → x < b + 8 → read8 m' x = read8 m x) : read64 m' b = read64 m b := by
  unfold read64
  rw [read32_congr (b := b) (fun x h1 h2 => h x h1 (by omega)),
    read32_congr (b := b + 4) (fun x h1 h2 => h x (by omega) (by omega))]

theorem read8_write32_ne (m : Mem) (a v x : Nat) (h : x < a ∨ a + 4 ≤ x) :
    read8 (write32 m a v) x = read8 m x := by
  unfold read8 write32
  rw [if_neg (by omega), if_neg (by omega), if_neg (by omega), if_neg (by omega)]

theorem read32_write32_same (m : Mem) (a v : Nat) :
    read32 (write32 m a v) a = v % 4294967296 := by
  unfold read32 read8 write32
  simp only [if_true, if_neg (show a + 1 ≠ a by omega), if_neg (show a + 2 ≠ a by omega),
    if_neg (show a + 3 ≠ a by omega), if_neg (show a + 2 ≠ a + 1 by omega),
    if_neg (show a + 3 ≠ a + 1 by omega), if_neg (show a + 3 ≠ a + 2 by omega)]
  omega

theorem read32_write32_ne (m : Mem) (a v b : Nat) (h : b + 4 ≤ a ∨ a + 4 ≤ b) :
    read32 (write32 m a v) b = read32 m b :=
  read32_congr (fun x h1 h2 => read8_write32_ne m a v x (by omega))

theorem read64_write32_ne (m : Mem) (a v b : Nat) (h : b + 8 ≤ a ∨ a + 4 ≤ b) :
    read64 (write32 m a v) b = read64 m b :=
  read64_congr (fun x h1 h2 => read8_write32_ne m a v x (by omega))

theorem read8_write64_ne (m : Mem) (a v x : Nat) (h : x < a ∨ a + 8 ≤ x) :
    read8 (write64 m a v) x = read8 m x := by
  unfold write64
  rw [read8_write32_ne _ _ _ _ (by omega), read8_write32_ne _ _ _ _ (by omega)]

theorem read32_write64_ne (m : Mem) (a v b : Nat) (h : b + 4 ≤ a ∨ a + 8 ≤ b) :
    read32 (write64 m a v) b = read32 m b :=
  read32_congr (fun x h1 h2 => read8_write64_ne m a v x (by omega))

theorem read64_write64_same (m : Mem) (a v : Nat) (hv : v < 18446744073709551616) :
    read64 (write64 m a v) a = v := by
  unfold read64 write64
  rw [read32_write32_ne _ _ _ _ (by omega), read32_write32_same, read32_write32_same]
  omega

theorem read8_memmove_ne (m : Mem) (dst src n x : Nat) (h : x < dst ∨ dst + n ≤ x) :
    read8 (memmove m dst src n) x = read8 m x := by
  unfold read8 memmove
  rw [if_neg (by omega)]

theorem read8_memmove_in (m : Mem) (dst src n i : Nat) (h : i < n) :
    read8 (memmove m dst src n) (dst + i) = read8 m (src + i) := by
  unfold read8 memmove
  rw [if_pos (by omega), Nat.add_sub_cancel_left]

theorem read32_memmove_ne (m : Mem) (dst src n b : Nat) (h : b + 4 ≤ dst ∨ dst + n ≤ b) :
    read32 (memmove m dst src n) b = read32 m b :=
  read32_congr (fun x h1 h2 => read8_memmove_ne m dst src n x (by omega))

theorem read64_memmove_ne (m : Mem) (dst src n b : Nat) (h : b + 8 ≤ dst ∨ dst + n ≤ b) :
    read64 (memmove m dst src n) b = read64 m b :=
  read64_congr (fun x h1 h2 => read8_memmove_ne m dst src n x (by omega))


/-! ## Machine-integer lemmas -/

theorem ADD_BYTES_nat (a n : Nat) (h : a + n < 18446744073709551616) :
    ADD_BYTES a (n : Int) = a + n := by
  unfold ADD_BYTES; omega

theorem ADD_BYTES_four (a : Nat) (h : a + 4 < 18446744073709551616) :
    ADD_BYTES a 4 = a + 4 := by
  unfold ADD_BYTES; omega

theorem ADD_BYTES_neg_four (a : Nat) (h : 4 ≤ a) (h2 : a < 18446744073709551616) :
    ADD_BYTES a (-4) = a - 4 := by
  unfold ADD_BYTES; omega

theorem u32_nat (n : Nat) (h : n < 4294967296) : u32 (n : Int) = n := by
  unfold u32; omega

theorem span_le (h : Nat) : span h ≤ h := by unfold span; omega

theorem span_even (h : Nat) (he : h % 2 = 0) : span h = h := by unfold span; omega

theorem span_odd (h : Nat) (he : h % 2 = 1) : span h = h - 1 := by unfold span; omega

theorem span_succ (h : Nat) (he : h % 2 = 0) : span (h + 1) = h := by unfold span; omega

/-- On spans in `[8, 2^31]` the search condition is the plain comparison. -/
theorem noFit_iff (bs h : Nat) (hb : bs ≤ 2147483640) (h8 : 8 ≤ span h)
    (hs : span h ≤ 2147483648) :
    NoFit bs h ↔ (h % 2 = 1 ∨ span h < bs + 8) := by
  unfold NoFit i32 span at *
  omega

theorem roundUp_spec (n : Nat) (hn : n ≤ 2147483640) :
    n ≤ roundUp n ∧ roundUp n < n + 8 ∧ roundUp n % 8 = 0 ∧ roundUp n ≤ 2147483640 := by
  unfold roundUp u32
  split <;> omega

/-! ## Layout lemmas -/

theorem total_append (xs ys : List Nat) : total (xs ++ ys) = total xs + total ys := by
  induction xs with
  | nil => simp [total]
  | cons h t ih => simp [total, ih]; omega

theorem valid_append {xs ys : List Nat} : Valid (xs ++ ys) ↔ Valid xs ∧ Valid ys := by
  unfold Valid
  simp only [List.mem_append]
  constructor
  · intro h
    exact ⟨fun x hx => h x (Or.inl hx), fun x hx => h x (Or.inr hx)⟩
  · rintro ⟨h1, h2⟩ x (hx | hx)
    · exact h1 x hx
    · exact h2 x hx

theorem valid_cons {h : Nat} {t : List Nat} :
    Valid (h :: t) ↔ (8 ≤ span h ∧ span h % 8 = 0) ∧ Valid t := by
  unfold Valid
  simp

theorem total_ge_length (xs : List Nat) (hv : Valid xs) : 8 * xs.length ≤ total xs := by
  induction xs with
  | nil => simp [total]
  | cons h t ih =>
    have h1 := valid_cons.1 hv
    have := ih h1.2
    simp only [total, List.length_cons]
    omega

theorem total_eq_zero {xs : List Nat} (hv : Valid xs) (h : total xs = 0) : xs = [] := by
  cases xs with
  | nil => rfl
  | cons a t =>
    have h1 := valid_cons.1 hv
    simp only [total] at h
    omega

theorem chain_append (m : Mem) (a : Nat) (xs ys : List Nat) :
    Chain m a (xs ++ ys) ↔ Chain m a xs ∧ Chain m (a + total xs) ys := by
  induction xs generalizing a with
  | nil => simp [Chain, total]
  | cons h t ih =>
    rw [List.cons_append]
    simp only [Chain, total]
    rw [ih, Nat.add_assoc, and_assoc, and_assoc]

/-- A chain only depends on the words inside the region it covers. -/
theorem chain_congr {m m' : Mem} {a : Nat} {hs : List Nat} (hv : Valid hs)
    (h : ∀ b, a ≤ b → b + 4 ≤ a + total hs → read32 m' b = read32 m b)
    (hc : Chain m a hs) : Chain m' a hs := by
  induction hs generalizing a with
  | nil => trivial
  | cons x t ih =>
    have h1 := valid_cons.1 hv
    obtain ⟨c1, c2, c3⟩ := hc
    simp only [total] at h
    refine ⟨?_, ?_, ?_⟩
    · rw [h a (by omega) (by omega)]; exact c1
    · rw [h _ (by omega) (by omega)]; exact c2
    · exact ih h1.2 (fun b hb1 hb2 => h b (by omega) (by omega)) c3

theorem mem_blocksOf_append (a : Nat) (xs ys : List Nat) (b : Nat × Nat) :
    b ∈ blocksOf a (xs ++ ys) ↔ b ∈ blocksOf a xs ∨ b ∈ blocksOf (a + total xs) ys := by
  induction xs generalizing a with
  | nil => simp [blocksOf, total]
  | cons h t ih =>
    rw [List.cons_append]
    simp only [blocksOf, List.mem_cons, total]
    rw [ih, Nat.add_assoc, or_assoc]

theorem blocksOf_append (a : Nat) (xs ys : List Nat) :
    blocksOf a (xs ++ ys) = blocksOf a xs ++ blocksOf (a + total xs) ys := by
  induction xs generalizing a with
  | nil => simp [blocksOf, total]
  | cons h t ih =>
    rw [List.cons_append]
    simp only [blocksOf, total]
    rw [ih, Nat.add_assoc, List.cons_append]

theorem mem_blocksOf_bounds {a : Nat} {xs : List Nat} {b : Nat × Nat}
    (hb : b ∈ blocksOf a xs) :
    a ≤ b.1 ∧ b.1 + span b.2 ≤ a + total xs ∧ b.2 ∈ xs := by
  induction xs generalizing a with
  | nil => simp [blocksOf] at hb
  | cons h t ih =>
    simp only [blocksOf, List.mem_cons] at hb
    rcases hb with rfl | hb
    · simp [total]
    · obtain ⟨i1, i2, i3⟩ := ih hb
      simp only [total]
      exact ⟨by omega, by omega, List.mem_cons_of_mem _ i3⟩

theorem mem_blocksOf_split {a : Nat} {xs : List Nat} {b : Nat × Nat}
    (hb : b ∈ blocksOf a xs) :
    ∃ pre rest, xs = pre ++ b.2 :: rest ∧ b.1 = a + total pre := by
  induction xs generalizing a with
  | nil => simp [blocksOf] at hb
  | cons h t ih =>
    simp only [blocksOf, List.mem_cons] at hb
    rcases hb with rfl | hb
    · exact ⟨[], t, rfl, rfl⟩
    · obtain ⟨pre, rest, h1, h2⟩ := ih hb
      refine ⟨h :: pre, rest, by rw [h1]; rfl, ?_⟩
      rw [h2]; simp only [total]; omega

theorem mem_blocksOf_chain {m : Mem} {a : Nat} {xs : List Nat} {b : Nat × Nat}
    (hc : Chain m a xs) (hb : b ∈ blocksOf a xs) :
    read32 m b.1 = b.2 ∧ read32 m (b.1 + span b.2 - 4) = b.2 := by
  induction xs generalizing a with
  | nil => simp [blocksOf] at hb
  | cons h t ih =>
    simp only [blocksOf, List.mem_cons] at hb
    rcases hb with rfl | hb
    · exact ⟨hc.1, hc.2.1⟩
    · exact ih hc.2.2 hb

/-- Blocks of a valid layout are listed in address order without overlap. -/
theorem blocksOf_pairwise (a : Nat) (xs : List Nat) :
    (blocksOf a xs).Pairwise (fun x y => x.1 + span x.2 ≤ y.1) := by
  induction xs generalizing a with
  | nil => simp [blocksOf]
  | cons h t ih =>
    simp only [blocksOf, List.pairwise_cons]
    refine ⟨fun b hb => ?_, ih _⟩
    exact (mem_blocksOf_bounds hb).1

theorem walk_eq_blocksOf (m : Mem) (a : Nat) (xs : List Nat) (fuel : Nat)
    (hc : Chain m a xs) (hv : Valid xs) (hf : total xs ≤ fuel) :
    walk m (a + total xs) fuel a = blocksOf a xs := by
  induction xs generalizing a fuel with
  | nil =>
    cases fuel with
    | zero => rfl
    | succ f => simp [walk, blocksOf, total]
  | cons h t ih =>
    have h1 := valid_cons.1 hv
    obtain ⟨c1, _, c3⟩ := hc
    simp only [total] at hf ⊢
    cases fuel with
    | zero => omega
    | succ f =>
      simp only [walk, blocksOf]
      rw [if_pos (by omega), c1]
      have := ih (a + span h) f c3 h1.2 (by omega)
      rw [← Nat.add_assoc, this]

theorem heapBlocks_eq {m : Mem} {heap : Nat} {hs : List Nat} (hi : Layout m heap hs) :
    heapBlocks m heap = blocksOf (heapFirst m heap) hs := by
  unfold heapBlocks heapEnd
  rw [← hi.tot]
  exact walk_eq_blocksOf m _ hs _ hi.chain hi.valid (Nat.le_refl _)

theorem i32_small (z : Int) (h1 : -2147483648 ≤ z) (h2 : z < 2147483648) : i32 z = z := by
  unfold i32; omega

theorem i64_small (z : Int) (h1 : -9223372036854775808 ≤ z) (h2 : z < 9223372036854775808) :
    i64 z = z := by
  unfold i64; omega

/-- The conversion to `long` changes its argument by a multiple of `2^64`. -/
theorem i64_spec (z : Int) : ∃ q : Int, i64 z = z + q * 18446744073709551616 := by
  refine ⟨-((z + 9223372036854775808) / 18446744073709551616), ?_⟩
  unfold i64
  omega

theorem tmod_eight (x : Int) :
    (0 ≤ x → Int.tmod x 8 = x % 8) ∧ (x < 0 → Int.tmod x 8 = -((-x) % 8)) := by
  constructor
  · intro h
    exact Int.tmod_eq_emod h (by decide)
  · intro h
    have h2 : Int.tmod (-x) 8 = (-x) % 8 := Int.tmod_eq_emod (by omega) (by decide)
    have h3 : Int.tmod x 8 = -(Int.tmod (-x) 8) := by
      rw [Int.tmod_def, Int.tmod_def, Int.neg_tdiv]
      simp only [Int.mul_neg]
      omega
    omega

theorem tmod_eight_bounds (x : Int) : -8 < Int.tmod x 8 ∧ Int.tmod x 8 < 8 := by
  have h := tmod_eight x
  by_cases hx : 0 ≤ x
  · have := h.1 hx; omega
  · have := h.2 (by omega); omega

/-- The padding expression of `hl_init` is congruent to `-(heap + 4)` modulo 8, for
every base address. -/
theorem pad_mod (heap : Nat) (x : Int) (hx : i64 (i64 heap + 4) = x) :
    ((heap : Int) + (8 - Int.tmod x 8) + 20) % 8 = 0 := by
  obtain ⟨q1, hq1⟩ := i64_spec heap
  obtain ⟨q2, hq2⟩ := i64_spec (i64 heap + 4)
  rw [hx] at hq2
  generalize i64 (heap : Int) = y at hq1 hq2
  have hx8 : x % 8 = ((heap : Int) + 4) % 8 := by
    clear hx
    omega
  clear hq1 hq2 hx
  have h3 := tmod_eight x
  generalize Int.tmod x 8 = t at *
  by_cases h0 : 0 ≤ x
  · have := h3.1 h0
    omega
  · have := h3.2 (by omega)
    omega

/-- The padding that `hl_init` computes, as a natural number. -/
theorem init_padding (heap : Nat) :
    ∃ pad : Nat, i32 (8 - Int.tmod (i64 (i64 heap + 4)) 8) = pad ∧ 1 ≤ pad ∧ pad ≤ 15 ∧
      (heap + 4 < 9223372036854775808 → pad = 8 - (heap + 4) % 8) ∧
      (heap + pad + 20) % 8 = 0 := by
  generalize hx : i64 (i64 heap + 4) = x
  have hb := tmod_eight_bounds x
  have hmod := pad_mod heap x hx
  have h32 : i32 (8 - Int.tmod x 8) = 8 - Int.tmod x 8 := i32_small _ (by omega) (by omega)
  refine ⟨(8 - Int.tmod x 8).toNat, ?_, ?_, ?_, ?_, ?_⟩
  · rw [h32]; omega
  · omega
  · omega
  · intro hh
    have h1 : i64 (heap : Int) = heap := i64_small _ (by omega) (by omega)
    have h2 : x = heap + 4 := by
      rw [← hx, h1]; exact i64_small _ (by omega) (by omega)
    have h3 := (tmod_eight x).1 (by omega)
    omega
  · clear hx h32
    generalize Int.tmod x 8 = t at *
    omega

theorem i32_spec (z : Int) :
    ∃ q : Int, i32 z = z + q * 4294967296 ∧ -2147483648 ≤ i32 z ∧ i32 z < 2147483648 := by
  refine ⟨-((z + 2147483648) / 4294967296), ?_, ?_, ?_⟩ <;> unfold i32 <;> omega

/-- An `int` subtraction whose exact result is representable gives that result, even
when the cast of the unsigned operand wrapped. -/
theorem i32_i32_sub (x : Nat) (k : Int) (h1 : -2147483648 ≤ (x : Int) - k)
    (h2 : (x : Int) - k < 2147483648) : i32 (i32 x - k) = x - k := by
  obtain ⟨q1, e1, _, _⟩ := i32_spec x
  obtain ⟨q2, e2, _, _⟩ := i32_spec (i32 x - k)
  omega

theorem i32_i32_sub_neg (x : Nat) (k : Int) (h1 : -2147483648 ≤ (x : Int) - 4294967296 - k)
    (h2 : (x : Int) - 4294967296 - k < 2147483648) :
    i32 (i32 x - k) = x - 4294967296 - k := by
  obtain ⟨q1, e1, _, _⟩ := i32_spec x
  obtain ⟨q2, e2, _, _⟩ := i32_spec (i32 x - k)
  omega

theorem i32_nat (x : Nat) (h : x < 2147483648) : i32 x = x := i32_small _ (by omega) (by omega)

/-- What a successful `hl_init` writes, with the arithmetic resolved. -/
theorem hl_init_mem (c : Consts) (m : Mem) (heap heap_size : Nat)
    (hmin : 40 ≤ c.MIN_HEAP_SIZE) (hsz : c.MIN_HEAP_SIZE ≤ heap_size)
    (h32 : heap_size < 4294967296) (hfit : heap + heap_size < 18446744073709551616) :
    ∃ pad field endp : Nat, 1 ≤ pad ∧ pad ≤ 15 ∧
      (heap + 4 < 9223372036854775808 → pad = 8 - (heap + 4) % 8) ∧
      (heap + pad + 20) % 8 = 0 ∧
      field = (heap_size - pad - 16) / 8 * 8 ∧
      (field ≤ 2147483648 → endp = heap + pad + 16 + field - 4) ∧
      (2147483648 < field → endp + 4 ≤ heap ∨ heap + pad + 16 + field ≤ endp) ∧
      hl_init c m heap heap_size =
        (write32 (write32 (write64 (write32 (write32 m heap field) (heap + 4) pad)
          (heap + 8) (heap + pad + 16)) (heap + pad + 16) field) endp field, c.SUCCESS) := by
  obtain ⟨pad, hp, hp1, hp2, hp3, hp4⟩ := init_padding heap
  generalize hF : (heap_size - pad - 16) / 8 * 8 = field
  have hF1 : 8 ≤ field := by omega
  have hF2 : field + pad + 16 ≤ heap_size := by omega
  have hfield : u32 ((heap_size : Int) - pad - 16) / 8 * 8 = field := by
    have : u32 ((heap_size : Int) - pad - 16) = heap_size - pad - 16 := by
      unfold u32; omega
    rw [this, hF]
  have hfirst : ADD_BYTES heap (i32 ((pad : Int) + 16)) = heap + pad + 16 := by
    rw [i32_small _ (by omega) (by omega)]
    unfold ADD_BYTES; omega
  have hupad : u32 (pad : Int) = pad := u32_nat _ (by omega)
  refine ⟨pad, field, ADD_BYTES (heap + pad + 16) (i32 (i32 (field : Int) - 4)),
    hp1, hp2, hp3, hp4, hF.symm, ?_, ?_, ?_⟩
  · intro hle
    rw [i32_i32_sub _ _ (by omega) (by omega)]
    unfold ADD_BYTES; omega
  · intro hgt
    rw [i32_i32_sub_neg _ _ (by omega) (by omega)]
    unfold ADD_BYTES; omega
  · unfold hl_init
    rw [if_neg (by omega)]
    simp only [hp, hfield, hfirst, hupad]
    have hr1 : read32 (write64 (write32 (write32 m heap field)
        (heap + 4) pad) (heap + 8) (heap + pad + 16)) heap = field := by
      rw [read32_write64_ne _ _ _ _ (by omega), read32_write32_ne _ _ _ _ (by omega),
        read32_write32_same]
      omega
    have hr2 : read32 (write32 (write64 (write32 (write32 m heap field)
        (heap + 4) pad) (heap + 8) (heap + pad + 16)) (heap + pad + 16) field) heap = field := by
      rw [read32_write32_ne _ _ _ _ (by omega), hr1]
    have hr3 : read32 (write32 (write64 (write32 (write32 m heap field)
        (heap + 4) pad) (heap + 8) (heap + pad + 16)) (heap + pad + 16) field)
        (heap + pad + 16) = field := by
      rw [read32_write32_same]
      omega
    rw [hr1, hr2, hr3]

theorem init_reads (m : Mem) (heap pad field endp : Nat) (hp : pad ≤ 15)
    (hf : field < 4294967296) (hr : heap + pad + 16 < 18446744073709551616)
    (he : endp + 4 ≤ heap ∨ heap + pad + 16 + 4 ≤ endp) :
    let m' := write32 (write32 (write64 (write32 (write32 m heap field) (heap + 4) pad)
      (heap + 8) (heap + pad + 16)) (heap + pad + 16) field) endp field
    read32 m' heap = field ∧ read32 m' (heap + 4) = pad ∧ read64 m' (heap + 8) = heap + pad + 16 ∧
      read32 m' (heap + pad + 16) = field ∧ read32 m' endp = field := by
  intro m'
  refine ⟨?_, ?_, ?_, ?_, ?_⟩
  · show read32 (write32 _ _ _) _ = _
    rw [read32_write32_ne _ _ _ _ (by omega), read32_write32_ne _ _ _ _ (by omega),
      read32_write64_ne _ _ _ _ (by omega), read32_write32_ne _ _ _ _ (by omega),
      read32_write32_same]
    omega
  · show read32 (write32 _ _ _) _ = _
    rw [read32_write32_ne _ _ _ _ (by omega), read32_write32_ne _ _ _ _ (by omega),
      read32_write64_ne _ _ _ _ (by omega), read32_write32_same]
    omega
  · show read64 (write32 _ _ _) _ = _
    rw [read64_write32_ne _ _ _ _ (by omega), read64_write32_ne _ _ _ _ (by omega),
      read64_write64_same _ _ _ hr]
  · show read32 (write32 _ _ _) _ = _
    rw [read32_write32_ne _ _ _ _ (by omega), read32_write32_same]
    omega
  · show read32 (write32 _ _ _) _ = _
    rw [read32_write32_same]
    omega

/-- A successful `hl_init` leaves a well-formed heap: the layout invariant with a
single free block when the usable size is at most `2^31`, the fresh huge heap
otherwise. -/
theorem hl_init_spec (c : Consts) (m : Mem) (heap heap_size : Nat)
    (hmin : 40 ≤ c.MIN_HEAP_SIZE) (hsz : c.MIN_HEAP_SIZE ≤ heap_size)
    (h32 : heap_size < 4294967296) (hfit : heap + heap_size < 18446744073709551616) :
    let m' := (hl_init c m heap heap_size).1
    (hl_init c m heap heap_size).2 = c.SUCCESS ∧
    1 ≤ read32 m' (heap + 4) ∧
    (heapFirst m' heap + 4) % 8 = 0 ∧
    (heap + 4 < 9223372036854775808 → read32 m' (heap + 4) = 8 - (heap + 4) % 8) ∧
    read32 m' heap = (heap_size - read32 m' (heap + 4) - 16) / 8 * 8 ∧
    heapHint m' heap = heapFirst m' heap ∧
    read32 m' (heapFirst m' heap) = read32 m' heap ∧
    8 ≤ read32 m' heap ∧
    read32 m' (heap + 4) + 16 + read32 m' heap ≤ heap_size ∧
    (read32 m' heap ≤ 2147483648 → HeapInv m' heap [read32 m' heap]) ∧
    (2147483648 < read32 m' heap → HugeFresh m' heap) := by
  obtain ⟨pad, field, endp, hp1, hp2, hp3, hp4, hF, he1, he2, heq⟩ :=
    hl_init_mem c m heap heap_size hmin hsz h32 hfit
  have hF1 : 8 ≤ field := by omega
  have hF2 : field + pad + 16 ≤ heap_size := by omega
  have hF3 : field % 8 = 0 := by omega
  have hdis : endp + 4 ≤ heap ∨ heap + pad + 16 + 4 ≤ endp := by
    by_cases h : field ≤ 2147483648
    · have := he1 h; omega
    · have := he2 (by omega); omega
  have hrd := init_reads m heap pad field endp hp2 (by omega) (by omega) hdis
  intro m'
  have hm' : m' = write32 (write32 (write64 (write32 (write32 m heap field) (heap + 4) pad)
      (heap + 8) (heap + pad + 16)) (heap + pad + 16) field) endp field := by
    show (hl_init c m heap heap_size).1 = _
    rw [heq]
  rw [← hm'] at hrd
  obtain ⟨r1, r2, r3, r4, r5⟩ := hrd
  have hfirst : heapFirst m' heap = heap + pad + 16 := by unfold heapFirst; rw [r2]
  have hspan : span field = field := span_even _ (by omega)
  refine ⟨by rw [heq], by omega, ?_, ?_, ?_, ?_, ?_, by omega, by omega, ?_, ?_⟩
  · rw [hfirst]; omega
  · intro h; rw [r2]; exact hp3 h
  · rw [r1, r2]; exact hF
  · unfold heapHint; rw [r3, hfirst]
  · rw [hfirst, r4, r1]
  · intro hle
    rw [r1] at hle
    have hend := he1 hle
    refine ⟨⟨by omega, ?_, by omega, ?_, ?_, ?_⟩, ?_⟩
    · unfold heapEnd; rw [hfirst, r1]; omega
    · rw [r1]; simp only [total]; omega
    · rw [hfirst, r1]
      refine ⟨r4, ?_, trivial⟩
      rw [hspan, ← hend]; exact r5
    · intro h hh
      simp only [List.mem_singleton] at hh
      rw [hh, r1, hspan]; omega
    · refine ⟨[], [read32 m' heap], rfl, ?_, by simp⟩
      unfold heapHint; rw [r3, hfirst]; simp [total]
  · intro hgt
    rw [r1] at hgt
    refine ⟨by omega, ?_, by omega, by omega, ?_, ?_⟩
    · unfold heapEnd; rw [hfirst, r1]; omega
    · rw [hfirst, r4, r1]
    · unfold heapHint; rw [r3, hfirst]

/-! ## The two loops of `hl_alloc` -/

theorem exists_split (p : Nat → Prop) [DecidablePred p] (l : List Nat) :
    ∃ xs ys, l = xs ++ ys ∧ (∀ x ∈ xs, p x) ∧ (∀ y ys', ys = y :: ys' → ¬ p y) := by
  induction l with
  | nil => exact ⟨[], [], rfl, by simp, by simp⟩
  | cons a t ih =>
    by_cases h : p a
    · obtain ⟨xs, ys, e, h1, h2⟩ := ih
      refine ⟨a :: xs, ys, by rw [e]; rfl, ?_, h2⟩
      intro x hx
      rcases List.mem_cons.1 hx with rfl | hx
      · exact h
      · exact h1 x hx
    · refine ⟨[], a :: t, rfl, by simp, ?_⟩
      intro y ys' e
      cases e
      exact h

theorem chain_lt {m : Mem} {a : Nat} {xs : List Nat} (hc : Chain m a xs) :
    ∀ h ∈ xs, h < 4294967296 := by
  induction xs generalizing a with
  | nil => simp
  | cons x t ih =>
    intro h hh
    rcases List.mem_cons.1 hh with rfl | hh
    · rw [← hc.1]; exact read32_lt _ _
    · exact ih hc.2.2 h hh

theorem allocScan_succ (m : Mem) (e r f a : Nat) :
    allocScan m e r (f + 1) a =
      if a < e ∧ NoFit r (read32 m a) then
        allocScan m e r f (ADD_BYTES a ((read32 m a : Int) / 2 * 2))
      else some a := rfl

theorem ADD_BYTES_span (a h : Nat) (hlt : a + span h < 18446744073709551616) :
    ADD_BYTES a ((h : Int) / 2 * 2) = a + span h := by
  unfold ADD_BYTES
  unfold span at *
  omega

/-- The search loop skips a run of blocks none of which fits and stops right after
it. -/
theorem allocScan_skip (m : Mem) (e r : Nat) (he : e < 18446744073709551616) :
    ∀ (xs : List Nat) (a fuel : Nat), Chain m a xs → Valid xs → (∀ h ∈ xs, NoFit r h) →
      a + total xs ≤ e → ¬ (a + total xs < e ∧ NoFit r (read32 m (a + total xs))) →
      xs.length < fuel → allocScan m e r fuel a = some (a + total xs) := by
  intro xs
  induction xs with
  | nil =>
    intro a fuel _ _ _ _ hstop hf
    cases fuel with
    | zero => omega
    | succ f =>
      simp only [total, Nat.add_zero] at hstop ⊢
      rw [allocScan_succ, if_neg hstop]
  | cons h t ih =>
    intro a fuel hc hv hn hle hstop hf
    have h1 := valid_cons.1 hv
    simp only [total] at hle hstop ⊢
    cases fuel with
    | zero => omega
    | succ f =>
      simp only [List.length_cons] at hf
      rw [allocScan_succ, hc.1, if_pos ⟨by omega, hn h (List.mem_cons_self _ _)⟩,
        ADD_BYTES_span _ _ (by omega), ← Nat.add_assoc]
      refine ih _ _ hc.2.2 h1.2 (fun x hx => hn x (List.mem_cons_of_mem _ hx)) (by omega) ?_
        (by omega)
      rw [Nat.add_assoc]; exact hstop

theorem hintScan_succ (m : Mem) (e f a : Nat) :
    hintScan m e (f + 1) a =
      if a < e ∧ read32 m a % 2 ≠ 0 then
        hintScan m e f (ADD_BYTES a (u32 ((read32 m a : Int) - 1)))
      else some a := rfl

/-- The hint loop skips a run of allocated blocks and stops right after it. -/
theorem hintScan_skip (m : Mem) (e : Nat) (he : e < 18446744073709551616) :
    ∀ (xs : List Nat) (a fuel : Nat), Chain m a xs → Valid xs → (∀ h ∈ xs, h % 2 = 1) →
      a + total xs ≤ e → ¬ (a + total xs < e ∧ read32 m (a + total xs) % 2 ≠ 0) →
      xs.length < fuel → hintScan m e fuel a = some (a + total xs) := by
  intro xs
  induction xs with
  | nil =>
    intro a fuel _ _ _ _ hstop hf
    cases fuel with
    | zero => omega
    | succ f =>
      simp only [total, Nat.add_zero] at hstop ⊢
      rw [hintScan_succ, if_neg hstop]
  | cons h t ih =>
    intro a fuel hc hv hn hle hstop hf
    have h1 := valid_cons.1 hv
    have hodd := hn h (List.mem_cons_self _ _)
    have hlt : h < 4294967296 := chain_lt hc h (List.mem_cons_self _ _)
    simp only [total] at hle hstop ⊢
    cases fuel with
    | zero => omega
    | succ f =>
      simp only [List.length_cons] at hf
      have hstep : ADD_BYTES a (u32 ((h : Int) - 1)) = a + span h := by
        have : u32 ((h : Int) - 1) = span h := by unfold u32 span; omega
        rw [this]; exact ADD_BYTES_nat _ _ (by omega)
      rw [hintScan_succ, hc.1, if_pos ⟨by omega, by omega⟩, hstep, ← Nat.add_assoc]
      refine ih _ _ hc.2.2 h1.2 (fun x hx => hn x (List.mem_cons_of_mem _ hx)) (by omega) ?_
        (by omega)
      rw [Nat.add_assoc]; exact hstop

/-! ## Frame lemmas -/

theorem sameOutside_refl (m : Mem) (lo hi : Nat) : SameOutside m m lo hi :=
  fun _ _ => rfl

theorem sameOutside_trans {m1 m2 m3 : Mem} {lo hi : Nat}
    (h12 : SameOutside m1 m2 lo hi) (h23 : SameOutside m2 m3 lo hi) :
    SameOutside m1 m3 lo hi :=
  fun x h1 => (h23 x h1).trans (h12 x h1)

theorem sameOutside_mono {m m' : Mem} {lo hi lo' hi' : Nat}
    (h : SameOutside m m' lo hi) (h1 : lo' ≤ lo) (h2 : hi ≤ hi') :
    SameOutside m m' lo' hi' :=
  fun x hx1 => h x (by omega)

theorem sameOutside_write32 (m : Mem) (lo hi w v : Nat) (h1 : lo ≤ w) (h2 : w + 4 ≤ hi) :
    SameOutside m (write32 m w v) lo hi :=
  fun x hx => read8_write32_ne m w v x (by omega)

theorem sameOutside_read32 {m m' : Mem} {lo hi b : Nat} (h : SameOutside m m' lo hi)
    (h1 : b + 4 ≤ lo ∨ hi ≤ b) : read32 m' b = read32 m b :=
  read32_congr (fun x hx1 hx2 => h x (by omega))

theorem sameOutside_read64 {m m' : Mem} {lo hi b : Nat} (h : SameOutside m m' lo hi)
    (h1 : b + 8 ≤ lo ∨ hi ≤ b) : read64 m' b = read64 m b :=
  read64_congr (fun x hx1 hx2 => h x (by omega))

theorem frame_of_sameOutside {m m' : Mem} {heap lo hi : Nat} (h : SameOutside m m' lo hi) :
    Frame m m' heap lo hi :=
  fun x hx _ => h x hx

theorem frame_hint {m m' : Mem} {heap lo hi : Nat} (v : Nat) (h : SameOutside m m' lo hi) :
    Frame m (write64 m' (heap + 8) v) heap lo hi :=
  fun x hx1 hx2 => (read8_write64_ne m' (heap + 8) v x (by omega)).trans (h x hx1)


/-! ## Replacing a run of blocks -/

theorem heapFirst_ge (m : Mem) (heap : Nat) : heap + 16 ≤ heapFirst m heap := by
  unfold heapFirst; omega

theorem fields_same {m m' : Mem} (heap : Nat) {lo hi : Nat} (h : SameOutside m m' lo hi)
    (hlo : heap + 16 ≤ lo) :
    read32 m' heap = read32 m heap ∧ read32 m' (heap + 4) = read32 m (heap + 4) ∧
      heapHint m' heap = heapHint m heap ∧ heapFirst m' heap = heapFirst m heap ∧
      heapEnd m' heap = heapEnd m heap := by
  have h1 : read32 m' heap = read32 m heap := sameOutside_read32 h (by omega)
  have h2 : read32 m' (heap + 4) = read32 m (heap + 4) := sameOutside_read32 h (by omega)
  have h3 : read64 m' (heap + 8) = read64 m (heap + 8) := sameOutside_read64 h (by omega)
  refine ⟨h1, h2, h3, ?_, ?_⟩
  · unfold heapFirst; rw [h2]
  · unfold heapEnd heapFirst; rw [h1, h2]

/-- Replacing the run `mid` of blocks by the run `mid'` over the same bytes keeps
the layout, when nothing outside the run changes. -/
theorem layout_replace {m m' : Mem} {heap : Nat} {pre mid : List Nat} (mid' : List Nat)
    {rest : List Nat}
    (hl : Layout m heap (pre ++ (mid ++ rest)))
    (hsame : SameOutside m m' (heapFirst m heap + total pre)
      (heapFirst m heap + total pre + total mid))
    (hc : Chain m' (heapFirst m heap + total pre) mid') (ht : total mid' = total mid)
    (hv : Valid mid') :
    Layout m' heap (pre ++ (mid' ++ rest)) := by
  have hF := heapFirst_ge m heap
  obtain ⟨f1, f2, _, f4, f5⟩ := fields_same heap hsame (by omega)
  have hch := (chain_append _ _ _ _).1 hl.chain
  have hch2 := (chain_append _ _ _ _).1 hch.2
  have hval := valid_append.1 hl.valid
  have hval2 := valid_append.1 hval.2
  refine ⟨by rw [f2]; exact hl.pad, by rw [f5]; exact hl.range, by rw [f1]; exact hl.small,
    ?_, ?_, ?_⟩
  · rw [f1, ← hl.tot]
    simp only [total_append, ht]
  · rw [f4]
    refine (chain_append _ _ _ _).2 ⟨?_, (chain_append _ _ _ _).2 ⟨hc, ?_⟩⟩
    · exact chain_congr hval.1 (fun b hb1 hb2 => sameOutside_read32 hsame (by omega)) hch.1
    · rw [ht]
      exact chain_congr hval2.2 (fun b hb1 hb2 => sameOutside_read32 hsame (by omega)) hch2.2
  · exact valid_append.2 ⟨hval.1, valid_append.2 ⟨hv, hval2.2⟩⟩

/-- Writing the hint field keeps the layout. -/
theorem layout_setHint {m : Mem} {heap : Nat} {hs : List Nat} (hl : Layout m heap hs)
    (v : Nat) (hv : v < 18446744073709551616) :
    Layout (write64 m (heap + 8) v) heap hs ∧ heapHint (write64 m (heap + 8) v) heap = v ∧
      heapFirst (write64 m (heap + 8) v) heap = heapFirst m heap := by
  have hF := heapFirst_ge m heap
  have h1 : read32 (write64 m (heap + 8) v) heap = read32 m heap :=
    read32_write64_ne _ _ _ _ (by omega)
  have h2 : read32 (write64 m (heap + 8) v) (heap + 4) = read32 m (heap + 4) :=
    read32_write64_ne _ _ _ _ (by omega)
  have h4 : heapFirst (write64 m (heap + 8) v) heap = heapFirst m heap := by
    unfold heapFirst; rw [h2]
  have h5 : heapEnd (write64 m (heap + 8) v) heap = heapEnd m heap := by
    unfold heapEnd; rw [h4, h1]
  refine ⟨⟨by rw [h2]; exact hl.pad, by rw [h5]; exact hl.range, by rw [h1]; exact hl.small,
    by rw [h1]; exact hl.tot, ?_, hl.valid⟩, ?_, h4⟩
  · rw [h4]
    exact chain_congr hl.valid (fun b hb1 hb2 => read32_write64_ne _ _ _ _ (by omega)) hl.chain
  · unfold heapHint; exact read64_write64_same _ _ _ hv

/-- Facts about the block `h` of a layout `pre ++ h :: rest`. -/
theorem layout_block {m : Mem} {heap : Nat} {pre rest : List Nat} {h : Nat}
    (hl : Layout m heap (pre ++ h :: rest)) :
    read32 m (heapFirst m heap + total pre) = h ∧
      read32 m (heapFirst m heap + total pre + span h - 4) = h ∧
      8 ≤ span h ∧ span h % 8 = 0 ∧ h < 4294967296 ∧
      heapFirst m heap + total pre + span h + total rest = heapEnd m heap ∧
      heapEnd m heap < 18446744073709551616 ∧ span h ≤ 2147483648 ∧
      Chain m (heapFirst m heap + total pre + span h) rest ∧ Valid rest ∧ Valid pre ∧
      Chain m (heapFirst m heap) pre := by
  have hch := (chain_append _ _ _ _).1 hl.chain
  have hval := valid_append.1 hl.valid
  have hv := valid_cons.1 hval.2
  have ht := hl.tot
  rw [total_append] at ht
  simp only [total] at ht
  have hsm := hl.small
  refine ⟨hch.2.1, hch.2.2.1, hv.1.1, hv.1.2, ?_, ?_, hl.range, by omega, hch.2.2.2, hv.2,
    hval.1, hch.1⟩
  · rw [← hch.2.1]; exact read32_lt _ _
  · unfold heapEnd; omega


/-! ## The two branches of `hl_alloc` -/

/-- The consume branch on a free block with header word `h`: header and footer
become `h + 1`, nothing else in the block changes, and the hint is advanced by
the hint loop when the block was the hint. -/
theorem allocConsume_spec (m : Mem) (heap E a h : Nat) (hr : read32 m a = h)
    (hf : read32 m (a + h - 4) = h) (h8 : 8 ≤ h) (hsm : h ≤ 2147483648)
    (ha : heap + 16 ≤ a) (hE : a + h ≤ E) (hE2 : E < 18446744073709551616) :
    let m2 := write32 (write32 m a (h + 1)) (a + h - 4) (h + 1)
    read32 m2 a = h + 1 ∧ read32 m2 (a + h - 4) = h + 1 ∧ SameOutside m m2 a (a + h) ∧
    allocConsume m heap E a =
      if a = read64 m (heap + 8) then
        match hintScan m2 E (E - (a + h) + 1) (a + h) with
        | none => none
        | some next_empty => some (write64 m2 (heap + 8) next_empty, a + 4)
      else some (m2, a + 4) := by
  intro m2
  have e2 : u32 ((h : Int) - 4) = h - 4 := by unfold u32; omega
  have e3 : ADD_BYTES a ((h - 4 : Nat) : Int) = a + h - 4 := by unfold ADD_BYTES; omega
  have e4 : u32 ((h : Int) + 1) = h + 1 := by unfold u32; omega
  have e5 : read32 (write32 m a (h + 1)) (a + h - 4) = h := by
    rw [read32_write32_ne _ _ _ _ (by omega), hf]
  have e6 : read64 (write32 (write32 m a (h + 1)) (a + h - 4) (h + 1)) (heap + 8) =
      read64 m (heap + 8) := by
    rw [read64_write32_ne _ _ _ _ (by omega), read64_write32_ne _ _ _ _ (by omega)]
  have e7 : read32 (write32 (write32 m a (h + 1)) (a + h - 4) (h + 1)) a = h + 1 := by
    rw [read32_write32_ne _ _ _ _ (by omega), read32_write32_same]; omega
  have e7b : read32 (write32 (write32 m a (h + 1)) (a + h - 4) (h + 1)) (a + h - 4) = h + 1 := by
    rw [read32_write32_same]; omega
  have e8 : u32 (((h + 1 : Nat) : Int) - 1) = h := by unfold u32; omega
  have e9 : ADD_BYTES a (h : Int) = a + h := ADD_BYTES_nat _ _ (by omega)
  have e10 : ADD_BYTES a 4 = a + 4 := ADD_BYTES_four _ (by omega)
  refine ⟨e7, e7b, ?_, ?_⟩
  · exact sameOutside_trans (sameOutside_write32 m a (a + h) a (h + 1) (by omega) (by omega))
      (sameOutside_write32 _ a (a + h) (a + h - 4) (h + 1) (by omega) (by omega))
  · unfold allocConsume
    simp only [hr, e2, e3, e4, e5, e6, e7, e8, e9, e10]

/-- The split branch on a free block with header word `h` for a rounded request
`r`: an allocated block of span `r + 8` followed by a free block of span
`h - r - 8`. -/
theorem allocSplit_spec (m : Mem) (heap a h r : Nat) (h8 : r + 24 ≤ h) (hsm : h ≤ 2147483648)
    (ha : heap + 16 ≤ a) (hE : a + h < 18446744073709551616) :
    let m4 := write32 (write32 (write32 (write32 m a (r + 9)) (a + r + 4) (r + 9))
      (a + r + 8) (h - r - 8)) (a + h - 4) (h - r - 8)
    read32 m4 a = r + 9 ∧ read32 m4 (a + r + 4) = r + 9 ∧ read32 m4 (a + r + 8) = h - r - 8 ∧
    read32 m4 (a + h - 4) = h - r - 8 ∧ SameOutside m m4 a (a + h) ∧
    allocSplit m heap a r (h - r - 8) =
      if a = read64 m (heap + 8) then some (write64 m4 (heap + 8) (a + r + 8), a + 4)
      else some (m4, a + 4) := by
  intro m4
  have e1 : u32 ((r : Int) + 9) = r + 9 := by unfold u32; omega
  have e2 : read32 (write32 m a (r + 9)) a = r + 9 := by
    rw [read32_write32_same]; omega
  have e3 : u32 (((r + 9 : Nat) : Int) - 5) = r + 4 := by unfold u32; omega
  have e4 : ADD_BYTES a ((r + 4 : Nat) : Int) = a + r + 4 := by unfold ADD_BYTES; omega
  have e5 : read32 (write32 (write32 m a (r + 9)) (a + r + 4) (r + 9)) a = r + 9 := by
    rw [read32_write32_ne _ _ _ _ (by omega), e2]
  have e6 : u32 (((r + 9 : Nat) : Int) - 1) = r + 8 := by unfold u32; omega
  have e7 : ADD_BYTES a ((r + 8 : Nat) : Int) = a + r + 8 := by unfold ADD_BYTES; omega
  have e8 : read32 (write32 (write32 (write32 m a (r + 9)) (a + r + 4) (r + 9))
      (a + r + 8) (h - r - 8)) (a + r + 8) = h - r - 8 := by
    rw [read32_write32_same]; omega
  have e9 : u32 (((h - r - 8 : Nat) : Int) - 4) = h - r - 12 := by unfold u32; omega
  have e10 : ADD_BYTES (a + r + 8) ((h - r - 12 : Nat) : Int) = a + h - 4 := by
    unfold ADD_BYTES; omega
  have e11 : read64 (write32 (write32 (write32 (write32 m a (r + 9)) (a + r + 4) (r + 9))
      (a + r + 8) (h - r - 8)) (a + h - 4) (h - r - 8)) (heap + 8) = read64 m (heap + 8) := by
    rw [read64_write32_ne _ _ _ _ (by omega), read64_write32_ne _ _ _ _ (by omega),
      read64_write32_ne _ _ _ _ (by omega), read64_write32_ne _ _ _ _ (by omega)]
  have e12 : ADD_BYTES a 4 = a + 4 := ADD_BYTES_four _ (by omega)
  refine ⟨?_, ?_, ?_, ?_, ?_, ?_⟩
  · show read32 (write32 _ _ _) _ = _
    rw [read32_write32_ne _ _ _ _ (by omega), read32_write32_ne _ _ _ _ (by omega), e5]
  · show read32 (write32 _ _ _) _ = _
    rw [read32_write32_ne _ _ _ _ (by omega), read32_write32_ne _ _ _ _ (by omega),
      read32_write32_same]
    omega
  · show read32 (write32 _ _ _) _ = _
    rw [read32_write32_ne _ _ _ _ (by omega), e8]
  · show read32 (write32 _ _ _) _ = _
    rw [read32_write32_same]; omega
  · exact sameOutside_trans (sameOutside_trans (sameOutside_trans
      (sameOutside_write32 m a (a + h) a (r + 9) (by omega) (by omega))
      (sameOutside_write32 _ a (a + h) (a + r + 4) (r + 9) (by omega) (by omega)))
      (sameOutside_write32 _ a (a + h) (a + r + 8) (h - r - 8) (by omega) (by omega)))
      (sameOutside_write32 _ a (a + h) (a + h - 4) (h - r - 8) (by omega) (by omega))
  · unfold allocSplit
    simp only [e1, e2, e3, e4, e5, e6, e7, e8, e9, e10, e11, e12]

/-! ## `hl_alloc` on a heap that satisfies the layout invariant -/

theorem hl_alloc_eq (m : Mem) (heap n : Nat) (hpad : read32 m (heap + 4) ≤ 15)
    (hrange : heapEnd m heap < 18446744073709551616) :
    hl_alloc m heap n =
      match allocScan m (heapEnd m heap) (roundUp n) (heapEnd m heap - heapHint m heap + 1)
        (heapHint m heap) with
      | none => none
      | some empty =>
        if empty < heapEnd m heap then
          if u32 ((read32 m empty : Int) - roundUp n - 8) < 16 then
            allocConsume m heap (heapEnd m heap) empty
          else allocSplit m heap empty (roundUp n) (u32 ((read32 m empty : Int) - roundUp n - 8))
        else some (m, 0) := by
  have hF : ADD_BYTES heap (u32 ((read32 m (heap + 4) : Int) + 16)) = heapFirst m heap := by
    have : u32 ((read32 m (heap + 4) : Int) + 16) = read32 m (heap + 4) + 16 := by
      unfold u32; omega
    rw [this]
    unfold heapEnd heapFirst at *
    unfold ADD_BYTES; omega
  have hE : ADD_BYTES (heapFirst m heap) (read32 m heap) = heapEnd m heap := by
    unfold heapEnd at *
    exact ADD_BYTES_nat _ _ hrange
  unfold hl_alloc
  simp only [hF, hE]
  rfl

/-- The search of `hl_alloc`, started at the hint, stops on the first block that
fits. -/
theorem alloc_scan_found {m : Mem} {heap r : Nat} {pre skipped rest : List Nat} {h : Nat}
    (hl : Layout m heap (pre ++ (skipped ++ h :: rest)))
    (hhint : heapHint m heap = heapFirst m heap + total pre)
    (hskip : ∀ x ∈ skipped, NoFit r x) (hfit : ¬ NoFit r h) :
    allocScan m (heapEnd m heap) r (heapEnd m heap - heapHint m heap + 1) (heapHint m heap) =
      some (heapFirst m heap + total pre + total skipped) := by
  have hch := (chain_append _ _ _ _).1 hl.chain
  have hch2 := (chain_append _ _ _ _).1 hch.2
  have hval := valid_append.1 hl.valid
  have hval2 := valid_append.1 hval.2
  have hv := valid_cons.1 hval2.2
  have ht := hl.tot
  rw [total_append, total_append] at ht
  simp only [total] at ht
  have hlen := total_ge_length skipped hval2.1
  have hE : heapEnd m heap = heapFirst m heap + read32 m heap := rfl
  rw [hhint]
  refine allocScan_skip m _ r hl.range skipped _ _ hch2.1 hval2.1 hskip (by omega) ?_ (by omega)
  rintro ⟨_, hno⟩
  rw [hch2.2.1] at hno
  exact hfit hno

/-- The search of `hl_alloc` reaches the end of the region when no block from the
hint on fits. -/
theorem alloc_scan_none {m : Mem} {heap r : Nat} {pre skipped : List Nat}
    (hl : Layout m heap (pre ++ skipped))
    (hhint : heapHint m heap = heapFirst m heap + total pre)
    (hskip : ∀ x ∈ skipped, NoFit r x) :
    allocScan m (heapEnd m heap) r (heapEnd m heap - heapHint m heap + 1) (heapHint m heap) =
      some (heapEnd m heap) := by
  have hch := (chain_append _ _ _ _).1 hl.chain
  have hval := valid_append.1 hl.valid
  have ht := hl.tot
  rw [total_append] at ht
  have hlen := total_ge_length skipped hval.2
  have hE : heapEnd m heap = heapFirst m heap + total pre + total skipped := by
    unfold heapEnd; omega
  rw [hhint]
  have := allocScan_skip m (heapEnd m heap) r hl.range skipped (heapFirst m heap + total pre)
    (heapEnd m heap - (heapFirst m heap + total pre) + 1) hch.2 hval.2 hskip (by omega)
    (by rintro ⟨h1, _⟩; omega) (by omega)
  rw [this, hE]

/-- Out of memory: when no block from the hint on fits, `hl_alloc` returns `NULL` and
the memory it was given. -/
theorem hl_alloc_null {m : Mem} {heap n : Nat} {pre skipped : List Nat}
    (hl : Layout m heap (pre ++ skipped))
    (hhint : heapHint m heap = heapFirst m heap + total pre)
    (hskip : ∀ x ∈ skipped, NoFit (roundUp n) x) :
    hl_alloc m heap n = some (m, 0) := by
  rw [hl_alloc_eq m heap n hl.pad hl.range, alloc_scan_none hl hhint hskip]
  simp only []
  rw [if_neg (Nat.lt_irrefl _)]


/-- Meaning of "the block fits" on a block of a layout. -/
theorem fit_block {r h : Nat} (hr : r ≤ 2147483640) (h8 : 8 ≤ span h)
    (hsm : span h ≤ 2147483648) (hfit : ¬ NoFit r h) : h % 2 = 0 ∧ r + 8 ≤ h ∧ span h = h := by
  have := (noFit_iff r h hr h8 hsm).not.1 hfit
  have h2 : h % 2 = 0 := by omega
  have h3 := span_even h h2
  omega

/-- The block that `hl_alloc` selects is consumed or split; nothing outside that
block and the hint field changes.  Here `pre` are the blocks below the hint,
`skipped` the blocks from the hint on that do not fit, `h` the first block that
fits, and `oddrun` the allocated blocks that follow it directly. -/
theorem hl_alloc_found {m : Mem} {heap n : Nat} {pre skipped rest oddrun rest2 : List Nat}
    {h : Nat} (hl : Layout m heap (pre ++ (skipped ++ h :: rest)))
    (hhint : heapHint m heap = heapFirst m heap + total pre) (hn : n ≤ 2147483640)
    (hskip : ∀ x ∈ skipped, NoFit (roundUp n) x) (hfit : ¬ NoFit (roundUp n) h)
    (hrest : rest = oddrun ++ rest2) (hodd : ∀ x ∈ oddrun, x % 2 = 1)
    (hstop : ∀ y ys, rest2 = y :: ys → ¬ y % 2 = 1) :
    ∃ m', hl_alloc m heap n = some (m', heapFirst m heap + total pre + total skipped + 4) ∧
      Layout m' heap (pre ++ (skipped ++
        ((if h - roundUp n - 8 < 16 then [h + 1] else [roundUp n + 9, h - roundUp n - 8]) ++
          rest))) ∧
      heapHint m' heap =
        (if skipped = [] then
          (if h - roundUp n - 8 < 16 then
            heapFirst m heap + total pre + total skipped + h + total oddrun
          else heapFirst m heap + total pre + total skipped + roundUp n + 8)
        else heapHint m heap) ∧
      heapFirst m' heap = heapFirst m heap ∧
      Frame m m' heap (heapFirst m heap + total pre + total skipped)
        (heapFirst m heap + total pre + total skipped + h) := by
  obtain ⟨_, _, hr8, hrsm⟩ := roundUp_spec n hn
  generalize hrn : roundUp n = r at *
  have hl' : Layout m heap ((pre ++ skipped) ++ h :: rest) := by
    rw [List.append_assoc]; exact hl
  obtain ⟨b1, b2, b3, b4, b5, b6, b7, b8, b9, b10, b11, b12⟩ := layout_block hl'
  rw [total_append, ← Nat.add_assoc] at b1 b2 b6 b9
  obtain ⟨f1, f2, f3⟩ := fit_block hrsm b3 b8 hfit
  rw [f3] at b2 b3 b4 b6 b8 b9
  have hF := heapFirst_ge m heap
  have hscan := alloc_scan_found hl hhint hskip hfit
  have hval11 := valid_append.1 b11
  generalize ha : heapFirst m heap + total pre + total skipped = a at *
  have hnext : u32 ((h : Int) - r - 8) = h - r - 8 := by unfold u32; omega
  have hiff : a = read64 m (heap + 8) ↔ skipped = [] := by
    have : read64 m (heap + 8) = heapFirst m heap + total pre := hhint
    rw [this]
    constructor
    · intro e
      exact total_eq_zero hval11.2 (by omega)
    · intro e
      rw [e] at ha
      simp only [total] at ha
      omega
  have hlm : Layout m heap (pre ++ (skipped ++ ([h] ++ rest))) := hl
  rw [← List.append_assoc pre skipped, ← List.append_assoc (pre ++ skipped)]
  rw [← List.append_assoc pre skipped, ← List.append_assoc (pre ++ skipped)] at hlm
  rw [List.append_assoc (pre ++ skipped)] at hlm ⊢
  have hlo : heapFirst m heap + total (pre ++ skipped) = a := by
    rw [total_append, ← Nat.add_assoc]; exact ha
  have htot1 : total [h] = h := by simp [total, f3]
  rw [hl_alloc_eq m heap n hl.pad hl.range, hrn, hscan]
  simp only []
  rw [if_pos (by omega), b1, hnext]
  by_cases hc : h - r - 8 < 16
  · -- consume
    rw [if_pos hc, if_pos hc, if_pos hc]
    obtain ⟨c1, c2, c3, c4⟩ := allocConsume_spec m heap (heapEnd m heap) a h b1 b2 (by omega)
      (by omega) (by omega) (by omega) b7
    rw [c4]
    have hsp : span (h + 1) = h := span_succ h f1
    have hlay2 := layout_replace ([h + 1]) hlm (by rw [hlo, htot1]; exact c3)
      (by rw [hlo]; exact ⟨c1, by rw [hsp]; exact c2, trivial⟩)
      (by simp [total, hsp, f3])
      (by intro x hx; simp only [List.mem_singleton] at hx; rw [hx, hsp]; omega)
    obtain ⟨g1, g2, g3, g4, g5⟩ := fields_same heap c3 (by omega)
    by_cases hs : skipped = []
    · rw [if_pos (hiff.2 hs), if_pos hs]
      have hch9 : Chain m (a + h) (oddrun ++ rest2) := by rw [← hrest]; exact b9
      have hch9' := (chain_append _ _ _ _).1 hch9
      have hval10 : Valid (oddrun ++ rest2) := by rw [← hrest]; exact b10
      have hval10' := valid_append.1 hval10
      have hb6 : a + h + total oddrun + total rest2 = heapEnd m heap := by
        rw [← b6, hrest, total_append]; omega
      have hlen := total_ge_length oddrun hval10'.1
      have hchm2 : Chain (write32 (write32 m a (h + 1)) (a + h - 4) (h + 1)) (a + h) oddrun :=
        chain_congr hval10'.1 (fun b hb1 hb2 => sameOutside_read32 c3 (by omega)) hch9'.1
      have hsc := hintScan_skip (write32 (write32 m a (h + 1)) (a + h - 4) (h + 1))
        (heapEnd m heap) b7 oddrun (a + h) (heapEnd m heap - (a + h) + 1) hchm2 hval10'.1 hodd
        (by omega) ?_ (by omega)
      · rw [hsc]
        simp only []
        obtain ⟨k1, k2, k3⟩ := layout_setHint hlay2 (a + h + total oddrun) (by omega)
        exact ⟨_, rfl, k1, k2, by rw [k3, g4], frame_hint _ c3⟩
      · rintro ⟨s1, s2⟩
        cases hr2 : rest2 with
        | nil =>
          rw [hr2] at hb6
          simp only [total] at hb6
          omega
        | cons y ys =>
          have hy := hstop y ys hr2
          rw [hr2] at hch9'
          have hrd : read32 m (a + h + total oddrun) = y := hch9'.2.1
          have hv2 := valid_cons.1 (hr2 ▸ hval10'.2)
          rw [hr2] at hb6
          simp only [total] at hb6
          rw [sameOutside_read32 c3 (by omega), hrd] at s2
          omega
    · rw [if_neg (fun e => hs (hiff.1 e)), if_neg hs]
      exact ⟨_, rfl, hlay2, g3, g4, frame_of_sameOutside c3⟩
  · -- split
    rw [if_neg hc, if_neg hc, if_neg hc]
    obtain ⟨c1, c2, c3, c4, c5, c6⟩ := allocSplit_spec m heap a h r (by omega) (by omega)
      (by omega) (by omega)
    rw [c6]
    have hsp1 : span (r + 9) = r + 8 := by unfold span; omega
    have hsp2 : span (h - r - 8) = h - r - 8 := span_even _ (by omega)
    have hlay2 := layout_replace ([r + 9, h - r - 8]) hlm (by rw [hlo, htot1]; exact c5)
      (by
        rw [hlo]
        refine ⟨c1, ?_, ?_, ?_, trivial⟩
        · rw [hsp1]
          have : a + (r + 8) - 4 = a + r + 4 := by omega
          rw [this]; exact c2
        · rw [hsp1, ← Nat.add_assoc]; exact c3
        · rw [hsp1, hsp2]
          have : a + (r + 8) + (h - r - 8) - 4 = a + h - 4 := by omega
          rw [this]; exact c4)
      (by simp only [total, hsp1, hsp2, f3]; omega)
      (by
        intro x hx
        simp only [List.mem_cons, List.mem_singleton, List.not_mem_nil, or_false] at hx
        rcases hx with rfl | rfl
        · rw [hsp1]; omega
        · rw [hsp2]; omega)
    obtain ⟨g1, g2, g3, g4, g5⟩ := fields_same heap c5 (by omega)
    by_cases hs : skipped = []
    · rw [if_pos (hiff.2 hs), if_pos hs]
      obtain ⟨k1, k2, k3⟩ := layout_setHint hlay2 (a + r + 8) (by omega)
      exact ⟨_, rfl, k1, k2, by rw [k3, g4], frame_hint _ c5⟩
    · rw [if_neg (fun e => hs (hiff.1 e)), if_neg hs]
      exact ⟨_, rfl, hlay2, g3, g4, frame_of_sameOutside c5⟩

/-! ## `hl_release` on a heap that satisfies the layout invariant -/

theorem total_merge (s : Nat) (hs : s % 2 = 0) (rest : List Nat) :
    total (mergedSpan s rest :: afterMerge rest) = s + total rest := by
  cases rest with
  | nil => simp [mergedSpan, afterMerge, total, span_even s hs]
  | cons t r =>
    by_cases ht : t % 2 = 0
    · simp only [mergedSpan, afterMerge, if_pos ht, total]
      rw [span_even _ (by omega : (s + t) % 2 = 0), span_even t ht]
      omega
    · simp only [mergedSpan, afterMerge, if_neg ht, total]
      rw [span_even s hs]

/-- The body of `hl_release` with the address arithmetic resolved, for an allocated
block at `a` with span `s`. -/
theorem release_unfold (m : Mem) (heap a h s : Nat) (hpad : read32 m (heap + 4) ≤ 15)
    (hF : heapFirst m heap ≤ a) (hE : heapEnd m heap < 18446744073709551616)
    (hr : a + s ≤ heapEnd m heap)
    (b1 : read32 m a = h) (b2 : read32 m (a + s - 4) = h) (hs : h = s + 1) (b3 : 8 ≤ s)
    (hsm : s ≤ 2147483648) :
    hl_release m heap (a + 4) =
      (if a < heapHint m heap then
        write64 (if a + s < heapEnd m heap then
          if read32 m (a + s) % 2 = 0 then
            write32 (write32 (write32 (write32 m a s) (a + s - 4) s)
              (ADD_BYTES (a + s) (i32 (i32 (read32 m (a + s)) - 4)))
              (u32 ((read32 m (a + s) : Int) + s))) a (u32 ((read32 m (a + s) : Int) + s))
          else write32 (write32 m a s) (a + s - 4) s
        else write32 (write32 m a s) (a + s - 4) s) (heap + 8) a
      else
        (if a + s < heapEnd m heap then
          if read32 m (a + s) % 2 = 0 then
            write32 (write32 (write32 (write32 m a s) (a + s - 4) s)
              (ADD_BYTES (a + s) (i32 (i32 (read32 m (a + s)) - 4)))
              (u32 ((read32 m (a + s) : Int) + s))) a (u32 ((read32 m (a + s) : Int) + s))
          else write32 (write32 m a s) (a + s - 4) s
        else write32 (write32 m a s) (a + s - 4) s)) := by
  have hFd : heapFirst m heap = heap + read32 m (heap + 4) + 16 := rfl
  have hEd : heapEnd m heap = heapFirst m heap + read32 m heap := rfl
  have hfirst : ADD_BYTES heap (u32 ((read32 m (heap + 4) : Int) + 16)) = heapFirst m heap := by
    have : u32 ((read32 m (heap + 4) : Int) + 16) = read32 m (heap + 4) + 16 := by
      unfold u32; omega
    rw [this]
    unfold ADD_BYTES; omega
  have hlast : ADD_BYTES (heapFirst m heap) (read32 m heap) = heapEnd m heap :=
    ADD_BYTES_nat _ _ (by omega)
  have hhd : read64 m (heap + 8) = heapHint m heap := rfl
  have e0 : ADD_BYTES (a + 4) (-4) = a := by unfold ADD_BYTES; omega
  have e1 : u32 ((h : Int) - 1) = s := by unfold u32; omega
  have e2 : read32 (write32 m a s) a = s := by rw [read32_write32_same]; omega
  have e3 : u32 ((s : Int) - 4) = s - 4 := by unfold u32; omega
  have e4 : ADD_BYTES a ((s - 4 : Nat) : Int) = a + s - 4 := by unfold ADD_BYTES; omega
  have e5 : read32 (write32 m a s) (a + s - 4) = h := by
    rw [read32_write32_ne _ _ _ _ (by omega), b2]
  have e6 : ADD_BYTES (a + s - 4) 4 = a + s := by unfold ADD_BYTES; omega
  have e7 : read32 (write32 (write32 m a s) (a + s - 4) s) a = s := by
    rw [read32_write32_ne _ _ _ _ (by omega), e2]
  have e8 : read32 (write32 (write32 m a s) (a + s - 4) s) (a + s) = read32 m (a + s) := by
    rw [read32_write32_ne _ _ _ _ (by omega), read32_write32_ne _ _ _ _ (by omega)]
  have hne : a + 4 ≠ 0 := by omega
  unfold hl_release
  rw [if_neg hne]
  simp only [hfirst, hlast, e0, b1, e1, e2, e3, e4, e5, e6, e7, e8, hhd]

/-- The block update of `hl_release`: the released block (span `s`) followed by the
blocks `rest` becomes one free block of span `mergedSpan s rest`. -/
theorem release_block (m : Mem) (a s E : Nat) (rest : List Nat) (hE : E < 18446744073709551616)
    (b3 : 8 ≤ s) (b4 : s % 8 = 0) (hsm : s + total rest ≤ 2147483648)
    (b6 : a + s + total rest = E) (b9 : Chain m (a + s) rest) (b10 : Valid rest) :
    ∃ m3, (if a + s < E then
          if read32 m (a + s) % 2 = 0 then
            write32 (write32 (write32 (write32 m a s) (a + s - 4) s)
              (ADD_BYTES (a + s) (i32 (i32 (read32 m (a + s)) - 4)))
              (u32 ((read32 m (a + s) : Int) + s))) a (u32 ((read32 m (a + s) : Int) + s))
          else write32 (write32 m a s) (a + s - 4) s
        else write32 (write32 m a s) (a + s - 4) s) = m3 ∧
        SameOutside m m3 a (a + mergedSpan s rest) ∧
        Chain m3 a [mergedSpan s rest] ∧ 8 ≤ mergedSpan s rest ∧ mergedSpan s rest % 8 = 0 ∧
        a + mergedSpan s rest + total (afterMerge rest) = E ∧
        Chain m (a + mergedSpan s rest) (afterMerge rest) ∧ Valid (afterMerge rest) := by
  have e7 : read32 (write32 (write32 m a s) (a + s - 4) s) a = s := by
    rw [read32_write32_ne _ _ _ _ (by omega), read32_write32_same]; omega
  have c2 : SameOutside m (write32 (write32 m a s) (a + s - 4) s) a (a + s) :=
    sameOutside_trans (sameOutside_write32 m a (a + s) a s (by omega) (by omega))
      (sameOutside_write32 _ a (a + s) (a + s - 4) s (by omega) (by omega))
  have e9 : read32 (write32 (write32 m a s) (a + s - 4) s) (a + s - 4) = s := by
    rw [read32_write32_same]; omega
  have hsp2 : span s = s := span_even s (by omega)
  cases rest with
  | nil =>
    simp only [total] at b6
    rw [if_neg (by omega)]
    simp only [mergedSpan, afterMerge, total, Chain, hsp2]
    exact ⟨_, rfl, c2, ⟨e7, e9, trivial⟩, b3, b4, by omega, trivial, b10⟩
  | cons t r =>
    have hv := valid_cons.1 b10
    simp only [total] at b6 hsm
    have ht : read32 m (a + s) = t := b9.1
    have htl : t < 4294967296 := by rw [← ht]; exact read32_lt _ _
    rw [if_pos (by omega), ht]
    by_cases hte : t % 2 = 0
    · have hspt : span t = t := span_even t hte
      rw [hspt] at hv b6 hsm
      rw [if_pos hte]
      have e10 : ADD_BYTES (a + s) (i32 (i32 (t : Int) - 4)) = a + s + t - 4 := by
        rw [i32_i32_sub _ _ (by omega) (by omega)]
        unfold ADD_BYTES; omega
      have e11 : u32 ((t : Int) + s) = s + t := by unfold u32; omega
      rw [e10, e11]
      have hsp3 : span (s + t) = s + t := span_even _ (by omega)
      simp only [mergedSpan, afterMerge, if_pos hte, Chain, hsp3]
      have hch3 : Chain m (a + (s + t)) r := by
        have := b9.2.2
        rw [hspt, Nat.add_assoc] at this
        exact this
      refine ⟨_, rfl, ?_, ⟨?_, ?_, trivial⟩, by omega, by omega, by omega, hch3, hv.2⟩
      · exact sameOutside_trans (sameOutside_trans (sameOutside_mono c2 (Nat.le_refl _)
          (by omega))
          (sameOutside_write32 _ a (a + (s + t)) (a + s + t - 4) (s + t) (by omega) (by omega)))
          (sameOutside_write32 _ a (a + (s + t)) a (s + t) (by omega) (by omega))
      · rw [read32_write32_same]; omega
      · rw [read32_write32_ne _ _ _ _ (by omega)]
        have : a + (s + t) - 4 = a + s + t - 4 := by omega
        rw [this, read32_write32_same]; omega
    · rw [if_neg hte]
      simp only [mergedSpan, afterMerge, if_neg hte, total, hsp2]
      exact ⟨_, rfl, c2, ⟨e7, by rw [hsp2]; exact e9, trivial⟩, b3, b4, by omega, b9, b10⟩

/-- Releasing the allocated block with header word `h` that sits after the blocks
`pre`: the block becomes free and absorbs the next block when that one is free;
the hint moves down to the block when it was above it; nothing outside the
(merged) block and the hint field changes. -/
theorem hl_release_spec {m : Mem} {heap : Nat} {pre rest : List Nat} {h : Nat}
    (hl : Layout m heap (pre ++ h :: rest)) (hodd : h % 2 = 1) :
    Layout (hl_release m heap (heapFirst m heap + total pre + 4)) heap
        (pre ++ mergedSpan (h - 1) rest :: afterMerge rest) ∧
      heapHint (hl_release m heap (heapFirst m heap + total pre + 4)) heap =
        (if heapFirst m heap + total pre < heapHint m heap then heapFirst m heap + total pre
          else heapHint m heap) ∧
      heapFirst (hl_release m heap (heapFirst m heap + total pre + 4)) heap = heapFirst m heap ∧
      Frame m (hl_release m heap (heapFirst m heap + total pre + 4)) heap
        (heapFirst m heap + total pre)
        (heapFirst m heap + total pre + mergedSpan (h - 1) rest) := by
  obtain ⟨b1, b2, b3, b4, b5, b6, b7, b8, b9, b10, b11, b12⟩ := layout_block hl
  have hsp : span h = h - 1 := span_odd h hodd
  rw [hsp] at b2 b3 b4 b6 b8 b9
  have hF := heapFirst_ge m heap
  have hsmall : h - 1 + total rest ≤ 2147483648 := by
    have := hl.small
    have hEd : heapEnd m heap = heapFirst m heap + read32 m heap := rfl
    omega
  have hunf := release_unfold m heap (heapFirst m heap + total pre) h (h - 1) hl.pad (by omega)
    b7 (by omega) b1 b2 (by omega) b3 b8
  obtain ⟨m3, hm3, k1, k2, k3, k4, k5, k6, k7⟩ := release_block m (heapFirst m heap + total pre)
    (h - 1) (heapEnd m heap) rest b7 b3 b4 hsmall b6 b9 b10
  rw [hunf, hm3]
  have hspm : span (mergedSpan (h - 1) rest) = mergedSpan (h - 1) rest :=
    span_even _ (by omega)
  have hlm : Layout m heap (pre ++ ((h :: rest) ++ [])) := by
    rw [List.append_nil]; exact hl
  have htm : total (h :: rest) = h - 1 + total rest := by simp only [total, hsp]
  have htm' : total (mergedSpan (h - 1) rest :: afterMerge rest) =
      mergedSpan (h - 1) rest + total (afterMerge rest) := by
    simp only [total, hspm]
  have hchain3 : Chain m3 (heapFirst m heap + total pre)
      (mergedSpan (h - 1) rest :: afterMerge rest) := by
    refine ⟨k2.1, k2.2.1, ?_⟩
    rw [hspm]
    exact chain_congr k7 (fun b hb1 hb2 => sameOutside_read32 k1 (by omega)) k6
  have hvalid3 : Valid (mergedSpan (h - 1) rest :: afterMerge rest) :=
    valid_cons.2 ⟨⟨by omega, by omega⟩, k7⟩
  have hlay3 : Layout m3 heap (pre ++ (mergedSpan (h - 1) rest :: afterMerge rest)) := by
    have := layout_replace (mergedSpan (h - 1) rest :: afterMerge rest) hlm
      (by rw [htm]; exact sameOutside_mono k1 (Nat.le_refl _) (by omega))
      hchain3 (by rw [htm, htm']; omega) hvalid3
    rw [List.append_nil] at this
    exact this
  obtain ⟨g1, g2, g3, g4, g5⟩ := fields_same heap k1 (by omega)
  by_cases hlt : heapFirst m heap + total pre < heapHint m heap
  · rw [if_pos hlt, if_pos hlt]
    obtain ⟨j1, j2, j3⟩ := layout_setHint hlay3 (heapFirst m heap + total pre) (by omega)
    exact ⟨j1, j2, by rw [j3, g4], frame_hint _ k1⟩
  · rw [if_neg hlt, if_neg hlt]
    exact ⟨hlay3, g3, g4, frame_of_sameOutside k1⟩

/-! ## The operations preserve the invariant -/

/-- The blocks that replace the selected block `h` for a rounded request `r`: the
block itself, allocated, when the remainder is below 16 bytes; otherwise an
allocated block of span `r + 8` and a free remainder. -/
theorem placed_eq (h r : Nat) :
    (if h - r - 8 < 16 then [h + 1] else [r + 9, h - r - 8]) = placed h r := rfl

/-- The two outcomes of `hl_alloc` on a heap that satisfies the invariant: no block
from the hint on fits and the call returns `NULL` without writing, or the first
block that fits is consumed or split. -/
theorem hl_alloc_cases {m : Mem} {heap n : Nat} {hs : List Nat} (hi : HeapInv m heap hs)
    (hn : n ≤ 2147483640) :
    (hl_alloc m heap n = some (m, 0) ∧
      ∃ pre skipped, hs = pre ++ skipped ∧ heapHint m heap = heapFirst m heap + total pre ∧
        (∀ x ∈ pre, x % 2 = 1) ∧ ∀ x ∈ skipped, NoFit (roundUp n) x) ∨
    ∃ m' pre skipped h rest oddrun rest2,
      hs = pre ++ (skipped ++ h :: rest) ∧ heapHint m heap = heapFirst m heap + total pre ∧
      (∀ x ∈ pre, x % 2 = 1) ∧ (∀ x ∈ skipped, NoFit (roundUp n) x) ∧ ¬ NoFit (roundUp n) h ∧
      rest = oddrun ++ rest2 ∧ (∀ x ∈ oddrun, x % 2 = 1) ∧
      (∀ y ys, rest2 = y :: ys → ¬ y % 2 = 1) ∧
      hl_alloc m heap n = some (m', heapFirst m heap + total pre + total skipped + 4) ∧
      HeapInv m' heap (pre ++ (skipped ++ (placed h (roundUp n) ++ rest))) ∧
      heapHint m' heap =
        (if skipped = [] then
          (if h - roundUp n - 8 < 16 then
            heapFirst m heap + total pre + total skipped + h + total oddrun
          else heapFirst m heap + total pre + total skipped + roundUp n + 8)
        else heapHint m heap) ∧
      heapFirst m' heap = heapFirst m heap ∧
      Frame m m' heap (heapFirst m heap + total pre + total skipped)
        (heapFirst m heap + total pre + total skipped + h) := by
  obtain ⟨pre, suf, e, hh, hpo⟩ := hi.hint
  obtain ⟨skipped, rest0, e2, hsk, hst⟩ := exists_split (fun x => NoFit (roundUp n) x) suf
  cases rest0 with
  | nil =>
    left
    rw [List.append_nil] at e2
    subst e2
    subst e
    exact ⟨hl_alloc_null hi.lay hh hsk, pre, suf, rfl, hh, hpo, hsk⟩
  | cons h rest =>
    right
    have hfit := hst h rest rfl
    subst e2
    subst e
    obtain ⟨oddrun, rest2, e3, ho, hs2⟩ := exists_split (fun x => x % 2 = 1) rest
    obtain ⟨m', a1, a2, a3, a4, a5⟩ := hl_alloc_found hi.lay hh hn hsk hfit e3 ho hs2
    rw [placed_eq] at a2
    refine ⟨m', pre, skipped, h, rest, oddrun, rest2, rfl, hh, hpo, hsk, hfit, e3, ho, hs2, a1,
      ⟨a2, ?_⟩, a3, a4, a5⟩
    -- the hint of the new state
    by_cases hsk0 : skipped = []
    · rw [if_pos hsk0] at a3
      subst hsk0
      simp only [total, Nat.add_zero] at a3
      by_cases hc : h - roundUp n - 8 < 16
      · rw [if_pos hc] at a3
        have hp : placed h (roundUp n) = [h + 1] := by unfold placed; rw [if_pos hc]
        rw [hp]
        obtain ⟨_, _, hr8, hrsm⟩ := roundUp_spec n hn
        have hl' : Layout m heap (pre ++ h :: rest) := hi.lay
        obtain ⟨b1, b2, b3, b4, b5, b6, b7, b8, b9, b10, b11, b12⟩ := layout_block hl'
        obtain ⟨f1, f2, f3⟩ := fit_block hrsm b3 b8 hfit
        refine ⟨pre ++ (h + 1) :: oddrun, rest2, by simp [e3], ?_, ?_⟩
        · rw [a3, a4, total_append]
          simp only [total, span_succ h f1]
          omega
        · intro x hx
          simp only [List.mem_append, List.mem_cons] at hx
          rcases hx with hx | rfl | hx
          · exact hpo x hx
          · omega
          · exact ho x hx
      · rw [if_neg hc] at a3
        have hp : placed h (roundUp n) = [roundUp n + 9, h - roundUp n - 8] := by
          unfold placed; rw [if_neg hc]
        rw [hp]
        obtain ⟨_, _, hr8, hrsm⟩ := roundUp_spec n hn
        refine ⟨pre ++ [roundUp n + 9], (h - roundUp n - 8) :: rest, by simp, ?_, ?_⟩
        · rw [a3, a4, total_append]
          have : span (roundUp n + 9) = roundUp n + 8 := by unfold span; omega
          simp only [total, this]
          omega
        · intro x hx
          simp only [List.mem_append, List.mem_singleton] at hx
          rcases hx with hx | rfl
          · exact hpo x hx
          · omega
    · rw [if_neg hsk0] at a3
      exact ⟨pre, skipped ++ (placed h (roundUp n) ++ rest), rfl, by rw [a3, a4, hh], hpo⟩

/-- Two ways to cut the same list: the cut with the smaller total comes first. -/
theorem split_compare {pre0 suf0 pre suf : List Nat} (e : pre0 ++ suf0 = pre ++ suf)
    (hv : Valid pre0) (hle : total pre0 ≤ total pre) :
    ∃ mid, pre = pre0 ++ mid ∧ suf0 = mid ++ suf := by
  rcases List.append_eq_append_iff.1 e with ⟨a', h1, h2⟩ | ⟨c', h1, h2⟩
  · exact ⟨a', h1, h2⟩
  · have ht : total c' = 0 := by
      have := congrArg total h1
      rw [total_append] at this
      omega
    have hc : c' = [] := by
      have hv' : Valid c' := by
        rw [h1] at hv
        exact (valid_append.1 hv).2
      exact total_eq_zero hv' ht
    subst hc
    refine ⟨[], by simpa using h1.symm, by simpa using h2.symm⟩

/-- `hl_release` of an allocated block keeps the invariant. -/
theorem hl_release_inv {m : Mem} {heap : Nat} {hs : List Nat} (hi : HeapInv m heap hs)
    {b : Nat × Nat} (hb : b ∈ blocksOf (heapFirst m heap) hs) (hodd : b.2 % 2 = 1) :
    ∃ pre rest, hs = pre ++ b.2 :: rest ∧ b.1 = heapFirst m heap + total pre ∧
      HeapInv (hl_release m heap (b.1 + 4)) heap
        (pre ++ mergedSpan (b.2 - 1) rest :: afterMerge rest) ∧
      heapHint (hl_release m heap (b.1 + 4)) heap =
        (if b.1 < heapHint m heap then b.1 else heapHint m heap) ∧
      heapFirst (hl_release m heap (b.1 + 4)) heap = heapFirst m heap ∧
      Frame m (hl_release m heap (b.1 + 4)) heap b.1 (b.1 + mergedSpan (b.2 - 1) rest) := by
  obtain ⟨pre, rest, e, ha⟩ := mem_blocksOf_split hb
  obtain ⟨a, h⟩ := b
  simp only at e ha hodd ⊢
  subst e
  subst ha
  obtain ⟨r1, r2, r3, r4⟩ := hl_release_spec hi.lay hodd
  refine ⟨pre, rest, rfl, rfl, ⟨r1, ?_⟩, r2, r3, r4⟩
  obtain ⟨pre0, suf0, e0, hh, hpo⟩ := hi.hint
  have hval := valid_append.1 hi.lay.valid
  by_cases hlt : heapFirst m heap + total pre < heapHint m heap
  · rw [if_pos hlt] at r2
    rw [hh] at hlt
    obtain ⟨mid, e1, e2⟩ := split_compare e0 hval.1 (by omega)
    refine ⟨pre, _, rfl, by rw [r2, r3], ?_⟩
    intro x hx
    exact hpo x (by rw [e1]; exact List.mem_append_left _ hx)
  · rw [if_neg hlt] at r2
    rw [hh] at hlt
    have hv0 : Valid pre0 := by
      have := hi.lay.valid
      rw [e0] at this
      exact (valid_append.1 this).1
    obtain ⟨mid, e1, e2⟩ := split_compare e0.symm hv0 (by omega)
    refine ⟨pre0, mid ++ mergedSpan (h - 1) rest :: afterMerge rest, ?_, by rw [r2, r3, hh], hpo⟩
    rw [e1, List.append_assoc]

/-! ## Allocated pointers -/

theorem mem_allocated_iff {m : Mem} {heap : Nat} {hs : List Nat} (hl : Layout m heap hs)
    (p : Nat) :
    p ∈ allocated m heap ↔ ∃ b ∈ blocksOf (heapFirst m heap) hs, b.2 % 2 = 1 ∧ p = b.1 + 4 := by
  unfold allocated
  rw [heapBlocks_eq hl]
  simp only [List.mem_map, List.mem_filter, decide_eq_true_eq]
  constructor
  · rintro ⟨b, ⟨hb, ho⟩, e⟩
    exact ⟨b, hb, ho, e.symm⟩
  · rintro ⟨b, hb, ho, e⟩
    exact ⟨b, ⟨hb, ho⟩, e.symm⟩

/-- Two blocks of a layout either coincide or do not overlap. -/
theorem blocks_disjoint {a : Nat} {hs : List Nat} {b c : Nat × Nat}
    (hb : b ∈ blocksOf a hs) (hc : c ∈ blocksOf a hs) :
    b = c ∨ b.1 + span b.2 ≤ c.1 ∨ c.1 + span c.2 ≤ b.1 := by
  have hp := blocksOf_pairwise a hs
  induction hs generalizing a with
  | nil => simp [blocksOf] at hb
  | cons h t ih =>
    simp only [blocksOf, List.mem_cons] at hb hc
    simp only [blocksOf, List.pairwise_cons] at hp
    rcases hb with rfl | hb
    · rcases hc with rfl | hc
      · exact Or.inl rfl
      · exact Or.inr (Or.inl (hp.1 c hc))
    · rcases hc with rfl | hc
      · exact Or.inr (Or.inr (hp.1 b hb))
      · exact ih hb hc hp.2

/-- A block of a valid layout is determined by its address. -/
theorem block_unique {m : Mem} {a : Nat} {hs : List Nat} {b c : Nat × Nat}
    (hch : Chain m a hs) (hb : b ∈ blocksOf a hs) (hc : c ∈ blocksOf a hs)
    (e : b.1 = c.1) : b = c := by
  have h1 := (mem_blocksOf_chain hch hb).1
  have h2 := (mem_blocksOf_chain hch hc).1
  rw [e, h2] at h1
  exact Prod.ext e h1.symm

theorem blocksOf_placed (a h r : Nat) (hr : r % 8 = 0) :
    blocksOf a (placed h r) =
      if h - r - 8 < 16 then [(a, h + 1)] else [(a, r + 9), (a + r + 8, h - r - 8)] := by
  unfold placed
  split
  · rfl
  · have : span (r + 9) = r + 8 := by unfold span; omega
    simp only [blocksOf, this, Nat.add_assoc]

theorem total_placed (h r : Nat) (he : h % 2 = 0) (hr : r % 8 = 0) (hle : r + 8 ≤ h) :
    total (placed h r) = h := by
  unfold placed
  split
  · simp only [total, span_succ h he]; omega
  · have h1 : span (r + 9) = r + 8 := by unfold span; omega
    have h2 : span (h - r - 8) = h - r - 8 := span_even _ (by omega)
    simp only [total, h1, h2]; omega

theorem mem_blocksOf_mid (F : Nat) (pre mid rest : List Nat) (b : Nat × Nat) :
    b ∈ blocksOf F (pre ++ (mid ++ rest)) ↔
      b ∈ blocksOf F pre ∨ b ∈ blocksOf (F + total pre) mid ∨
        b ∈ blocksOf (F + total pre + total mid) rest := by
  rw [mem_blocksOf_append, mem_blocksOf_append]

/-- Replacing a run of blocks by a run over the same bytes changes the set of
allocated pointers only inside the run. -/
theorem allocated_replace {m m' : Mem} {heap : Nat} {pre mid mid' rest : List Nat}
    (hl : Layout m heap (pre ++ (mid ++ rest))) (hl' : Layout m' heap (pre ++ (mid' ++ rest)))
    (hF : heapFirst m' heap = heapFirst m heap) (ht : total mid' = total mid) (p : Nat) :
    p ∈ allocated m' heap ↔
      (p ∈ allocated m heap ∧
        ¬ ∃ b ∈ blocksOf (heapFirst m heap + total pre) mid, b.2 % 2 = 1 ∧ p = b.1 + 4) ∨
      ∃ b ∈ blocksOf (heapFirst m heap + total pre) mid', b.2 % 2 = 1 ∧ p = b.1 + 4 := by
  rw [mem_allocated_iff hl, mem_allocated_iff hl', hF]
  have hv := valid_append.1 hl.valid
  have hv2 := valid_append.1 hv.2
  constructor
  · rintro ⟨b, hb, ho, e⟩
    rcases (mem_blocksOf_mid _ _ _ _ _).1 hb with h1 | h1 | h1
    · left
      refine ⟨⟨b, (mem_blocksOf_mid _ _ _ _ _).2 (Or.inl h1), ho, e⟩, ?_⟩
      rintro ⟨c, hc, hco, ec⟩
      have b1 := mem_blocksOf_bounds h1
      have b2 := mem_blocksOf_bounds hc
      have := hv.1 b.2 b1.2.2
      omega
    · right
      exact ⟨b, h1, ho, e⟩
    · left
      rw [ht] at h1
      refine ⟨⟨b, (mem_blocksOf_mid _ _ _ _ _).2 (Or.inr (Or.inr h1)), ho, e⟩, ?_⟩
      rintro ⟨c, hc, hco, ec⟩
      have b1 := mem_blocksOf_bounds h1
      have b2 := mem_blocksOf_bounds hc
      have := hv2.1 c.2 b2.2.2
      omega
  · rintro (⟨⟨b, hb, ho, e⟩, hn⟩ | ⟨b, hb, ho, e⟩)
    · rcases (mem_blocksOf_mid _ _ _ _ _).1 hb with h1 | h1 | h1
      · exact ⟨b, (mem_blocksOf_mid _ _ _ _ _).2 (Or.inl h1), ho, e⟩
      · exact absurd ⟨b, h1, ho, e⟩ hn
      · rw [← ht] at h1
        exact ⟨b, (mem_blocksOf_mid _ _ _ _ _).2 (Or.inr (Or.inr h1)), ho, e⟩
    · exact ⟨b, (mem_blocksOf_mid _ _ _ _ _).2 (Or.inr (Or.inl hb)), ho, e⟩

/-- A change confined to the payload of one block keeps the invariant. -/
theorem heapInv_payload {m m' : Mem} {heap : Nat} {hs : List Nat} (hi : HeapInv m heap hs)
    {b : Nat × Nat} (hb : b ∈ blocksOf (heapFirst m heap) hs) {lo hi : Nat}
    (hlo : b.1 + 4 ≤ lo) (hhi : hi + 4 ≤ b.1 + span b.2) (hsame : SameOutside m m' lo hi) :
    HeapInv m' heap hs ∧ heapFirst m' heap = heapFirst m heap ∧
      heapHint m' heap = heapHint m heap ∧ heapBlocks m' heap = heapBlocks m heap := by
  obtain ⟨pre, rest, e, ha⟩ := mem_blocksOf_split hb
  obtain ⟨a, h⟩ := b
  simp only at e ha hlo hhi
  subst e
  subst ha
  have hF := heapFirst_ge m heap
  obtain ⟨b1, b2, b3, b4, b5, b6, b7, b8, b9, b10, b11, b12⟩ := layout_block hi.lay
  obtain ⟨g1, g2, g3, g4, g5⟩ := fields_same heap hsame (by omega)
  have hlm : Layout m heap (pre ++ ([h] ++ rest)) := hi.lay
  have hlay := layout_replace [h] hlm
    (sameOutside_mono hsame (by omega) (by simp only [total]; omega))
    ⟨by rw [sameOutside_read32 hsame (by omega)]; exact b1,
      by rw [sameOutside_read32 hsame (by omega)]; exact b2, trivial⟩ rfl
    (by intro x hx; simp only [List.mem_singleton] at hx; rw [hx]; exact ⟨b3, b4⟩)
  have hlay' : Layout m' heap (pre ++ h :: rest) := hlay
  refine ⟨⟨hlay', ?_⟩, g4, g3, ?_⟩
  · obtain ⟨pre0, suf0, e0, hh, hpo⟩ := hi.hint
    exact ⟨pre0, suf0, e0, by rw [g3, g4, hh], hpo⟩
  · rw [heapBlocks_eq hlay', heapBlocks_eq hi.lay, g4]

/-! ## Memory-level summaries of the operations -/

/-- On a fresh heap whose usable size exceeds `2^31` every valid request fails: the
signed comparison of the search rejects the only block. -/
theorem hl_alloc_huge {m : Mem} {heap n : Nat} (hh : HugeFresh m heap) (hn : n ≤ 2147483640) :
    hl_alloc m heap n = some (m, 0) := by
  obtain ⟨_, _, hr8, hrsm⟩ := roundUp_spec n hn
  rw [hl_alloc_eq m heap n hh.pad hh.range, hh.hint]
  have hE : heapEnd m heap = heapFirst m heap + read32 m heap := rfl
  have hfuel : heapEnd m heap - heapFirst m heap + 1 = (read32 m heap - 1 + 1) + 1 := by
    have := hh.huge; omega
  have hlt := read32_lt m heap
  have hhuge := hh.huge
  have heven := hh.even
  have hrange := hh.range
  have hno : NoFit (roundUp n) (read32 m heap) := by
    right
    rw [i32_i32_sub_neg _ _ (by omega) (by omega), i32_nat _ (by omega)]
    omega
  have hspan : span (read32 m heap) = read32 m heap := span_even _ (by omega)
  rw [hfuel, allocScan_succ, hh.head, if_pos ⟨by omega, hno⟩, ADD_BYTES_span _ _ (by omega),
    hspan, allocScan_succ, ← hE, if_neg (by omega)]
  simp only []
  rw [if_neg (Nat.lt_irrefl _)]

/-- Summary of `hl_alloc` on a heap that satisfies the invariant.  The call returns;
on `NULL` the memory is the one given; otherwise the pointer is the payload of a
block `(af, hf)` that was free and fits, the invariant holds again, nothing
outside that block and the hint field changed, and the allocated pointers are
the old ones plus the new one. -/
theorem hl_alloc_ok {m : Mem} {heap n : Nat} {hs : List Nat} (hi : HeapInv m heap hs)
    (hn : n ≤ 2147483640) :
    ∃ m' q, hl_alloc m heap n = some (m', q) ∧ (q = 0 → m' = m) ∧
      (q ≠ 0 → ∃ hs' af hf, HeapInv m' heap hs' ∧ q = af + 4 ∧
        (af, hf) ∈ blocksOf (heapFirst m heap) hs ∧ hf % 2 = 0 ∧ roundUp n + 8 ≤ hf ∧
        heapFirst m' heap = heapFirst m heap ∧ Frame m m' heap af (af + hf) ∧
        (∀ p, p ∈ allocated m' heap ↔ p ∈ allocated m heap ∨ p = q) ∧
        (af, if hf - roundUp n - 8 < 16 then hf + 1 else roundUp n + 9) ∈
          blocksOf (heapFirst m heap) hs') := by
  rcases hl_alloc_cases hi hn with ⟨h0, _⟩ | ⟨m', pre, skipped, h, rest, oddrun, rest2, e, hh, hpo,
    hsk, hfit, e3, ho, hs2, hcall, hinv, hhint', hF', hfr⟩
  · exact ⟨m, 0, h0, fun _ => rfl, fun h => absurd rfl h⟩
  · refine ⟨m', _, hcall, fun h => by omega, fun _ => ?_⟩
    obtain ⟨_, _, hr8, hrsm⟩ := roundUp_spec n hn
    subst e
    have hl' : Layout m heap ((pre ++ skipped) ++ h :: rest) := by
      rw [List.append_assoc]; exact hi.lay
    obtain ⟨b1, b2, b3, b4, b5, b6, b7, b8, b9, b10, b11, b12⟩ := layout_block hl'
    obtain ⟨f1, f2, f3⟩ := fit_block hrsm b3 b8 hfit
    have hlo : heapFirst m heap + total (pre ++ skipped) =
        heapFirst m heap + total pre + total skipped := by
      rw [total_append, ← Nat.add_assoc]
    have hl1 : Layout m heap ((pre ++ skipped) ++ ([h] ++ rest)) := hl'
    have hl2 : Layout m' heap ((pre ++ skipped) ++ (placed h (roundUp n) ++ rest)) := by
      rw [List.append_assoc]; exact hinv.lay
    have htp := total_placed h (roundUp n) f1 hr8 f2
    have hbp := blocksOf_placed (heapFirst m heap + total pre + total skipped) h (roundUp n) hr8
    refine ⟨_, heapFirst m heap + total pre + total skipped, h, hinv, rfl, ?_, f1, f2, hF',
      hfr, ?_, ?_⟩
    · rw [← List.append_assoc]
      refine (mem_blocksOf_append _ _ _ _).2 (Or.inr ?_)
      rw [hlo]
      exact List.mem_cons_self _ _
    · intro p
      rw [allocated_replace hl1 hl2 hF' (by rw [htp]; simp [total, f3]) p, hlo, hbp]
      constructor
      · rintro (⟨h1, _⟩ | ⟨b, hb, hbo, e⟩)
        · exact Or.inl h1
        · right
          split at hb
          · simp only [List.mem_singleton] at hb
            rw [e, hb]
          · simp only [List.mem_cons, List.mem_singleton, List.not_mem_nil, or_false] at hb
            rcases hb with rfl | rfl
            · exact e
            · simp only at hbo; omega
      · rintro (h1 | rfl)
        · left
          refine ⟨h1, ?_⟩
          rintro ⟨b, hb, hbo, _⟩
          simp only [blocksOf, List.mem_singleton] at hb
          rw [hb] at hbo
          simp only at hbo
          omega
        · right
          split
          · exact ⟨_, List.mem_singleton_self _, by simp only; omega, rfl⟩
          · exact ⟨_, List.mem_cons_self _ _, by simp only; omega, rfl⟩
    · rw [← List.append_assoc]
      refine (mem_blocksOf_mid _ _ _ _ _).2 (Or.inr (Or.inl ?_))
      rw [hlo, hbp]
      split
      · exact List.mem_singleton_self _
      · exact List.mem_cons_self _ _

theorem merge_cases (s : Nat) (rest : List Nat) :
    (mergedSpan s rest = s ∧ afterMerge rest = rest ∧
      (rest = [] ∨ ∃ t r, rest = t :: r ∧ t % 2 = 1)) ∨
    ∃ t r, rest = t :: r ∧ t % 2 = 0 ∧ mergedSpan s rest = s + t ∧ afterMerge rest = r := by
  cases rest with
  | nil => exact Or.inl ⟨rfl, rfl, Or.inl rfl⟩
  | cons t r =>
    by_cases ht : t % 2 = 0
    · right
      exact ⟨t, r, rfl, ht, by simp [mergedSpan, ht], by simp [afterMerge, ht]⟩
    · left
      exact ⟨by simp [mergedSpan, ht], by simp [afterMerge, ht], Or.inr ⟨t, r, rfl, by omega⟩⟩

/-- Summary of `hl_release` on an allocated pointer of a heap that satisfies the
invariant. -/
theorem hl_release_ok {m : Mem} {heap : Nat} {hs : List Nat} (hi : HeapInv m heap hs)
    {p : Nat} (hp : p ∈ allocated m heap) :
    ∃ hs' a h ms, HeapInv (hl_release m heap p) heap hs' ∧ p = a + 4 ∧
      (a, h) ∈ blocksOf (heapFirst m heap) hs ∧ h % 2 = 1 ∧
      heapFirst (hl_release m heap p) heap = heapFirst m heap ∧
      heapHint (hl_release m heap p) heap = (if a < heapHint m heap then a else heapHint m heap) ∧
      Frame m (hl_release m heap p) heap a (a + ms) ∧
      (a, ms) ∈ blocksOf (heapFirst m heap) hs' ∧ ms % 2 = 0 ∧ h - 1 ≤ ms ∧
      (∀ c ∈ blocksOf (heapFirst m heap) hs, c.1 + span c.2 ≤ a ∨ a + ms ≤ c.1 ∨
        (a ≤ c.1 ∧ c.1 + span c.2 ≤ a + ms ∧ (c.1 = a ∨ c.2 % 2 = 0))) ∧
      (∀ p', p' ∈ allocated (hl_release m heap p) heap ↔ p' ∈ allocated m heap ∧ p' ≠ p) := by
  obtain ⟨b, hb, hodd, e⟩ := (mem_allocated_iff hi.lay p).1 hp
  obtain ⟨pre, rest, e1, e2, r1, r2, r3, r4⟩ := hl_release_inv hi hb hodd
  obtain ⟨a, h⟩ := b
  simp only at e e1 e2 hodd r1 r2 r3 r4
  subst e
  subst e1
  subst e2
  have hlay := hi.lay
  obtain ⟨b1, b2, b3, b4, b5, b6, b7, b8, b9, b10, b11, b12⟩ := layout_block hlay
  have hsp : span h = h - 1 := span_odd h hodd
  rw [hsp] at b3 b4
  have hmem : (heapFirst m heap + total pre, mergedSpan (h - 1) rest) ∈
      blocksOf (heapFirst m heap) (pre ++ mergedSpan (h - 1) rest :: afterMerge rest) :=
    (mem_blocksOf_append _ _ _ _).2 (Or.inr (List.mem_cons_self _ _))
  refine ⟨_, heapFirst m heap + total pre, h, mergedSpan (h - 1) rest, r1, rfl, hb, hodd, r3,
    r2, r4, hmem, ?_, ?_, ?_, ?_⟩
  · rcases merge_cases (h - 1) rest with ⟨q1, _, _⟩ | ⟨t, r, _, q2, q3, _⟩
    · rw [q1]; omega
    · rw [q3]; omega
  · rcases merge_cases (h - 1) rest with ⟨q1, _, _⟩ | ⟨t, r, _, q2, q3, _⟩
    · rw [q1]
    · rw [q3]; omega
  · intro c hc
    rcases (mem_blocksOf_append _ _ _ _).1 hc with h1 | h1
    · left
      exact (mem_blocksOf_bounds h1).2.1
    · simp only [blocksOf, List.mem_cons] at h1
      rcases h1 with rfl | h1
      · refine Or.inr (Or.inr ⟨Nat.le_refl _, ?_, Or.inl rfl⟩)
        show heapFirst m heap + total pre + span h ≤ _
        rw [hsp]
        rcases merge_cases (h - 1) rest with ⟨q1, _, _⟩ | ⟨t, r, _, q2, q3, _⟩
        · rw [q1]
        · rw [q3]; omega
      · rw [hsp] at h1
        rcases merge_cases (h - 1) rest with ⟨q1, _, _⟩ | ⟨t, r, q0, q2, q3, _⟩
        · right; left
          rw [q1]
          exact (mem_blocksOf_bounds h1).1
        · subst q0
          simp only [blocksOf, List.mem_cons] at h1
          rcases h1 with rfl | h1
          · refine Or.inr (Or.inr ⟨?_, ?_, Or.inr q2⟩)
            · show heapFirst m heap + total pre ≤ heapFirst m heap + total pre + (h - 1)
              omega
            · show heapFirst m heap + total pre + (h - 1) + span t ≤ _
              rw [q3, span_even t q2]
              omega
          · right; left
            have := (mem_blocksOf_bounds h1).1
            rw [span_even t q2] at this
            rw [q3]
            omega
  · intro p'
    have hval := valid_cons.1 (valid_append.1 hlay.valid).2
    rcases merge_cases (h - 1) rest with ⟨q1, q2, _⟩ | ⟨t, r, q0, q2, q3, q4⟩
    · rw [q1, q2] at r1
      have hl1 : Layout m heap (pre ++ ([h] ++ rest)) := hlay
      have hl2 : Layout (hl_release m heap (heapFirst m heap + total pre + 4)) heap
          (pre ++ ([h - 1] ++ rest)) := r1.lay
      rw [allocated_replace hl1 hl2 r3 (by simp [total, hsp, span_even (h - 1) (by omega)]) p']
      simp only [blocksOf, List.mem_singleton, exists_eq_left]
      constructor
      · rintro (⟨k1, k2⟩ | ⟨k1, _⟩)
        · exact ⟨k1, fun e => k2 ⟨hodd, e⟩⟩
        · omega
      · rintro ⟨k1, k2⟩
        exact Or.inl ⟨k1, fun e => k2 e.2⟩
    · subst q0
      rw [q3, q4] at r1
      have hl1 : Layout m heap (pre ++ ([h, t] ++ r)) := hlay
      have hl2 : Layout (hl_release m heap (heapFirst m heap + total pre + 4)) heap
          (pre ++ ([h - 1 + t] ++ r)) := r1.lay
      rw [allocated_replace hl1 hl2 r3
        (by simp [total, hsp, span_even (h - 1 + t) (by omega), span_even t q2]) p']
      simp only [blocksOf, List.mem_singleton, List.mem_cons, List.not_mem_nil, or_false,
        exists_eq_left]
      constructor
      · rintro (⟨k1, k2⟩ | ⟨k1, _⟩)
        · exact ⟨k1, fun e => k2 ⟨_, Or.inl rfl, hodd, e⟩⟩
        · omega
      · rintro ⟨k1, k2⟩
        refine Or.inl ⟨k1, ?_⟩
        rintro ⟨c, hc | hc, hco, e⟩
        · rw [hc] at e; exact k2 e
        · rw [hc] at hco; simp only at hco; omega

theorem size_t_sub (h : Nat) (h8 : 8 ≤ h) (hlt : h < 4294967296) :
    size_t ((h : Int) - 8) = h - 8 := by
  unfold size_t
  omega

theorem roundUp_idem (r : Nat) (h : r % 8 = 0) : roundUp r = r := by
  unfold roundUp
  rw [if_neg (by omega)]

theorem frame_read32 {m m' : Mem} {heap lo hi b : Nat} (h : Frame m m' heap lo hi)
    (h1 : b + 4 ≤ lo ∨ hi ≤ b) (h2 : b + 4 ≤ heap + 8 ∨ heap + 16 ≤ b) :
    read32 m' b = read32 m b :=
  read32_congr (fun x hx1 hx2 => h x (by omega) (by omega))

/-- Facts about an allocated pointer of a heap that satisfies the invariant. -/
theorem allocated_block {m : Mem} {heap : Nat} {hs : List Nat} (hl : Layout m heap hs)
    {p : Nat} (hp : p ∈ allocated m heap) :
    ∃ a h, p = a + 4 ∧ (a, h) ∈ blocksOf (heapFirst m heap) hs ∧ h % 2 = 1 ∧
      read32 m a = h ∧ read32 m (a + (h - 1) - 4) = h ∧ 8 ≤ h - 1 ∧ (h - 1) % 8 = 0 ∧
      h - 1 ≤ 2147483648 ∧ heapFirst m heap ≤ a ∧ a + (h - 1) ≤ heapEnd m heap ∧
      heapEnd m heap < 18446744073709551616 ∧ capacity m p = h - 1 - 8 := by
  obtain ⟨b, hb, hodd, e⟩ := (mem_allocated_iff hl p).1 hp
  obtain ⟨a, h⟩ := b
  simp only at hodd e
  have hc := mem_blocksOf_chain hl.chain hb
  have hbd := mem_blocksOf_bounds hb
  have hv := hl.valid h hbd.2.2
  simp only at hc hbd
  have hsp := span_odd h hodd
  rw [hsp] at hc hbd hv
  have ht := hl.tot
  have hsm := hl.small
  have hE : heapEnd m heap = heapFirst m heap + read32 m heap := rfl
  refine ⟨a, h, e, hb, hodd, hc.1, hc.2, hv.1, hv.2, by omega, hbd.1, by omega, hl.range, ?_⟩
  unfold capacity
  rw [e, Nat.add_sub_cancel, hc.1, hsp]

/-- Summary of `hl_resize` on an allocated pointer: the no-op path when the rounded
size fits the block, otherwise `hl_alloc`, then (on success) `memmove` of
`capacity + 1` bytes and `hl_release`. -/
theorem hl_resize_ok {m : Mem} {heap n p : Nat} {hs : List Nat} (hi : HeapInv m heap hs)
    (hn : n ≤ 2147483640) (hp : p ∈ allocated m heap) :
    (roundUp n ≤ capacity m p → hl_resize m heap p n = some (m, p)) ∧
    (capacity m p < roundUp n → ∃ m1 q, hl_alloc m heap (roundUp n) = some (m1, q) ∧
      hl_resize m heap p n =
        some (if q = 0 then m1 else hl_release (memmove m1 q p (capacity m p + 1)) heap p, q) ∧
      read32 m1 (p - 4) = read32 m (p - 4)) := by
  obtain ⟨_, _, hr8, hrsm⟩ := roundUp_spec n hn
  obtain ⟨a, h, e, hb, hodd, c1, c2, c3, c4, c5, c6, c7, c8, c9⟩ := allocated_block hi.lay hp
  subst e
  have hF := heapFirst_ge m heap
  have e0 : ADD_BYTES (a + 4) (-4) = a := by unfold ADD_BYTES; omega
  have hlt : h < 4294967296 := by rw [← c1]; exact read32_lt _ _
  have e1 : i32 (i32 (h : Int) - 9) = (h : Int) - 9 := i32_i32_sub _ _ (by omega) (by omega)
  have e2 : i32 (roundUp n : Int) = roundUp n := i32_nat _ (by omega)
  constructor
  · intro hle
    unfold hl_resize
    rw [if_neg (by omega)]
    simp only [e0, c1, e1, e2]
    rw [if_pos (by omega)]
  · intro hgt
    have e3 : i32 (i32 (h : Int) - 8) = (h : Int) - 8 := i32_i32_sub _ _ (by omega) (by omega)
    have e4 : size_t ((h : Int) - 8) = capacity m (a + 4) + 1 := by
      rw [c9, size_t_sub h (by omega) hlt]; omega
    obtain ⟨m1, q, hcall, hq0, hq1⟩ := hl_alloc_ok hi (n := roundUp n) hrsm
    have hrd : read32 m1 a = h := by
      by_cases hq : q = 0
      · rw [hq0 hq]; exact c1
      · obtain ⟨hs', af, hf, _, _, hbf, hfe, _, _, hfr, _, _⟩ := hq1 hq
        have hdis := blocks_disjoint hb hbf
        rw [span_odd h hodd, span_even hf hfe] at hdis
        simp only at hdis
        rw [frame_read32 hfr ?_ (by omega)]
        · exact c1
        · rcases hdis with hd | hd | hd
          · have := congrArg Prod.snd hd
            simp only at this
            omega
          · omega
          · omega
    refine ⟨m1, q, hcall, ?_, by rw [Nat.add_sub_cancel, hrd, c1]⟩
    unfold hl_resize
    rw [if_neg (by omega)]
    simp only [e0, c1, e1, e2]
    rw [if_neg (by omega), hcall]
    simp only [hrd, e3, e4]
    by_cases hq : q = 0
    · subst hq
      simp only [if_true]
    · simp only [if_neg hq]

/-! ## The invariant of reachable states -/

theorem hl_release_null (m : Mem) (heap : Nat) : hl_release m heap 0 = m := by
  unfold hl_release
  rw [if_pos rfl]

theorem allocated_ne_zero {m : Mem} {heap : Nat} {hs : List Nat} (hl : Layout m heap hs)
    {p : Nat} (hp : p ∈ allocated m heap) : p ≠ 0 := by
  obtain ⟨b, _, _, e⟩ := (mem_allocated_iff hl p).1 hp
  omega

theorem mem_filter_ne (l : List Nat) (p x : Nat) :
    x ∈ l.filter (fun y => y ≠ p) ↔ x ∈ l ∧ x ≠ p := by
  simp only [List.mem_filter, decide_eq_true_eq]

theorem hl_init_success (c : Consts) (m : Mem) (heap heap_size : Nat)
    (hSF : c.SUCCESS ≠ c.FAILURE) (hok : (hl_init c m heap heap_size).2 = c.SUCCESS) :
    c.MIN_HEAP_SIZE ≤ heap_size := by
  by_contra hlt
  unfold hl_init at hok
  rw [if_pos (by omega)] at hok
  exact hSF hok.symm

theorem rinv_init (c : Consts) (m0 : Mem) (heap heap_size : Nat) (hmin : 40 ≤ c.MIN_HEAP_SIZE)
    (hSF : c.SUCCESS ≠ c.FAILURE) (h32 : heap_size < 4294967296)
    (hfit : heap + heap_size < 18446744073709551616)
    (hok : (hl_init c m0 heap heap_size).2 = c.SUCCESS) :
    RInv heap ⟨(hl_init c m0 heap heap_size).1, []⟩ := by
  have hsz := hl_init_success c m0 heap heap_size hSF hok
  obtain ⟨_, _, _, _, _, _, _, h8, _, hA, hB⟩ :=
    hl_init_spec c m0 heap heap_size hmin hsz h32 hfit
  by_cases hle : read32 (hl_init c m0 heap heap_size).1 heap ≤ 2147483648
  · left
    have hi := hA hle
    refine ⟨_, hi, fun p => ?_⟩
    rw [mem_allocated_iff hi.lay]
    simp only [List.not_mem_nil, blocksOf, List.mem_singleton, false_iff, not_exists, not_and]
    intro b hb ho
    have := hi.lay.valid _ (List.mem_singleton_self _)
    rw [hb] at ho
    simp only at ho
    unfold span at this
    omega
  · right
    exact ⟨hB (by omega), rfl⟩

theorem rinv_alloc {heap : Nat} {s : State} {n : Nat} {m' : Mem} {q : Nat} (hR : RInv heap s)
    (hn : n ≤ 2147483640) (hcall : hl_alloc s.mem heap n = some (m', q)) :
    RInv heap ⟨m', if q = 0 then s.live else q :: s.live⟩ := by
  rcases hR with ⟨hs, hi, hlive⟩ | ⟨hh, hl⟩
  · obtain ⟨m2, q2, hc2, hq0, hq1⟩ := hl_alloc_ok hi hn
    rw [hcall] at hc2
    simp only [Option.some.injEq, Prod.mk.injEq] at hc2
    obtain ⟨rfl, rfl⟩ := hc2
    by_cases hq : q = 0
    · rw [if_pos hq, hq0 hq]
      exact Or.inl ⟨hs, hi, hlive⟩
    · rw [if_neg hq]
      obtain ⟨hs', af, hf, hi', _, _, _, _, _, _, hal, _⟩ := hq1 hq
      refine Or.inl ⟨hs', hi', fun p => ?_⟩
      rw [hal p, List.mem_cons, ← hlive p]
      exact or_comm
  · have := hl_alloc_huge hh hn
    rw [hcall] at this
    simp only [Option.some.injEq, Prod.mk.injEq] at this
    obtain ⟨rfl, rfl⟩ := this
    rw [if_pos rfl]
    exact Or.inr ⟨hh, hl⟩

theorem rinv_filter_zero {heap : Nat} {m : Mem} {live : List Nat} (hR : RInv heap ⟨m, live⟩) :
    RInv heap ⟨m, live.filter (fun x => x ≠ 0)⟩ := by
  rcases hR with ⟨hs, hi, hlive⟩ | ⟨hh, hl⟩
  · refine Or.inl ⟨hs, hi, fun p => ?_⟩
    rw [mem_filter_ne]
    constructor
    · rintro ⟨h1, _⟩; exact (hlive p).1 h1
    · intro h1; exact ⟨(hlive p).2 h1, allocated_ne_zero hi.lay h1⟩
  · refine Or.inr ⟨hh, ?_⟩
    simp only at hl
    simp only [hl, List.filter_nil]

theorem rinv_release {heap : Nat} {s : State} {p : Nat} (hR : RInv heap s)
    (hp : p ∈ s.live ∨ p = 0) :
    RInv heap ⟨hl_release s.mem heap p, s.live.filter (fun x => x ≠ p)⟩ := by
  rcases hp with hp | rfl
  · rcases hR with ⟨hs, hi, hlive⟩ | ⟨hh, hl⟩
    · obtain ⟨hs', a, h, ms, hi', _, _, _, _, _, _, _, _, _, _, hal⟩ :=
        hl_release_ok hi ((hlive p).1 hp)
      refine Or.inl ⟨hs', hi', fun p' => ?_⟩
      rw [hal p', mem_filter_ne, ← hlive p']
    · rw [hl] at hp
      exact absurd hp (List.not_mem_nil _)
  · rw [hl_release_null]
    exact rinv_filter_zero hR

theorem sameOutside_write8 (m : Mem) (a v : Nat) : SameOutside m (write8 m a v) a (a + 1) := by
  intro x hx
  unfold read8 write8
  rw [if_neg (by omega)]

theorem sameOutside_memmove (m : Mem) (dst src n : Nat) :
    SameOutside m (memmove m dst src n) dst (dst + n) :=
  fun x hx => read8_memmove_ne m dst src n x hx

theorem allocated_payload {m m' : Mem} {heap : Nat} {hs : List Nat} (hi : HeapInv m heap hs)
    {b : Nat × Nat} (hb : b ∈ blocksOf (heapFirst m heap) hs) (lo hi' : Nat)
    (hlo : b.1 + 4 ≤ lo) (hhi : hi' + 4 ≤ b.1 + span b.2) (hsame : SameOutside m m' lo hi') :
    HeapInv m' heap hs ∧ heapFirst m' heap = heapFirst m heap ∧
      allocated m' heap = allocated m heap := by
  obtain ⟨h1, h2, _, h4⟩ := heapInv_payload hi hb hlo hhi hsame
  refine ⟨h1, h2, ?_⟩
  unfold allocated
  rw [h4]

theorem rinv_store {heap : Nat} {s : State} {p i v : Nat} (hR : RInv heap s)
    (hp : p ∈ s.live) (hlt : i < capacity s.mem p) :
    RInv heap ⟨write8 s.mem (p + i) v, s.live⟩ := by
  rcases hR with ⟨hs, hi, hlive⟩ | ⟨hh, hl⟩
  · obtain ⟨a, h, e, hb, hodd, c1, c2, c3, c4, c5, c6, c7, c8, c9⟩ :=
      allocated_block hi.lay ((hlive p).1 hp)
    rw [c9] at hlt
    have hsp := span_odd h hodd
    obtain ⟨h1, _, h3⟩ := allocated_payload hi hb (p + i) (p + i + 1)
      (by simp only; omega) (by simp only; omega) (sameOutside_write8 _ _ v)
    refine Or.inl ⟨hs, h1, fun p' => ?_⟩
    simp only [h3]
    exact hlive p'
  · rw [hl] at hp
    exact absurd hp (List.not_mem_nil _)

theorem hl_resize_null (m : Mem) (heap n : Nat) : hl_resize m heap 0 n = hl_alloc m heap n := by
  unfold hl_resize
  rw [if_pos rfl]

/-- The grow path of `hl_resize` as three steps that each keep the invariant:
`hl_alloc`, `memmove` into the new payload, `hl_release` of the old block. -/
theorem resize_grow_inv {m m1 : Mem} {heap n p q : Nat} {hs : List Nat}
    (hi : HeapInv m heap hs) (hn : n ≤ 2147483640) (hp : p ∈ allocated m heap)
    (hgt : capacity m p < roundUp n) (hcall : hl_alloc m heap (roundUp n) = some (m1, q))
    (hq : q ≠ 0) :
    ∃ hs1 hs3, HeapInv m1 heap hs1 ∧
      HeapInv (memmove m1 q p (capacity m p + 1)) heap hs1 ∧
      HeapInv (hl_release (memmove m1 q p (capacity m p + 1)) heap p) heap hs3 ∧
      q ≠ p ∧ q ∉ allocated m heap ∧
      (∀ x, x ∈ allocated m1 heap ↔ x ∈ allocated m heap ∨ x = q) ∧
      allocated (memmove m1 q p (capacity m p + 1)) heap = allocated m1 heap ∧
      (∀ x, x ∈ allocated (hl_release (memmove m1 q p (capacity m p + 1)) heap p) heap ↔
        (x ∈ allocated m heap ∨ x = q) ∧ x ≠ p) ∧
      capacity m p + 8 ≤ capacity m1 q ∧ roundUp n ≤ capacity m1 q := by
  obtain ⟨_, _, hr8, hrsm⟩ := roundUp_spec n hn
  obtain ⟨a, h, e, hb, hodd, c1, c2, c3, c4, c5, c6, c7, c8, c9⟩ := allocated_block hi.lay hp
  obtain ⟨m2, q2, hc2, _, hq1⟩ := hl_alloc_ok hi (n := roundUp n) hrsm
  rw [hcall] at hc2
  simp only [Option.some.injEq, Prod.mk.injEq] at hc2
  obtain ⟨rfl, rfl⟩ := hc2
  obtain ⟨hs1, af, hf, hi1, eq, hbf, hfe, hfit, hF1, hfr, hal, hbq⟩ := hq1 hq
  clear hq1
  rw [roundUp_idem _ hr8] at hfit hbq
  rw [c9] at hgt ⊢
  have hle : h - 1 ≤ roundUp n := by omega
  -- the new block in the new layout
  rw [← hF1] at hbq
  have hcq := mem_blocksOf_chain hi1.lay.chain hbq
  simp only at hcq
  have hspq : roundUp n + 8 ≤
      span (if hf - roundUp n - 8 < 16 then hf + 1 else roundUp n + 9) := by
    split
    · rw [span_succ hf hfe]; exact hfit
    · unfold span; omega
  have hcapq : capacity m1 q =
      span (if hf - roundUp n - 8 < 16 then hf + 1 else roundUp n + 9) - 8 := by
    unfold capacity
    rw [eq, Nat.add_sub_cancel, hcq.1]
  have hne : q ≠ a + 4 := by
    intro e2
    have h1 : (a, h) = (af, hf) := block_unique hi.lay.chain hb hbf (by simp only; omega)
    have := congrArg Prod.snd h1
    simp only at this
    omega
  have hnot : q ∉ allocated m heap := by
    intro hq
    obtain ⟨a2, h2, e2, hb2, hodd2, _⟩ := allocated_block hi.lay hq
    have h1 : (a2, h2) = (af, hf) := block_unique hi.lay.chain hb2 hbf (by simp only; omega)
    have := congrArg Prod.snd h1
    simp only at this
    omega
  obtain ⟨hi2, hF2, hal2⟩ := allocated_payload hi1 hbq q (q + (h - 1 - 8 + 1))
    (by simp only; omega) (by simp only; omega) (sameOutside_memmove m1 q p _)
  have hp2 : p ∈ allocated (memmove m1 q p (h - 1 - 8 + 1)) heap := by
    rw [hal2, hal p]; exact Or.inl hp
  obtain ⟨hs3, _, _, _, hi3, _, _, _, _, _, _, _, _, _, _, hal3⟩ := hl_release_ok hi2 hp2
  refine ⟨hs1, hs3, hi1, hi2, hi3, by rw [e]; exact hne, hnot, hal, hal2, fun x => ?_,
    by rw [hcapq]; omega, by rw [hcapq]; omega⟩
  rw [hal3 x, hal2, hal x]

theorem rinv_resize {heap : Nat} {s : State} {p n : Nat} {m' : Mem} {q : Nat}
    (hR : RInv heap s) (hp : p ∈ s.live ∨ p = 0) (hn : n ≤ 2147483640)
    (hcall : hl_resize s.mem heap p n = some (m', q)) :
    RInv heap ⟨m', if q = 0 then s.live else q :: s.live.filter (fun x => x ≠ p)⟩ := by
  rcases hp with hp | rfl
  · rcases hR with ⟨hs, hi, hlive⟩ | ⟨hh, hl⟩
    · have hpa := (hlive p).1 hp
      obtain ⟨hA, hB⟩ := hl_resize_ok hi hn hpa
      by_cases hle : roundUp n ≤ capacity s.mem p
      · rw [hA hle] at hcall
        simp only [Option.some.injEq, Prod.mk.injEq] at hcall
        obtain ⟨rfl, rfl⟩ := hcall
        rw [if_neg (allocated_ne_zero hi.lay hpa)]
        refine Or.inl ⟨hs, hi, fun x => ?_⟩
        rw [List.mem_cons, mem_filter_ne, ← hlive x]
        constructor
        · rintro (rfl | ⟨h1, _⟩)
          · exact hp
          · exact h1
        · intro h1
          by_cases hx : x = p
          · exact Or.inl hx
          · exact Or.inr ⟨h1, hx⟩
      · obtain ⟨m1, q1, hc1, hc2, _⟩ := hB (by omega)
        rw [hc2] at hcall
        simp only [Option.some.injEq, Prod.mk.injEq] at hcall
        obtain ⟨rfl, rfl⟩ := hcall
        by_cases hq : q1 = 0
        · rw [if_pos hq, if_pos hq]
          obtain ⟨m2, q2, hc3, hq0, _⟩ := hl_alloc_ok hi (n := roundUp n)
            (roundUp_spec n hn).2.2.2
          rw [hc1] at hc3
          simp only [Option.some.injEq, Prod.mk.injEq] at hc3
          obtain ⟨rfl, rfl⟩ := hc3
          rw [hq0 hq]
          exact Or.inl ⟨hs, hi, hlive⟩
        · rw [if_neg hq, if_neg hq]
          obtain ⟨hs1, hs3, _, _, hi3, _, _, _, _, hal3, _⟩ :=
            resize_grow_inv hi hn hpa (by omega) hc1 hq
          refine Or.inl ⟨hs3, hi3, fun x => ?_⟩
          rw [hal3 x, List.mem_cons, mem_filter_ne, ← hlive x]
          constructor
          · rintro (rfl | ⟨h1, h2⟩)
            · refine ⟨Or.inr rfl, ?_⟩
              intro e
              obtain ⟨_, _, _, _, _, hne, _⟩ := resize_grow_inv hi hn hpa (by omega) hc1 hq
              exact hne e
            · exact ⟨Or.inl h1, h2⟩
          · rintro ⟨h1 | h1, h2⟩
            · exact Or.inr ⟨h1, h2⟩
            · exact Or.inl h1
    · rw [hl] at hp
      exact absurd hp (List.not_mem_nil _)
  · rw [hl_resize_null] at hcall
    have h1 := rinv_alloc hR hn hcall
    by_cases hq : q = 0
    · rw [if_pos hq] at h1 ⊢
      exact h1
    · rw [if_neg hq] at h1 ⊢
      rcases h1 with ⟨hs, hi, hlive⟩ | ⟨hh, hl⟩
      · refine Or.inl ⟨hs, hi, fun x => ?_⟩
        rw [← hlive x, List.mem_cons, List.mem_cons, mem_filter_ne]
        constructor
        · rintro (h2 | ⟨h2, _⟩)
          · exact Or.inl h2
          · exact Or.inr h2
        · rintro (h2 | h2)
          · exact Or.inl h2
          · by_cases hx : x = q
            · exact Or.inl hx
            · refine Or.inr ⟨h2, ?_⟩
              intro e
              have : x ∈ allocated m' heap := (hlive x).1 (List.mem_cons_of_mem _ h2)
              exact allocated_ne_zero hi.lay this e
      · simp only at hl
        exact absurd hl (List.cons_ne_nil _ _)

/-- Every reachable state satisfies the invariant. -/
theorem reachable_inv (c : Consts) (heap : Nat) (s : State) (hmin : 40 ≤ c.MIN_HEAP_SIZE)
    (hSF : c.SUCCESS ≠ c.FAILURE) (hr : Reachable c heap s) : RInv heap s := by
  induction hr with
  | init m0 heap_size h32 hfit hok => exact rinv_init c m0 heap heap_size hmin hSF h32 hfit hok
  | alloc s n m' q _ hn hcall ih => exact rinv_alloc ih hn hcall
  | release s p _ hp ih => exact rinv_release ih hp
  | resize s p n m' q _ hp hn hcall ih => exact rinv_resize ih hp hn hcall
  | store s p i v _ hp hi ih => exact rinv_store ih hp hi

/-! ## Claims -/

theorem reachable_allocStep {c : Consts} {heap : Nat} {s : State} (n : Nat)
    (hs : Reachable c heap s) (hn : n ≤ 2147483640) : Reachable c heap (allocStep heap n s) := by
  unfold allocStep
  cases hc : hl_alloc s.mem heap n with
  | none => exact hs
  | some r =>
    obtain ⟨m', q⟩ := r
    exact Reachable.alloc s n m' q hs hn hc

theorem reachable_resizeStep {c : Consts} {heap : Nat} {s : State} (p n : Nat)
    (hs : Reachable c heap s) (hp : p ∈ s.live ∨ p = 0) (hn : n ≤ 2147483640) :
    Reachable c heap (resizeStep heap p n s) := by
  unfold resizeStep
  cases hc : hl_resize s.mem heap p n with
  | none => exact hs
  | some r =>
    obtain ⟨m', q⟩ := r
    exact Reachable.resize s p n m' q hs hp hn hc

theorem reachable_demoState : Reachable demoConsts 4096 demoState :=
  Reachable.init zeroMem 64 (by decide) (by decide) (by decide)

/-- C1: in every state reachable from a successful `hl_init` by calls with valid
arguments, the payload ranges `[p, p + capacity)` of two distinct live pointers
are disjoint, each payload lies inside the usable region
`[heap + padding + 16, heap + padding + 16 + heap_size)` and above the 16-byte
heap header, and no payload overlaps the header word or the footer word of any
block. -/
theorem payloads_disjoint (c : Consts) (heap : Nat) (s : State) (hmin : 40 ≤ c.MIN_HEAP_SIZE)
    (hSF : c.SUCCESS ≠ c.FAILURE) (hr : Reachable c heap s) :
    (∀ p ∈ s.live, ∀ q ∈ s.live, p ≠ q →
      p + capacity s.mem p ≤ q ∨ q + capacity s.mem q ≤ p) ∧
    (∀ p ∈ s.live, heapFirst s.mem heap ≤ p ∧ p + capacity s.mem p ≤ heapEnd s.mem heap) ∧
    (∀ p ∈ s.live, heap + 16 ≤ p) ∧
    (∀ p ∈ s.live, ∀ b ∈ heapBlocks s.mem heap,
      (p + capacity s.mem p ≤ b.1 ∨ b.1 + 4 ≤ p) ∧
      (p + capacity s.mem p ≤ b.1 + span b.2 - 4 ∨ b.1 + span b.2 ≤ p)) := by
  rcases reachable_inv c heap s hmin hSF hr with ⟨hs, hi, hlive⟩ | ⟨_, hl⟩
  · have hF := heapFirst_ge s.mem heap
    have key : ∀ p ∈ s.live, ∃ a h, p = a + 4 ∧ (a, h) ∈ blocksOf (heapFirst s.mem heap) hs ∧
        capacity s.mem p = span h - 8 ∧ 8 ≤ span h ∧ heapFirst s.mem heap ≤ a ∧
        a + span h ≤ heapEnd s.mem heap := by
      intro p hp
      obtain ⟨a, h, e, hb, hodd, c1, c2, c3, c4, c5, c6, c7, c8, c9⟩ :=
        allocated_block hi.lay ((hlive p).1 hp)
      have hsp := span_odd h hodd
      exact ⟨a, h, e, hb, by rw [c9, hsp], by omega, c6, by omega⟩
    refine ⟨?_, ?_, ?_, ?_⟩
    · intro p hp q hq hne
      obtain ⟨a, h, e, hb, hc, h8, _, _⟩ := key p hp
      obtain ⟨a', h', e', hb', hc', h8', _, _⟩ := key q hq
      rcases blocks_disjoint hb hb' with hd | hd | hd
      · have := congrArg Prod.fst hd
        simp only at this
        omega
      · simp only at hd; omega
      · simp only at hd; omega
    · intro p hp
      obtain ⟨a, h, e, hb, hc, h8, h1, h2⟩ := key p hp
      omega
    · intro p hp
      obtain ⟨a, h, e, hb, hc, h8, h1, h2⟩ := key p hp
      omega
    · intro p hp b hb'
      obtain ⟨a, h, e, hb, hc, h8, _, _⟩ := key p hp
      rw [heapBlocks_eq hi.lay] at hb'
      have hv := hi.lay.valid b.2 (mem_blocksOf_bounds hb').2.2
      rcases blocks_disjoint hb hb' with hd | hd | hd
      · subst hd
        simp only
        omega
      · simp only at hd; omega
      · simp only at hd; omega
  · rw [hl]
    simp


theorem reachable_demoState2 : Reachable demoConsts 4096 demoState2 :=
  reachable_allocStep 8 (reachable_allocStep 8 reachable_demoState (by decide)) (by decide)

theorem payloads_disjoint_witness :
    (40 ≤ demoConsts.MIN_HEAP_SIZE ∧ demoConsts.SUCCESS ≠ demoConsts.FAILURE ∧
      Reachable demoConsts 4096 demoState2 ∧ demoState2.live = [4136, 4120]) ∧
    ((∀ p ∈ demoState2.live, ∀ q ∈ demoState2.live, p ≠ q →
      p + capacity demoState2.mem p ≤ q ∨ q + capacity demoState2.mem q ≤ p) ∧
    (∀ p ∈ demoState2.live,
      heapFirst demoState2.mem 4096 ≤ p ∧
        p + capacity demoState2.mem p ≤ heapEnd demoState2.mem 4096) ∧
    (∀ p ∈ demoState2.live, 4096 + 16 ≤ p) ∧
    (∀ p ∈ demoState2.live, ∀ b ∈ heapBlocks demoState2.mem 4096,
      (p + capacity demoState2.mem p ≤ b.1 ∨ b.1 + 4 ≤ p) ∧
      (p + capacity demoState2.mem p ≤ b.1 + span b.2 - 4 ∨ b.1 + span b.2 ≤ p))) :=
  ⟨⟨by decide, by decide, reachable_demoState2, by decide⟩,
    payloads_disjoint demoConsts 4096 demoState2 (by decide) (by decide) reachable_demoState2⟩

theorem allocConsume_ptr {m m' : Mem} {heap E a q : Nat}
    (h : allocConsume m heap E a = some (m', q)) : q = ADD_BYTES a 4 := by
  unfold allocConsume at h
  simp only at h
  split at h
  · split at h
    · exact absurd h (by simp)
    · simp only [Option.some.injEq, Prod.mk.injEq] at h
      exact h.2.symm
  · simp only [Option.some.injEq, Prod.mk.injEq] at h
    exact h.2.symm

theorem allocSplit_ptr {m m' : Mem} {heap a bs ns q : Nat}
    (h : allocSplit m heap a bs ns = some (m', q)) : q = ADD_BYTES a 4 := by
  unfold allocSplit at h
  simp only at h
  split at h
  · simp only [Option.some.injEq, Prod.mk.injEq] at h
    exact h.2.symm
  · simp only [Option.some.injEq, Prod.mk.injEq] at h
    exact h.2.symm

/-- When the search stops on a block below the end of the region, `hl_alloc` returns
that block's payload pointer. -/
theorem hl_alloc_ptr_of_scan {m m' : Mem} {heap n a q : Nat} (hpad : read32 m (heap + 4) ≤ 15)
    (hrange : heapEnd m heap < 18446744073709551616)
    (hscan : allocScan m (heapEnd m heap) (roundUp n) (heapEnd m heap - heapHint m heap + 1)
      (heapHint m heap) = some a)
    (ha : a < heapEnd m heap) (ha4 : a + 4 < 18446744073709551616)
    (hcall : hl_alloc m heap n = some (m', q)) : q = a + 4 := by
  rw [hl_alloc_eq m heap n hpad hrange, hscan] at hcall
  simp only at hcall
  rw [if_pos ha] at hcall
  have h4 : ADD_BYTES a 4 = a + 4 := ADD_BYTES_four _ (by omega)
  split at hcall
  · rw [allocConsume_ptr hcall, h4]
  · rw [allocSplit_ptr hcall, h4]

/-- On a well-formed heap a call of `hl_alloc` that returns `NULL` has not written,
whatever the requested size. -/
theorem hl_alloc_zero {m m' : Mem} {heap n : Nat} (hwf : WF m heap)
    (hcall : hl_alloc m heap n = some (m', 0)) : m' = m := by
  rcases hwf with ⟨hs, hi⟩ | hh
  · obtain ⟨pre, suf, e, hh, hpo⟩ := hi.hint
    obtain ⟨skipped, rest0, e2, hsk, hst⟩ := exists_split (fun x => NoFit (roundUp n) x) suf
    subst e2
    subst e
    cases rest0 with
    | nil =>
      rw [List.append_nil] at hi
      have := hl_alloc_null hi.lay hh hsk
      rw [hcall] at this
      simp only [Option.some.injEq, Prod.mk.injEq] at this
      exact this.1
    | cons h rest =>
      have hfit := hst h rest rfl
      have hscan := alloc_scan_found hi.lay hh hsk hfit
      have hl' : Layout m heap ((pre ++ skipped) ++ h :: rest) := by
        rw [List.append_assoc]; exact hi.lay
      obtain ⟨b1, b2, b3, b4, b5, b6, b7, b8, b9, b10, b11, b12⟩ := layout_block hl'
      rw [total_append, ← Nat.add_assoc] at b6
      have := hl_alloc_ptr_of_scan hi.lay.pad hi.lay.range hscan (by omega) (by omega) hcall
      omega
  · have hE : heapEnd m heap = heapFirst m heap + read32 m heap := rfl
    have hfuel : heapEnd m heap - heapFirst m heap + 1 = (read32 m heap - 1 + 1) + 1 := by
      have := hh.huge; omega
    have hhuge := hh.huge
    have heven := hh.even
    have hrange := hh.range
    have hspan : span (read32 m heap) = read32 m heap := span_even _ (by omega)
    by_cases hno : NoFit (roundUp n) (read32 m heap)
    · have h1 : hl_alloc m heap n = some (m, 0) := by
        rw [hl_alloc_eq m heap n hh.pad hh.range, hh.hint]
        rw [hfuel, allocScan_succ, hh.head, if_pos ⟨by omega, hno⟩,
          ADD_BYTES_span _ _ (by omega), hspan, allocScan_succ, ← hE, if_neg (by omega)]
        simp only []
        rw [if_neg (Nat.lt_irrefl _)]
      rw [hcall] at h1
      simp only [Option.some.injEq, Prod.mk.injEq] at h1
      exact h1.1
    · have hscan : allocScan m (heapEnd m heap) (roundUp n)
          (heapEnd m heap - heapHint m heap + 1) (heapHint m heap) =
          some (heapFirst m heap) := by
        rw [hh.hint, hfuel, allocScan_succ, hh.head, if_neg (fun h => hno h.2)]
      have := hl_alloc_ptr_of_scan hh.pad hh.range hscan (by omega) (by omega) hcall
      omega

/-- C5: failure is atomic.  On a well-formed heap, whenever `hl_alloc(heap, n)`
returns `NULL`, and whenever `hl_resize(heap, p, n)` returns `NULL`, the memory
after the call is the memory before it: every byte of the buffer (heap header,
block headers and footers, payloads) is unchanged, so the block of `p` is still
allocated with its payload intact. -/
theorem failure_atomic (m m' : Mem) (heap n : Nat) (hwf : WF m heap) :
    (hl_alloc m heap n = some (m', 0) → m' = m) ∧
    (∀ p, hl_resize m heap p n = some (m', 0) → m' = m) := by
  refine ⟨fun h => hl_alloc_zero hwf h, fun p h => ?_⟩
  unfold hl_resize at h
  split at h
  · exact hl_alloc_zero hwf h
  · rename_i hp
    simp only at h
    split at h
    · simp only [Option.some.injEq, Prod.mk.injEq] at h
      exact absurd h.2 hp
    · split at h
      · exact absurd h (by simp)
      · rename_i m1 q hc
        split at h
        · rename_i hq
          subst hq
          simp only [Option.some.injEq, Prod.mk.injEq, and_true] at h
          rw [← h]
          exact hl_alloc_zero hwf hc
        · rename_i hq
          simp only [Option.some.injEq, Prod.mk.injEq] at h
          exact absurd h.2 hq

/-- Reachable states are well formed. -/
theorem reachable_wf (c : Consts) (heap : Nat) (s : State) (hmin : 40 ≤ c.MIN_HEAP_SIZE)
    (hSF : c.SUCCESS ≠ c.FAILURE) (hr : Reachable c heap s) : WF s.mem heap := by
  rcases reachable_inv c heap s hmin hSF hr with ⟨hs, hi, _⟩ | ⟨hh, _⟩
  · exact Or.inl ⟨hs, hi⟩
  · exact Or.inr hh

theorem wf_demoState2 : WF demoState2.mem 4096 :=
  reachable_wf demoConsts 4096 demoState2 (by decide) (by decide) reachable_demoState2

theorem failure_atomic_witness :
    WF demoState2.mem 4096 ∧
    hl_alloc demoState2.mem 4096 32 = some (allocMem demoState2.mem 4096 32, 0) ∧
    allocMem demoState2.mem 4096 32 = demoState2.mem :=
  ⟨wf_demoState2, by rfl,
    (failure_atomic demoState2.mem (allocMem demoState2.mem 4096 32) 4096 32 wf_demoState2).1
      (by rfl)⟩

/-- C6: initialization floor.  `hl_init(heap, heap_size)` returns `FAILURE` if and
only if `heap_size < MIN_HEAP_SIZE`, and when it returns `FAILURE` the memory is
the one it was given (no byte is written). -/
theorem init_floor (c : Consts) (m : Mem) (heap heap_size : Nat)
    (hSF : c.SUCCESS ≠ c.FAILURE) :
    ((hl_init c m heap heap_size).2 = c.FAILURE ↔ heap_size < c.MIN_HEAP_SIZE) ∧
    ((hl_init c m heap heap_size).2 = c.FAILURE → (hl_init c m heap heap_size).1 = m) := by
  unfold hl_init
  by_cases h : heap_size < c.MIN_HEAP_SIZE
  · rw [if_pos h]
    exact ⟨⟨fun _ => h, fun _ => rfl⟩, fun _ => rfl⟩
  · rw [if_neg h]
    exact ⟨⟨fun e => absurd e hSF, fun e => absurd e h⟩, fun e => absurd e hSF⟩

theorem init_floor_witness :
    demoConsts.SUCCESS ≠ demoConsts.FAILURE ∧
    (((hl_init demoConsts zeroMem 4096 39).2 = demoConsts.FAILURE ↔
        39 < demoConsts.MIN_HEAP_SIZE) ∧
      ((hl_init demoConsts zeroMem 4096 39).2 = demoConsts.FAILURE →
        (hl_init demoConsts zeroMem 4096 39).1 = zeroMem)) :=
  ⟨by decide, init_floor demoConsts zeroMem 4096 39 (by decide)⟩

/-- C2 (failing input): on the 64-byte heap, whose only free block has payload
capacity 32, `hl_alloc(heap, 4294967295)` returns the non-null pointer 4120 to a
block of payload capacity 0 (the round-up wraps to 0), and
`hl_alloc(heap, 2147483648)` returns 4120 as well and writes the footer word
`2^31 + 9` at address 2147487768, far beyond the buffer (the request is compared
as a negative `int`). -/
theorem alloc_oversized_request :
    heapBlocks demoHeap 4096 = [(4116, 40)] ∧
    (hl_alloc demoHeap 4096 4294967295).map Prod.snd = some 4120 ∧
    capacity (allocMem demoHeap 4096 4294967295) 4120 = 0 ∧
    (hl_alloc demoHeap 4096 2147483648).map Prod.snd = some 4120 ∧
    read32 (allocMem demoHeap 4096 2147483648) 2147487768 = 2147483657 := by
  decide

/-- C3 (failing input): on a heap whose single free block has span `2^31 + 40` (header
and footer agree, the hint is on the block), `hl_alloc(heap, 8)` returns `NULL`
although that block fits the request: the span is compared as a negative `int`. -/
theorem alloc_huge_heap_null :
    heapBlocks hugeHeap 4096 = [(4116, 2147483688)] ∧
    read32 hugeHeap 2147487800 = 2147483688 ∧
    heapHint hugeHeap 4096 = 4116 ∧ heapEnd hugeHeap 4096 = 2147487804 ∧
    (hl_alloc hugeHeap 4096 8).map Prod.snd = some 0 := by
  decide

/-- C7 (failing input): `hl_init(heap = 4096, heap_size = 4294967295)` on zeroed memory
succeeds and records `heap_size = 4294967272` in the header and in the first
block's header word at 4116, but the footer word is written at address 4088,
below the buffer, and the word at block start + heap_size - 4 stays 0: the
footer offset is computed from `(int) first->block_size`, which is negative. -/
theorem init_huge_footer_misplaced :
    (hl_init demoConsts zeroMem 4096 4294967295).2 = demoConsts.SUCCESS ∧
    read32 (hl_init demoConsts zeroMem 4096 4294967295).1 4096 = 4294967272 ∧
    read32 (hl_init demoConsts zeroMem 4096 4294967295).1 4116 = 4294967272 ∧
    read32 (hl_init demoConsts zeroMem 4096 4294967295).1 (4116 + 4294967272 - 4) = 0 ∧
    read32 (hl_init demoConsts zeroMem 4096 4294967295).1 4088 = 4294967272 := by
  decide

/-- The shape of a successful `hl_alloc`: a non-null result is the payload of a block
at `a` that was free with span `s >= r + 8` (`r` the rounded request), and the
block is consumed or split as lines 70-93 say; the block list is otherwise the
same, no byte outside the block and the hint field changes, and the hint moves
only when `a` was the hint. -/
theorem alloc_result_blocks (m m' : Mem) (heap n q : Nat) (hwf : WF m heap)
    (hn : n ≤ 2147483640) (hcall : hl_alloc m heap n = some (m', q)) (hq : q ≠ 0) :
    ∃ a s pre rest, q = a + 4 ∧ a = heapFirst m heap + total pre ∧
      heapBlocks m heap = blocksOf (heapFirst m heap) (pre ++ s :: rest) ∧
      s % 2 = 0 ∧ roundUp n + 8 ≤ s ∧
      heapBlocks m' heap =
        blocksOf (heapFirst m heap) (pre ++ (placed s (roundUp n) ++ rest)) ∧
      (s - roundUp n - 8 < 16 → read32 m' a = s + 1 ∧ read32 m' (a + s - 4) = s + 1) ∧
      (16 ≤ s - roundUp n - 8 →
        read32 m' a = roundUp n + 9 ∧ read32 m' (a + roundUp n + 4) = roundUp n + 9 ∧
        read32 m' (a + roundUp n + 8) = s - roundUp n - 8 ∧
        read32 m' (a + s - 4) = s - roundUp n - 8) ∧
      Frame m m' heap a (a + s) ∧
      (a ≠ heapHint m heap → heapHint m' heap = heapHint m heap) ∧
      (a = heapHint m heap →
        a < heapHint m' heap ∧
        (heapHint m' heap = heapEnd m heap ∨
          ∃ b ∈ heapBlocks m' heap, b.1 = heapHint m' heap ∧ b.2 % 2 = 0) ∧
        (∀ b ∈ heapBlocks m' heap, a < b.1 → b.1 < heapHint m' heap → b.2 % 2 = 1) ∧
        (16 ≤ s - roundUp n - 8 → heapHint m' heap = a + roundUp n + 8)) := by
  rcases hwf with ⟨hs, hi⟩ | hh
  swap
  · have := hl_alloc_huge hh hn
    rw [hcall] at this
    simp only [Option.some.injEq, Prod.mk.injEq] at this
    exact absurd this.2 hq
  rcases hl_alloc_cases hi hn with ⟨h0, _⟩ | ⟨m2, pre, skipped, h, rest, oddrun, rest2, e, hh,
    hpo, hsk, hfit, e3, ho, hs2, hc2, hinv, hhint', hF', hfr⟩
  · rw [hcall] at h0
    simp only [Option.some.injEq, Prod.mk.injEq] at h0
    exact absurd h0.2 hq
  rw [hcall] at hc2
  simp only [Option.some.injEq, Prod.mk.injEq] at hc2
  obtain ⟨rfl, rfl⟩ := hc2
  obtain ⟨_, _, hr8, hrsm⟩ := roundUp_spec n hn
  subst e
  have hl' : Layout m heap ((pre ++ skipped) ++ h :: rest) := by
    rw [List.append_assoc]; exact hi.lay
  obtain ⟨b1, b2, b3, b4, b5, b6, b7, b8, b9, b10, b11, b12⟩ := layout_block hl'
  obtain ⟨f1, f2, f3⟩ := fit_block hrsm b3 b8 hfit
  rw [f3] at b6
  have hlo : heapFirst m heap + total (pre ++ skipped) =
      heapFirst m heap + total pre + total skipped := by
    rw [total_append, ← Nat.add_assoc]
  have hl2 : Layout m' heap ((pre ++ skipped) ++ (placed h (roundUp n) ++ rest)) := by
    rw [List.append_assoc]; exact hinv.lay
  have hch2 := ((chain_append _ _ _ _).1 ((chain_append _ _ _ _).1 hl2.chain).2).1
  rw [hF', hlo] at hch2
  have hval11 := valid_append.1 b11
  have hiff : heapFirst m heap + total pre + total skipped = heapHint m heap ↔
      skipped = [] := by
    rw [hh]
    constructor
    · intro e
      exact total_eq_zero hval11.2 (by omega)
    · intro e
      rw [e]
      simp only [total]
      omega
  have hB' : heapBlocks m' heap =
      blocksOf (heapFirst m heap) ((pre ++ skipped) ++ (placed h (roundUp n) ++ rest)) := by
    rw [heapBlocks_eq hl2, hF']
  have htp := total_placed h (roundUp n) f1 hr8 f2
  refine ⟨heapFirst m heap + total pre + total skipped, h, pre ++ skipped, rest, rfl, hlo.symm,
    heapBlocks_eq hl', f1, f2, hB', ?_, ?_, hfr, ?_, ?_⟩
  · intro hc
    have hp : placed h (roundUp n) = [h + 1] := by unfold placed; rw [if_pos hc]
    rw [hp] at hch2
    have := hch2.2.1
    rw [span_succ h f1] at this
    exact ⟨hch2.1, this⟩
  · intro hc
    have hp : placed h (roundUp n) = [roundUp n + 9, h - roundUp n - 8] := by
      unfold placed; rw [if_neg (by omega)]
    rw [hp] at hch2
    have hsp1 : span (roundUp n + 9) = roundUp n + 8 := by unfold span; omega
    have hsp2 : span (h - roundUp n - 8) = h - roundUp n - 8 := span_even _ (by omega)
    obtain ⟨k1, k2, k3, k4, _⟩ := hch2
    rw [hsp1] at k2 k3 k4
    rw [hsp2] at k4
    have e1 : heapFirst m heap + total pre + total skipped + (roundUp n + 8) - 4 =
        heapFirst m heap + total pre + total skipped + roundUp n + 4 := by omega
    have e2 : heapFirst m heap + total pre + total skipped + (roundUp n + 8) +
        (h - roundUp n - 8) - 4 = heapFirst m heap + total pre + total skipped + h - 4 := by
      omega
    rw [e1] at k2
    rw [e2] at k4
    rw [← Nat.add_assoc] at k3
    exact ⟨k1, k2, k3, k4⟩
  · intro hne
    rw [hhint', if_neg (fun e => hne (hiff.2 e))]
  · intro heq
    have hs0 := hiff.1 heq
    subst hs0
    rw [if_pos rfl] at hhint'
    simp only [total, Nat.add_zero, List.append_nil] at *
    have hmem : ∀ b, b ∈ heapBlocks m' heap ↔ b ∈ blocksOf (heapFirst m heap) pre ∨
        b ∈ blocksOf (heapFirst m heap + total pre) (placed h (roundUp n)) ∨
        b ∈ blocksOf (heapFirst m heap + total pre + h) rest := by
      intro b
      rw [hB', mem_blocksOf_mid, htp]
    have hbp := blocksOf_placed (heapFirst m heap + total pre) h (roundUp n) hr8
    by_cases hc : h - roundUp n - 8 < 16
    · rw [if_pos hc] at hhint' hbp
      rw [e3] at b6 b10
      rw [total_append] at b6
      have hv10 := valid_append.1 b10
      refine ⟨by omega, ?_, ?_, fun h16 => by omega⟩
      · cases hr2 : rest2 with
        | nil =>
          left
          rw [hr2] at b6
          simp only [total] at b6
          omega
        | cons y ys =>
          right
          refine ⟨(heapHint m' heap, y), ?_, rfl, ?_⟩
          · rw [hmem, e3, hr2, hhint']
            right; right
            exact (mem_blocksOf_append _ _ _ _).2 (Or.inr (List.mem_cons_self _ _))
          · have := hs2 y ys hr2
            simp only
            omega
      · intro b hb hab hbl
        rcases (hmem b).1 hb with h1 | h1 | h1
        · have := mem_blocksOf_bounds h1
          have := b11 b.2 this.2.2
          omega
        · rw [hbp] at h1
          simp only [List.mem_singleton] at h1
          rw [h1] at hab
          simp only at hab
          omega
        · rw [e3] at h1
          rcases (mem_blocksOf_append _ _ _ _).1 h1 with h2 | h2
          · exact ho b.2 (mem_blocksOf_bounds h2).2.2
          · have := (mem_blocksOf_bounds h2).1
            omega
    · rw [if_neg hc] at hhint' hbp
      refine ⟨by omega, Or.inr ⟨(heapHint m' heap, h - roundUp n - 8), ?_, rfl, ?_⟩, ?_,
        fun _ => hhint'⟩
      · rw [hmem, hbp, hhint']
        right; left
        exact List.mem_cons_of_mem _ (List.mem_singleton_self _)
      · simp only; omega
      · intro b hb hab hbl
        rcases (hmem b).1 hb with h1 | h1 | h1
        · have := mem_blocksOf_bounds h1
          have := b11 b.2 this.2.2
          omega
        · rw [hbp] at h1
          simp only [List.mem_cons, List.mem_singleton, List.not_mem_nil, or_false] at h1
          rcases h1 with h1 | h1
          · rw [h1] at hab; simp only at hab; omega
          · rw [h1] at hbl; simp only at hbl; omega
        · have := (mem_blocksOf_bounds h1).1
          omega

theorem walk_succ (m : Mem) (e f a : Nat) :
    walk m e (f + 1) a =
      if a < e then (a, read32 m a) :: walk m e f (a + span (read32 m a)) else [] := rfl

theorem mem_walk_read (m : Mem) (e : Nat) :
    ∀ (fuel a : Nat) (b : Nat × Nat), b ∈ walk m e fuel a → b.2 = read32 m b.1 := by
  intro fuel
  induction fuel with
  | zero =>
    intro a b hb
    simp only [walk, List.not_mem_nil] at hb
  | succ f ih =>
    intro a b hb
    rw [walk_succ] at hb
    split at hb
    · rcases List.mem_cons.1 hb with h1 | h1
      · rw [h1]
      · exact ih _ b h1
    · exact absurd hb (List.not_mem_nil _)

/-- The search of `hl_alloc` in terms of the hint and the end of the usable
region. -/
theorem allocSearch_eq (m : Mem) (heap n : Nat) (hpad : read32 m (heap + 4) ≤ 15)
    (hrange : heapEnd m heap < 18446744073709551616) :
    allocSearch m heap n =
      allocScan m (heapEnd m heap) (roundUp n) (heapEnd m heap - heapHint m heap + 1)
        (heapHint m heap) := by
  have hF : ADD_BYTES heap (u32 ((read32 m (heap + 4) : Int) + 16)) = heapFirst m heap := by
    have : u32 ((read32 m (heap + 4) : Int) + 16) = read32 m (heap + 4) + 16 := by
      unfold u32; omega
    rw [this]
    unfold heapEnd heapFirst at *
    unfold ADD_BYTES; omega
  have hE : ADD_BYTES (heapFirst m heap) (read32 m heap) = heapEnd m heap := by
    unfold heapEnd at *
    exact ADD_BYTES_nat _ _ hrange
  unfold allocSearch
  simp only [hF, hE]
  rfl

/-- On a fresh heap whose usable size exceeds `2^31` the search of `hl_alloc` skips the
only block and stops at the end of the usable region. -/
theorem alloc_scan_huge {m : Mem} {heap n : Nat} (hh : HugeFresh m heap)
    (hn : n ≤ 2147483640) :
    allocScan m (heapEnd m heap) (roundUp n) (heapEnd m heap - heapHint m heap + 1)
      (heapHint m heap) = some (heapEnd m heap) := by
  obtain ⟨_, _, hr8, hrsm⟩ := roundUp_spec n hn
  rw [hh.hint]
  have hE : heapEnd m heap = heapFirst m heap + read32 m heap := rfl
  have hfuel : heapEnd m heap - heapFirst m heap + 1 = (read32 m heap - 1 + 1) + 1 := by
    have := hh.huge; omega
  have hlt := read32_lt m heap
  have hhuge := hh.huge
  have heven := hh.even
  have hrange := hh.range
  have hno : NoFit (roundUp n) (read32 m heap) := by
    right
    rw [i32_i32_sub_neg _ _ (by omega) (by omega), i32_nat _ (by omega)]
    omega
  have hspan : span (read32 m heap) = read32 m heap := span_even _ (by omega)
  rw [hfuel, allocScan_succ, hh.head, if_pos ⟨by omega, hno⟩, ADD_BYTES_span _ _ (by omega),
    hspan, allocScan_succ, ← hE, if_neg (by omega)]

/-- On a well-formed heap, when the search of `hl_alloc` stops on a block below the
end of the usable region, the call returns the payload pointer of that block. -/
theorem alloc_selected {m : Mem} {heap n a : Nat} (hwf : WF m heap) (hn : n ≤ 2147483640)
    (hscan : allocScan m (heapEnd m heap) (roundUp n) (heapEnd m heap - heapHint m heap + 1)
      (heapHint m heap) = some a)
    (ha : a < heapEnd m heap) : ∃ m', hl_alloc m heap n = some (m', a + 4) := by
  rcases hwf with ⟨hs, hi⟩ | hh
  · rcases hl_alloc_cases hi hn with ⟨_, pre, skipped, e, hh, _, hsk⟩ |
      ⟨m', pre, skipped, h, rest, _, _, e, hh, _, hsk, hfit, _, _, _, hcall, _⟩
    · subst e
      have h1 := alloc_scan_none hi.lay hh hsk
      rw [hscan] at h1
      have h2 := Option.some.inj h1
      omega
    · subst e
      have h1 := alloc_scan_found hi.lay hh hsk hfit
      rw [hscan] at h1
      have h2 := Option.some.inj h1
      exact ⟨m', by rw [h2]; exact hcall⟩
  · have h1 := alloc_scan_huge hh hn
    rw [hscan] at h1
    have h2 := Option.some.inj h1
    omega

theorem wf_fields {m : Mem} {heap : Nat} (hwf : WF m heap) :
    read32 m (heap + 4) ≤ 15 ∧ heapEnd m heap < 18446744073709551616 := by
  rcases hwf with ⟨hs, hi⟩ | hh
  · exact ⟨hi.lay.pad, hi.lay.range⟩
  · exact ⟨hh.pad, hh.range⟩

/-- C4: split-or-consume.  On a well-formed heap, when the search of
`hl_alloc(heap, n)` (`n <= 2^31 - 8`, `r` the round-up of `n`) selects the block
at address `a` (the loop of line 65 stops at `a`, below the end of the usable
region), the call returns `a + 4`, and the block at `a` was free with a span
`s >= r + 8`.  With `remainder = s - r - 8`: if `remainder < 16` the block keeps
its span and becomes allocated (header and footer words `s + 1`); otherwise it
becomes an allocated block of span `r + 8` (header and footer words `r + 9`)
followed at `a + r + 8` by a free block whose header and footer words are
`remainder` and which ends where the old block ended.  The block list is
otherwise the same and no byte outside the block and the hint field changes.
If `a` was the hint, the hint becomes the address of the first free block after
`a` (the remainder block after a split) or the end of the usable region;
otherwise the hint is unchanged. -/
theorem alloc_split_or_consume (m : Mem) (heap n a : Nat) (hwf : WF m heap)
    (hn : n ≤ 2147483640) (hsel : allocSearch m heap n = some a)
    (ha : a < heapEnd m heap) :
    ∃ m' s pre rest, hl_alloc m heap n = some (m', a + 4) ∧ read32 m a = s ∧
      a = heapFirst m heap + total pre ∧
      heapBlocks m heap = blocksOf (heapFirst m heap) (pre ++ s :: rest) ∧
      s % 2 = 0 ∧ roundUp n + 8 ≤ s ∧
      heapBlocks m' heap =
        blocksOf (heapFirst m heap) (pre ++ (placed s (roundUp n) ++ rest)) ∧
      (s - roundUp n - 8 < 16 → read32 m' a = s + 1 ∧ read32 m' (a + s - 4) = s + 1) ∧
      (16 ≤ s - roundUp n - 8 →
        read32 m' a = roundUp n + 9 ∧ read32 m' (a + roundUp n + 4) = roundUp n + 9 ∧
        read32 m' (a + roundUp n + 8) = s - roundUp n - 8 ∧
        read32 m' (a + s - 4) = s - roundUp n - 8) ∧
      Frame m m' heap a (a + s) ∧
      (a ≠ heapHint m heap → heapHint m' heap = heapHint m heap) ∧
      (a = heapHint m heap →
        a < heapHint m' heap ∧
        (heapHint m' heap = heapEnd m heap ∨
          ∃ b ∈ heapBlocks m' heap, b.1 = heapHint m' heap ∧ b.2 % 2 = 0) ∧
        (∀ b ∈ heapBlocks m' heap, a < b.1 → b.1 < heapHint m' heap → b.2 % 2 = 1) ∧
        (16 ≤ s - roundUp n - 8 → heapHint m' heap = a + roundUp n + 8)) := by
  obtain ⟨hpad, hrange⟩ := wf_fields hwf
  rw [allocSearch_eq m heap n hpad hrange] at hsel
  obtain ⟨m', hcall⟩ := alloc_selected hwf hn hsel ha
  obtain ⟨a', s, pre, rest, e1, e2, e3, e4, e5, e6, e7⟩ :=
    alloc_result_blocks m m' heap n (a + 4) hwf hn hcall (by omega)
  have ea : a' = a := by omega
  subst ea
  refine ⟨m', s, pre, rest, hcall, ?_, e2, e3, e4, e5, e6, e7⟩
  have hmem : (a', s) ∈ heapBlocks m heap := by
    rw [e3, e2]
    exact (mem_blocksOf_append _ _ _ _).2 (Or.inr (List.mem_cons_self _ _))
  exact (mem_walk_read m _ _ _ _ hmem).symm

theorem wf_demoHeap : WF demoHeap 4096 :=
  reachable_wf demoConsts 4096 demoState (by decide) (by decide) reachable_demoState

theorem wf_oneBlock : WF (allocStep 4096 8 demoState).mem 4096 :=
  reachable_wf demoConsts 4096 _ (by decide) (by decide)
    (reachable_allocStep 8 reachable_demoState (by decide))

theorem alloc_split_or_consume_witness :
    (WF demoHeap 4096 ∧ (8 : Nat) ≤ 2147483640 ∧ allocSearch demoHeap 4096 8 = some 4116 ∧
      4116 < heapEnd demoHeap 4096 ∧
      ∃ m' s, hl_alloc demoHeap 4096 8 = some (m', 4116 + 4) ∧ read32 demoHeap 4116 = s ∧
        s = 40 ∧ 16 ≤ s - roundUp 8 - 8 ∧ read32 m' 4116 = roundUp 8 + 9 ∧
        read32 m' (4116 + roundUp 8 + 8) = s - roundUp 8 - 8) ∧
    (WF (allocStep 4096 8 demoState).mem 4096 ∧
      allocSearch (allocStep 4096 8 demoState).mem 4096 8 = some 4132 ∧
      4132 < heapEnd (allocStep 4096 8 demoState).mem 4096 ∧
      ∃ m' s, hl_alloc (allocStep 4096 8 demoState).mem 4096 8 = some (m', 4132 + 4) ∧
        read32 (allocStep 4096 8 demoState).mem 4132 = s ∧ s = 24 ∧
        s - roundUp 8 - 8 < 16 ∧ read32 m' 4132 = s + 1 ∧ read32 m' (4132 + s - 4) = s + 1) := by
  refine ⟨⟨wf_demoHeap, by decide, by decide, by decide, ?_⟩,
    ⟨wf_oneBlock, by decide, by decide, ?_⟩⟩
  · obtain ⟨m', s, pre, rest, h1, h2, _, _, _, _, _, _, hsplit, _⟩ :=
      alloc_split_or_consume demoHeap 4096 8 4116 wf_demoHeap (by decide) (by decide)
        (by decide)
    have hs : s = 40 := by rw [← h2]; decide
    subst hs
    exact ⟨m', 40, h1, h2, rfl, by decide, (hsplit (by decide)).1,
      (hsplit (by decide)).2.2.1⟩
  · obtain ⟨m', s, pre, rest, h1, h2, _, _, _, _, _, hcons, _⟩ :=
      alloc_split_or_consume (allocStep 4096 8 demoState).mem 4096 8 4132 wf_oneBlock
        (by decide) (by decide) (by decide)
    have hs : s = 24 := by rw [← h2]; decide
    subst hs
    exact ⟨m', 24, h1, h2, rfl, by decide, (hcons (by decide)).1, (hcons (by decide)).2⟩

/-! ## Round trip -/

theorem free_blocksOf (a : Nat) (hs : List Nat) :
    (((blocksOf a hs).filter (fun b => b.2 % 2 = 0)).map (fun b => span b.2)).sum = freeOf hs := by
  induction hs generalizing a with
  | nil => rfl
  | cons h t ih =>
    simp only [blocksOf, freeOf]
    by_cases he : h % 2 = 0
    · rw [List.filter_cons_of_pos (by simpa using he), if_pos he]
      simp only [List.map_cons, List.sum_cons, ih]
    · rw [List.filter_cons_of_neg (by simpa using he), if_neg he, ih]
      omega

theorem freeCapacity_eq {m : Mem} {heap : Nat} {hs : List Nat} (hl : Layout m heap hs) :
    freeCapacity m heap = freeOf hs := by
  unfold freeCapacity
  rw [heapBlocks_eq hl, free_blocksOf]

theorem freeOf_append (xs ys : List Nat) : freeOf (xs ++ ys) = freeOf xs + freeOf ys := by
  induction xs with
  | nil => simp [freeOf]
  | cons h t ih =>
    rw [List.cons_append]
    simp only [freeOf, ih]
    omega

theorem freeOf_merge (s : Nat) (hs : s % 2 = 0) (rest : List Nat) :
    freeOf (mergedSpan s rest :: afterMerge rest) = s + freeOf rest := by
  rcases merge_cases s rest with ⟨q1, q2, _⟩ | ⟨t, r, q0, q2, q3, q4⟩
  · rw [q1, q2]
    simp only [freeOf, if_pos hs, span_even s hs]
  · rw [q3, q4, q0]
    simp only [freeOf, if_pos q2, if_pos (by omega : (s + t) % 2 = 0),
      span_even _ (by omega : (s + t) % 2 = 0), span_even t q2]
    omega

/-- `hl_alloc` followed by `hl_release` of the returned pointer, on a heap that
satisfies the invariant: the invariant holds again, with the same free bytes and
the same hint, and a heap made of a single free block is restored. -/
theorem roundtrip_layout {m : Mem} {heap n : Nat} {hs : List Nat} (hi : HeapInv m heap hs)
    (hn : n ≤ 2147483640) :
    ∃ m1 q hs2, hl_alloc m heap n = some (m1, q) ∧
      HeapInv (hl_release m1 heap q) heap hs2 ∧ freeOf hs2 = freeOf hs ∧
      heapHint (hl_release m1 heap q) heap = heapHint m heap ∧
      heapFirst (hl_release m1 heap q) heap = heapFirst m heap ∧
      (∀ f, hs = [f] → hs2 = [f]) := by
  rcases hl_alloc_cases hi hn with ⟨h0, _⟩ | ⟨m1, pre, skipped, h, rest, oddrun, rest2, e, hh,
    hpo, hsk, hfit, e3, ho, hs2, hc2, hinv, hhint', hF', hfr⟩
  · exact ⟨m, 0, hs, h0, by rw [hl_release_null]; exact hi, rfl, by rw [hl_release_null],
      by rw [hl_release_null], fun f e => e⟩
  obtain ⟨_, _, hr8, hrsm⟩ := roundUp_spec n hn
  subst e
  have hl' : Layout m heap ((pre ++ skipped) ++ h :: rest) := by
    rw [List.append_assoc]; exact hi.lay
  obtain ⟨b1, b2, b3, b4, b5, b6, b7, b8, b9, b10, b11, b12⟩ := layout_block hl'
  obtain ⟨f1, f2, f3⟩ := fit_block hrsm b3 b8 hfit
  have hval11 := valid_append.1 b11
  have hlo : heapFirst m heap + total (pre ++ skipped) =
      heapFirst m heap + total pre + total skipped := by
    rw [total_append, ← Nat.add_assoc]
  -- the layout after the call, with the new block singled out
  obtain ⟨hq, rest1, hpl, hqo, hX1, hX2⟩ : ∃ hq rest1,
      placed h (roundUp n) ++ rest = hq :: rest1 ∧ hq % 2 = 1 ∧
      freeOf (mergedSpan (hq - 1) rest1 :: afterMerge rest1) = h + freeOf rest ∧
      (rest = [] → mergedSpan (hq - 1) rest1 :: afterMerge rest1 = [h]) := by
    unfold placed
    by_cases hc : h - roundUp n - 8 < 16
    · rw [if_pos hc]
      refine ⟨h + 1, rest, rfl, by omega, ?_, ?_⟩
      · rw [Nat.add_sub_cancel, freeOf_merge h f1]
      · intro e
        rw [e]
        rfl
    · rw [if_neg hc]
      have he : (h - roundUp n - 8) % 2 = 0 := by omega
      have e1 : roundUp n + 9 - 1 + (h - roundUp n - 8) = h := by omega
      refine ⟨roundUp n + 9, (h - roundUp n - 8) :: rest, rfl, by omega, ?_, ?_⟩
      · simp only [mergedSpan, afterMerge, if_pos he, e1, freeOf, if_pos f1, f3]
      · intro e
        simp only [mergedSpan, afterMerge, if_pos he, e1, e]
  have hl1 : Layout m1 heap ((pre ++ skipped) ++ hq :: rest1) := by
    rw [← hpl, List.append_assoc]; exact hinv.lay
  obtain ⟨r1, r2, r3, r4⟩ := hl_release_spec hl1 hqo
  rw [hF', hlo] at r1 r2 r3
  have hhint2 : heapHint (hl_release m1 heap (heapFirst m heap + total pre + total skipped + 4))
      heap = heapHint m heap := by
    rw [r2, hhint']
    by_cases hs0 : skipped = []
    · rw [if_pos hs0]
      subst hs0
      simp only [total, Nat.add_zero] at *
      rw [hh]
      split <;> rw [if_pos (by omega)]
    · rw [if_neg hs0, hh]
      rw [if_neg (by omega)]
  refine ⟨m1, _, (pre ++ skipped) ++ mergedSpan (hq - 1) rest1 :: afterMerge rest1, hc2,
    ⟨r1, ?_⟩, ?_, hhint2, r3, ?_⟩
  · refine ⟨pre, skipped ++ mergedSpan (hq - 1) rest1 :: afterMerge rest1,
      by rw [List.append_assoc], ?_, hpo⟩
    rw [hhint2, r3, hh]
  · rw [freeOf_append, hX1]
    simp only [freeOf_append, freeOf, if_pos f1, f3]
    omega
  · intro f e
    have hlen := congrArg List.length e
    simp only [List.length_append, List.length_cons, List.length_nil] at hlen
    have hp0 : pre = [] := List.length_eq_zero.1 (by omega)
    have hs0 : skipped = [] := List.length_eq_zero.1 (by omega)
    have hr0 : rest = [] := List.length_eq_zero.1 (by omega)
    subst hp0 hs0 hr0
    simp only [List.nil_append, List.cons.injEq, and_true] at e
    rw [hX2 rfl, e]
    rfl

/-- The fresh huge heap consists of its single free block. -/
theorem heapBlocks_huge {m : Mem} {heap : Nat} (hh : HugeFresh m heap) :
    heapBlocks m heap = [(heapFirst m heap, read32 m heap)] ∧ allocated m heap = [] := by
  have hhuge := hh.huge
  have heven := hh.even
  have hE : heapEnd m heap = heapFirst m heap + read32 m heap := rfl
  have hfuel : read32 m heap = (read32 m heap - 2) + 1 + 1 := by omega
  have hspan : span (read32 m heap) = read32 m heap := span_even _ (by omega)
  have h1 : heapBlocks m heap = [(heapFirst m heap, read32 m heap)] := by
    unfold heapBlocks
    rw [hfuel, walk_succ, ← hfuel, if_pos (by omega), hh.head, hspan, ← hE, walk_succ,
      if_neg (Nat.lt_irrefl _)]
  refine ⟨h1, ?_⟩
  unfold allocated
  rw [h1, List.filter_cons_of_neg (by simp only [decide_eq_true_eq]; omega)]
  rfl

theorem blocksOf_eq_singleton {a f : Nat} {hs : List Nat} (h : blocksOf a hs = [(a, f)]) :
    hs = [f] := by
  cases hs with
  | nil => simp [blocksOf] at h
  | cons x t =>
    cases t with
    | nil =>
      simp only [blocksOf, List.cons.injEq, Prod.mk.injEq, true_and, and_true] at h
      rw [h]
    | cons y t' => simp [blocksOf] at h

/-- C8: round trip.  On a well-formed heap, for `n <= 2^31 - 8`, the call
`p = hl_alloc(heap, n)` followed by `hl_release(heap, p)` leaves the total free
capacity (sum of the spans of the free blocks) and the search hint as they were
before `hl_alloc`; and a heap that consists of a single free block of span `f`
(a freshly initialized heap) consists of that single free block again, with
header word `f` and the footer word it had. -/
theorem alloc_release_roundtrip (m : Mem) (heap n : Nat) (hwf : WF m heap)
    (hn : n ≤ 2147483640) :
    ∃ m1 q, hl_alloc m heap n = some (m1, q) ∧
      freeCapacity (hl_release m1 heap q) heap = freeCapacity m heap ∧
      heapHint (hl_release m1 heap q) heap = heapHint m heap ∧
      (∀ f, heapBlocks m heap = [(heapFirst m heap, f)] → f % 2 = 0 →
        heapBlocks (hl_release m1 heap q) heap = [(heapFirst m heap, f)] ∧
        read32 (hl_release m1 heap q) (heapFirst m heap) = f ∧
        read32 (hl_release m1 heap q) (heapFirst m heap + f - 4) =
          read32 m (heapFirst m heap + f - 4)) := by
  rcases hwf with ⟨hs, hi⟩ | hh
  · obtain ⟨m1, q, hs2, hc, hi2, hfree, hhint, hF, hone⟩ := roundtrip_layout hi hn
    refine ⟨m1, q, hc, ?_, hhint, ?_⟩
    · rw [freeCapacity_eq hi2.lay, freeCapacity_eq hi.lay, hfree]
    · intro f hb hfe
      rw [heapBlocks_eq hi.lay] at hb
      have e1 := blocksOf_eq_singleton hb
      have e2 := hone f e1
      subst e1
      subst e2
      have c1 := hi.lay.chain
      have c2 := hi2.lay.chain
      rw [hF] at c2
      have hsp := span_even f hfe
      refine ⟨by rw [heapBlocks_eq hi2.lay, hF]; rfl, c2.1, ?_⟩
      have k1 := c1.2.1
      have k2 := c2.2.1
      rw [hsp] at k1 k2
      rw [k1, k2]
  · refine ⟨m, 0, hl_alloc_huge hh hn, by rw [hl_release_null], by rw [hl_release_null], ?_⟩
    intro f hb _
    rw [hl_release_null]
    have := (heapBlocks_huge hh).1
    rw [hb] at this
    simp only [List.cons.injEq, Prod.mk.injEq, true_and, and_true] at this
    exact ⟨hb, by rw [this]; exact hh.head, rfl⟩

theorem alloc_release_roundtrip_witness :
    WF demoHeap 4096 ∧ (8 : Nat) ≤ 2147483640 ∧
    heapBlocks demoHeap 4096 = [(heapFirst demoHeap 4096, 40)] ∧
    ∃ m1 q, hl_alloc demoHeap 4096 8 = some (m1, q) ∧
      freeCapacity (hl_release m1 4096 q) 4096 = freeCapacity demoHeap 4096 ∧
      heapHint (hl_release m1 4096 q) 4096 = heapHint demoHeap 4096 ∧
      (∀ f, heapBlocks demoHeap 4096 = [(heapFirst demoHeap 4096, f)] → f % 2 = 0 →
        heapBlocks (hl_release m1 4096 q) 4096 = [(heapFirst demoHeap 4096, f)] ∧
        read32 (hl_release m1 4096 q) (heapFirst demoHeap 4096) = f ∧
        read32 (hl_release m1 4096 q) (heapFirst demoHeap 4096 + f - 4) =
          read32 demoHeap (heapFirst demoHeap 4096 + f - 4)) :=
  ⟨wf_demoHeap, by decide, by decide,
    alloc_release_roundtrip demoHeap 4096 8 wf_demoHeap (by decide)⟩

/-! ## Growing a block -/

theorem frame_read8 {m m' : Mem} {heap lo hi x : Nat} (h : Frame m m' heap lo hi)
    (h1 : x < lo ∨ hi ≤ x) (h2 : x < heap + 8 ∨ heap + 16 ≤ x) : read8 m' x = read8 m x :=
  h x h1 h2

/-- C10: grow preserves data.  On a well-formed heap, for an allocated pointer `p`
whose block has payload capacity `c` and a new size `n <= 2^31 - 8` whose
round-up exceeds `c`: if `hl_resize(heap, p, n)` returns a non-null `q`, then
`q != p`, the first `c` bytes at `q` are the `c` bytes that were at `p` before
the call, `q` is an allocated pointer whose block has capacity at least `n`,
and the block whose header is at `p - 4` is free afterwards (so `p` is no longer
an allocated pointer). -/
theorem resize_grow_preserves (m m' : Mem) (heap n p q : Nat) (hwf : WF m heap)
    (hp : p ∈ allocated m heap) (hn : n ≤ 2147483640) (hgrow : capacity m p < roundUp n)
    (hcall : hl_resize m heap p n = some (m', q)) (hq : q ≠ 0) :
    q ≠ p ∧ (∀ i, i < capacity m p → read8 m' (q + i) = read8 m (p + i)) ∧
      q ∈ allocated m' heap ∧ n ≤ capacity m' q ∧
      (∃ b ∈ heapBlocks m' heap, b.1 = p - 4 ∧ b.2 % 2 = 0) ∧ p ∉ allocated m' heap := by
  rcases hwf with ⟨hs, hi⟩ | hh
  swap
  · rw [(heapBlocks_huge hh).2] at hp
    exact absurd hp (List.not_mem_nil _)
  obtain ⟨hnr, _, hr8, hrsm⟩ := roundUp_spec n hn
  obtain ⟨m1, q1, hc1, hc2, _⟩ := (hl_resize_ok hi hn hp).2 hgrow
  rw [hcall] at hc2
  simp only [Option.some.injEq, Prod.mk.injEq] at hc2
  obtain ⟨hm', rfl⟩ := hc2
  rw [if_neg hq] at hm'
  obtain ⟨a, h, e, hb, hodd, c1, c2, c3, c4, c5, c6, c7, c8, c9⟩ := allocated_block hi.lay hp
  obtain ⟨m2, q2, hc3, _, hqx⟩ := hl_alloc_ok hi (n := roundUp n) hrsm
  rw [hc1] at hc3
  simp only [Option.some.injEq, Prod.mk.injEq] at hc3
  obtain ⟨rfl, rfl⟩ := hc3
  obtain ⟨hs1, af, hf, hi1, eq, hbf, hfe, hfit, hF1, hfr, hal, hbq⟩ := hqx hq
  clear hqx
  rw [roundUp_idem _ hr8] at hfit hbq
  rw [c9] at hgrow
  have hF := heapFirst_ge m heap
  have hle : h - 1 ≤ roundUp n := by omega
  have hsph := span_odd h hodd
  have hspf := span_even hf hfe
  -- the old block and the selected block do not overlap
  have hdis : a + (h - 1) ≤ af ∨ af + hf ≤ a := by
    rcases blocks_disjoint hb hbf with hd | hd | hd
    · have := congrArg Prod.snd hd
      simp only at this
      omega
    · simp only [hsph] at hd; exact Or.inl hd
    · simp only [hspf] at hd; exact Or.inr hd
  have haf := (mem_blocksOf_bounds hbf).1
  simp only at haf
  -- the new block in the new layout
  rw [← hF1] at hbq
  have hcq := (mem_blocksOf_chain hi1.lay.chain hbq).1
  simp only at hcq
  generalize hhq : (if hf - roundUp n - 8 < 16 then hf + 1 else roundUp n + 9) = hq' at hbq hcq
  have hspq : roundUp n + 8 ≤ span hq' ∧ hq' % 2 = 1 ∧ span hq' ≤ hf := by
    rw [← hhq]
    split
    · rw [span_succ hf hfe]; omega
    · unfold span; omega
  have hne : q ≠ p := by
    intro e2
    have h1 : (a, h) = (af, hf) := block_unique hi.lay.chain hb hbf (by simp only; omega)
    have := congrArg Prod.snd h1
    simp only at this
    omega
  obtain ⟨hi2, hF2, hal2⟩ := allocated_payload hi1 hbq q (q + (capacity m p + 1))
    (by simp only; omega) (by simp only; omega) (sameOutside_memmove m1 q p _)
  have hp2 : p ∈ allocated (memmove m1 q p (capacity m p + 1)) heap := by
    rw [hal2, hal p]; exact Or.inl hp
  obtain ⟨hs3, a', h', ms, hi3, e', hb', hodd', hF3, _, hfr3, hmem3, hms, hle3, hdis3, hal3⟩ :=
    hl_release_ok hi2 hp2
  have ha' : a' = a := by omega
  subst ha'
  rw [hF2] at hdis3 hmem3 hF3
  -- the header of the old block is unchanged by the first two steps
  have hh' : h' = h := by
    have k1 := (mem_blocksOf_chain hi2.lay.chain hb').1
    simp only at k1
    rw [sameOutside_read32 (sameOutside_memmove m1 q p _) (by omega),
      frame_read32 hfr (by omega) (by omega), c1] at k1
    exact k1.symm
  subst hh'
  have hq3 := hdis3 (af, hq') hbq
  simp only at hq3
  have hout : af + span hq' ≤ a' ∨ a' + ms ≤ af := by
    rcases hq3 with h1 | h1 | ⟨_, _, h3 | h3⟩
    · exact Or.inl h1
    · exact Or.inr h1
    · omega
    · omega
  rw [← hm'] at hi3 hF3 hfr3 hal3
  refine ⟨hne, ?_, ?_, ?_, ?_, ?_⟩
  · intro i hlt
    rw [c9] at hlt
    rw [frame_read8 hfr3 (by omega) (by omega), eq,
      read8_memmove_in _ _ _ _ _ (by rw [c9]; omega), e,
      frame_read8 hfr (by omega) (by omega)]
  · rw [hal3 q, hal2, hal q]
    exact ⟨Or.inr rfl, hne⟩
  · have k1 : read32 m' af = hq' := by
      rw [frame_read32 hfr3 (by omega) (by omega),
        sameOutside_read32 (sameOutside_memmove m1 q p _) (by omega), hcq]
    unfold capacity
    rw [eq, Nat.add_sub_cancel, k1]
    omega
  · refine ⟨(a', ms), ?_, by simp only; omega, hms⟩
    rw [heapBlocks_eq hi3.lay, hF3, hF1]
    rw [hF1] at hmem3
    exact hmem3
  · intro hc
    exact ((hal3 p).1 hc).2 rfl

theorem reachable_demoState256 : Reachable demoConsts 4096 demoState256 :=
  Reachable.init zeroMem 256 (by decide) (by decide) (by decide)

theorem resize_grow_preserves_witness :
    WF (allocStep 4096 8 demoState256).mem 4096 ∧
    4120 ∈ allocated (allocStep 4096 8 demoState256).mem 4096 ∧ (64 : Nat) ≤ 2147483640 ∧
    capacity (allocStep 4096 8 demoState256).mem 4120 < roundUp 64 ∧
    hl_resize (allocStep 4096 8 demoState256).mem 4096 4120 64 =
      some (resizeMem (allocStep 4096 8 demoState256).mem 4096 4120 64, 4136) ∧
    (4136 : Nat) ≠ 0 ∧
    ((4136 : Nat) ≠ 4120 ∧
      (∀ i, i < capacity (allocStep 4096 8 demoState256).mem 4120 →
        read8 (resizeMem (allocStep 4096 8 demoState256).mem 4096 4120 64) (4136 + i) =
          read8 (allocStep 4096 8 demoState256).mem (4120 + i)) ∧
      4136 ∈ allocated (resizeMem (allocStep 4096 8 demoState256).mem 4096 4120 64) 4096 ∧
      64 ≤ capacity (resizeMem (allocStep 4096 8 demoState256).mem 4096 4120 64) 4136 ∧
      (∃ b ∈ heapBlocks (resizeMem (allocStep 4096 8 demoState256).mem 4096 4120 64) 4096,
        b.1 = 4120 - 4 ∧ b.2 % 2 = 0) ∧
      4120 ∉ allocated (resizeMem (allocStep 4096 8 demoState256).mem 4096 4120 64) 4096) :=
  ⟨reachable_wf demoConsts 4096 _ (by decide) (by decide)
      (reachable_allocStep 8 reachable_demoState256 (by decide)),
    by decide, by decide, by decide, by rfl, by decide,
    resize_grow_preserves _ _ 4096 64 4120 4136
      (reachable_wf demoConsts 4096 _ (by decide) (by decide)
        (reachable_allocStep 8 reachable_demoState256 (by decide)))
      (by decide) (by decide) (by decide) (by rfl) (by decide)⟩

/-- C9 (counterexample): after four calls `hl_alloc(heap, 32)` on a fresh 256-byte
heap, releasing the 2nd block (4160) and then the 3rd (4200) leaves two free
blocks of span 40 at 4156 and 4196, not one of span 80, and
`hl_alloc(heap, 72)` then returns `NULL`. -/
theorem release_B_then_C_not_merged :
    fourBlocks.live = [4240, 4200, 4160, 4120] ∧
    capacity fourBlocks.mem 4160 = 32 ∧ capacity fourBlocks.mem 4200 = 32 ∧
    read32 (hl_release (hl_release fourBlocks.mem 4096 4160) 4096 4200) 4156 = 40 ∧
    read32 (hl_release (hl_release fourBlocks.mem 4096 4160) 4096 4200) 4196 = 40 ∧
    (hl_alloc (hl_release (hl_release fourBlocks.mem 4096 4160) 4096 4200) 4096 72).map
      Prod.snd = some 0 := by
  decide

/-! ## Forward coalescing of adjacent blocks -/

/-- What follows a block decides how its release merges: nothing is absorbed when
the block is last or followed by an allocated block; a free successor is
absorbed. -/
theorem merge_of_next {m : Mem} {heap : Nat} {pre rest : List Nat} {h : Nat}
    (hl : Layout m heap (pre ++ h :: rest)) :
    ((heapFirst m heap + total pre + span h = heapEnd m heap ∨
        read32 m (heapFirst m heap + total pre + span h) % 2 = 1) →
      mergedSpan (h - 1) rest = h - 1 ∧ afterMerge rest = rest) ∧
    (heapFirst m heap + total pre + span h < heapEnd m heap →
      read32 m (heapFirst m heap + total pre + span h) % 2 = 0 →
      ∃ r, rest = read32 m (heapFirst m heap + total pre + span h) :: r ∧
        mergedSpan (h - 1) rest =
          h - 1 + read32 m (heapFirst m heap + total pre + span h) ∧
        afterMerge rest = r) := by
  obtain ⟨_, _, _, _, _, b6, _, _, b9, b10, _⟩ := layout_block hl
  cases rest with
  | nil =>
    simp only [total] at b6
    refine ⟨fun _ => ⟨rfl, rfl⟩, fun hlt _ => ?_⟩
    omega
  | cons t r =>
    have ht : read32 m (heapFirst m heap + total pre + span h) = t := b9.1
    have hv := (valid_cons.1 b10).1
    simp only [total] at b6
    rw [ht]
    constructor
    · intro hc
      have hto : ¬ t % 2 = 0 := by
        rcases hc with hc | hc
        · omega
        · omega
      exact ⟨by simp only [mergedSpan, if_neg hto], by simp only [afterMerge, if_neg hto]⟩
    · intro _ hte
      exact ⟨r, rfl, by simp only [mergedSpan, if_pos hte], by simp only [afterMerge, if_pos hte]⟩

/-- Two blocks of a layout, the second starting where the first ends, are
consecutive entries of the layout. -/
theorem adjacent_blocks {m : Mem} {F : Nat} {hs : List Nat} {aB hb aC hc : Nat}
    (hch : Chain m F hs) (hv : Valid hs)
    (hB : (aB, hb) ∈ blocksOf F hs) (hC : (aC, hc) ∈ blocksOf F hs)
    (hadj : aC = aB + span hb) :
    ∃ pre rest, hs = pre ++ hb :: hc :: rest ∧ aB = F + total pre := by
  obtain ⟨pre, restB, e, ha⟩ := mem_blocksOf_split hB
  simp only at e ha
  subst e
  have hvB := (valid_cons.1 (valid_append.1 hv).2).1
  rcases (mem_blocksOf_append _ _ _ _).1 hC with h1 | h1
  · have := (mem_blocksOf_bounds h1).2.1
    simp only at this
    omega
  · simp only [blocksOf, List.mem_cons, Prod.mk.injEq] at h1
    rcases h1 with h1 | h1
    · omega
    · cases restB with
      | nil => simp [blocksOf] at h1
      | cons t r =>
        have hc2 := ((chain_append m F pre _).1 hch).2.2.2
        have hfirst : (F + total pre + span hb, t) ∈
            blocksOf (F + total pre + span hb) (t :: r) := List.mem_cons_self _ _
        have := block_unique hc2 h1 hfirst (by simp only; omega)
        have := congrArg Prod.snd this
        simp only at this
        exact ⟨pre, r, by rw [this], ha⟩

/-- Releasing the second of two consecutive allocated blocks and then the first
leaves one free block that covers both, when the second is not followed by a
free block. -/
theorem release_two {m : Mem} {heap : Nat} {pre rest : List Nat} {hb hc : Nat}
    (hl : Layout m heap (pre ++ hb :: hc :: rest)) (hoB : hb % 2 = 1) (hoC : hc % 2 = 1)
    (hm1 : mergedSpan (hc - 1) rest = hc - 1) (hm2 : afterMerge rest = rest) :
    Layout (hl_release (hl_release m heap (heapFirst m heap + total pre + (hb - 1) + 4)) heap
        (heapFirst m heap + total pre + 4)) heap (pre ++ (hb - 1 + (hc - 1)) :: rest) ∧
      heapHint (hl_release (hl_release m heap (heapFirst m heap + total pre + (hb - 1) + 4))
        heap (heapFirst m heap + total pre + 4)) heap =
        (if heapFirst m heap + total pre < heapHint m heap then heapFirst m heap + total pre
          else heapHint m heap) ∧
      heapFirst (hl_release (hl_release m heap (heapFirst m heap + total pre + (hb - 1) + 4))
        heap (heapFirst m heap + total pre + 4)) heap = heapFirst m heap := by
  have hl1 : Layout m heap ((pre ++ [hb]) ++ hc :: rest) := by
    rw [List.append_assoc]; exact hl
  obtain ⟨r1, r2, r3, _⟩ := hl_release_spec hl1 hoC
  have et : heapFirst m heap + total (pre ++ [hb]) = heapFirst m heap + total pre + (hb - 1) := by
    rw [total_append]
    simp only [total, span_odd hb hoB, Nat.add_zero]
    omega
  rw [et] at r1 r2 r3
  rw [hm1, hm2, List.append_assoc] at r1
  have hl2 : Layout (hl_release m heap (heapFirst m heap + total pre + (hb - 1) + 4)) heap
      (pre ++ hb :: (hc - 1) :: rest) := r1
  obtain ⟨s1, s2, s3, _⟩ := hl_release_spec hl2 hoB
  have hce : (hc - 1) % 2 = 0 := by omega
  simp only [mergedSpan, afterMerge, if_pos hce] at s1
  rw [r3] at s1 s2 s3
  refine ⟨s1, ?_, s3⟩
  rw [s2, r2]
  have h8 := (layout_block hl).2.2.1
  rw [span_odd hb hoB] at h8
  generalize heapFirst m heap + total pre = a at *
  generalize heapHint m heap = H at *
  clear hl hl1 r1 r2 r3 hl2 s1 s2 s3 et
  split_ifs <;> omega

/-- A request for the whole payload of a free block below which every block is
allocated is served from that block. -/
theorem alloc_first_free {m : Mem} {heap : Nat} {pre0 mid rest : List Nat} {s : Nat}
    (hl : Layout m heap (pre0 ++ (mid ++ s :: rest))) (hev : s % 2 = 0)
    (hodd : ∀ x ∈ mid, x % 2 = 1)
    (hhint : heapHint m heap = heapFirst m heap + total pre0) :
    ∃ m', hl_alloc m heap (s - 8) =
      some (m', heapFirst m heap + total pre0 + total mid + 4) := by
  have hl' : Layout m heap ((pre0 ++ mid) ++ s :: rest) := by
    rw [List.append_assoc]; exact hl
  obtain ⟨_, _, b3, b4, _, _, _, b8, _⟩ := layout_block hl'
  rw [span_even s hev] at b3 b4 b8
  have hr8 : (s - 8) % 8 = 0 := by omega
  have hfit : ¬ NoFit (roundUp (s - 8)) s := by
    rw [roundUp_idem _ hr8, noFit_iff _ _ (by omega) (by rw [span_even s hev]; omega)
      (by rw [span_even s hev]; exact b8), span_even s hev]
    omega
  have hskip : ∀ x ∈ mid, NoFit (roundUp (s - 8)) x := by
    intro x hx
    left
    have := hodd x hx
    omega
  obtain ⟨oddrun, rest2, e3, ho3, hs3⟩ := exists_split (fun x => x % 2 = 1) rest
  obtain ⟨m3, a1, _⟩ := hl_alloc_found hl hhint (by omega) hskip hfit e3 ho3 hs3
  exact ⟨m3, a1⟩

/-- After the two releases of `release_two`, when every block below the merged
block is allocated, a request for the whole payload of the merged block is
served from it. -/
theorem alloc_after_release_two {m m2 : Mem} {heap : Nat} {pre suf rest : List Nat} {s : Nat}
    {hs : List Nat} (hint : HintOk m heap hs) (hv : Valid hs)
    (e : hs = pre ++ suf) (hl2 : Layout m2 heap (pre ++ s :: rest)) (hev : s % 2 = 0)
    (hodd : ∀ x ∈ pre, x % 2 = 1) (hF : heapFirst m2 heap = heapFirst m heap)
    (hh2 : heapHint m2 heap =
      (if heapFirst m heap + total pre < heapHint m heap then heapFirst m heap + total pre
        else heapHint m heap)) :
    ∃ m3, hl_alloc m2 heap (s - 8) = some (m3, heapFirst m heap + total pre + 4) := by
  obtain ⟨pre0, suf0, e0, hh0, _⟩ := hint
  have hv0 : Valid pre0 := by
    rw [e0] at hv
    exact (valid_append.1 hv).1
  by_cases hcmp : total pre0 ≤ total pre
  · obtain ⟨mid, e1, _⟩ := split_compare (e0.symm.trans e) hv0 hcmp
    have hhint2 : heapHint m2 heap = heapFirst m2 heap + total pre0 := by
      rw [hh2, hF, hh0, if_neg (by omega)]
    have hl3 : Layout m2 heap (pre0 ++ (mid ++ s :: rest)) := by
      rw [← List.append_assoc, ← e1]; exact hl2
    obtain ⟨m3, a1⟩ := alloc_first_free hl3 hev
      (fun x hx => hodd x (by rw [e1]; exact List.mem_append_right _ hx)) hhint2
    refine ⟨m3, ?_⟩
    rw [a1, hF, e1, total_append, Nat.add_assoc (heapFirst m heap)]
  · have hhint2 : heapHint m2 heap = heapFirst m2 heap + total pre := by
      rw [hh2, hF, hh0, if_pos (by omega)]
    have hl3 : Layout m2 heap (pre ++ ([] ++ s :: rest)) := hl2
    obtain ⟨m3, a1⟩ := alloc_first_free hl3 hev
      (fun x hx => absurd hx (List.not_mem_nil _)) hhint2
    refine ⟨m3, ?_⟩
    rw [a1, hF]
    simp only [total, Nat.add_zero]

/-- The two releases of `release_two` in terms of the memory: the header and footer
words of the merged block, and the merged block as a block of the heap. -/
theorem release_two_block {m : Mem} {heap : Nat} {pre rest : List Nat} {hb hc : Nat}
    (hl : Layout m heap (pre ++ hb :: hc :: rest)) (hoB : hb % 2 = 1) (hoC : hc % 2 = 1)
    (hm1 : mergedSpan (hc - 1) rest = hc - 1) (hm2 : afterMerge rest = rest) :
    read32 (hl_release (hl_release m heap (heapFirst m heap + total pre + (hb - 1) + 4)) heap
        (heapFirst m heap + total pre + 4)) (heapFirst m heap + total pre) =
        hb - 1 + (hc - 1) ∧
      read32 (hl_release (hl_release m heap (heapFirst m heap + total pre + (hb - 1) + 4)) heap
        (heapFirst m heap + total pre + 4))
          (heapFirst m heap + total pre + (hb - 1 + (hc - 1)) - 4) = hb - 1 + (hc - 1) ∧
      (heapFirst m heap + total pre, hb - 1 + (hc - 1)) ∈
        heapBlocks (hl_release (hl_release m heap (heapFirst m heap + total pre + (hb - 1) + 4))
          heap (heapFirst m heap + total pre + 4)) heap := by
  obtain ⟨s1, _, s3⟩ := release_two hl hoB hoC hm1 hm2
  have hsev : (hb - 1 + (hc - 1)) % 2 = 0 := by omega
  obtain ⟨k1, k2, _⟩ := layout_block s1
  rw [s3] at k1
  rw [s3, span_even _ hsev] at k2
  refine ⟨k1, k2, ?_⟩
  rw [heapBlocks_eq s1, s3]
  exact (mem_blocksOf_append _ _ _ _).2 (Or.inr (List.mem_cons_self _ _))

/-- The blocks of a layout that come before a given block, read off the heap. -/
theorem pre_odd_of_below {m : Mem} {heap : Nat} {pre rest : List Nat}
    (hl : Layout m heap (pre ++ rest))
    (hbelow : ∀ b ∈ heapBlocks m heap, b.1 < heapFirst m heap + total pre → b.2 % 2 = 1) :
    ∀ x ∈ pre, x % 2 = 1 := by
  intro x hx
  obtain ⟨p1, p2, ep⟩ := List.append_of_mem hx
  have hmemx : (heapFirst m heap + total p1, x) ∈ heapBlocks m heap := by
    rw [heapBlocks_eq hl, ep, List.append_assoc]
    exact (mem_blocksOf_append _ _ _ _).2 (Or.inr (List.mem_cons_self _ _))
  have hvx := (valid_append.1 hl.valid).1 x hx
  refine hbelow _ hmemx ?_
  rw [ep, total_append]
  simp only [total]
  omega

/-- Releasing the first of two consecutive allocated blocks and then the second
leaves two free blocks with the spans they had, when the second is not followed
by a free block: the first release finds an allocated successor, and the second
release does not look at the block before it. -/
theorem release_two_rev {m : Mem} {heap : Nat} {pre rest : List Nat} {hb hc : Nat}
    (hl : Layout m heap (pre ++ hb :: hc :: rest)) (hoB : hb % 2 = 1) (hoC : hc % 2 = 1)
    (hm1 : mergedSpan (hc - 1) rest = hc - 1) (hm2 : afterMerge rest = rest) :
    Layout (hl_release (hl_release m heap (heapFirst m heap + total pre + 4)) heap
        (heapFirst m heap + total pre + (hb - 1) + 4)) heap
        (pre ++ (hb - 1) :: (hc - 1) :: rest) ∧
      heapFirst (hl_release (hl_release m heap (heapFirst m heap + total pre + 4)) heap
        (heapFirst m heap + total pre + (hb - 1) + 4)) heap = heapFirst m heap := by
  obtain ⟨r1, _, r3, _⟩ := hl_release_spec hl hoB
  have hco : ¬ hc % 2 = 0 := by omega
  simp only [mergedSpan, afterMerge, if_neg hco] at r1
  have hbe : (hb - 1) % 2 = 0 := by omega
  have hl1 : Layout (hl_release m heap (heapFirst m heap + total pre + 4)) heap
      ((pre ++ [hb - 1]) ++ hc :: rest) := by
    rw [List.append_assoc]; exact r1
  obtain ⟨s1, _, s3, _⟩ := hl_release_spec hl1 hoC
  have et : heapFirst (hl_release m heap (heapFirst m heap + total pre + 4)) heap +
      total (pre ++ [hb - 1]) = heapFirst m heap + total pre + (hb - 1) := by
    rw [r3, total_append]
    simp only [total, span_even (hb - 1) hbe, Nat.add_zero]
    omega
  rw [et] at s1 s3
  rw [hm1, hm2, List.append_assoc] at s1
  exact ⟨s1, by rw [s3, r3]⟩

/-- The two releases of `release_two_rev` in terms of the memory: the header words
of the two free blocks, and the two blocks as blocks of the heap. -/
theorem release_two_rev_block {m : Mem} {heap : Nat} {pre rest : List Nat} {hb hc : Nat}
    (hl : Layout m heap (pre ++ hb :: hc :: rest)) (hoB : hb % 2 = 1) (hoC : hc % 2 = 1)
    (hm1 : mergedSpan (hc - 1) rest = hc - 1) (hm2 : afterMerge rest = rest) :
    read32 (hl_release (hl_release m heap (heapFirst m heap + total pre + 4)) heap
        (heapFirst m heap + total pre + (hb - 1) + 4)) (heapFirst m heap + total pre) =
        hb - 1 ∧
      read32 (hl_release (hl_release m heap (heapFirst m heap + total pre + 4)) heap
        (heapFirst m heap + total pre + (hb - 1) + 4))
          (heapFirst m heap + total pre + (hb - 1)) = hc - 1 ∧
      (heapFirst m heap + total pre, hb - 1) ∈
        heapBlocks (hl_release (hl_release m heap (heapFirst m heap + total pre + 4)) heap
          (heapFirst m heap + total pre + (hb - 1) + 4)) heap ∧
      (heapFirst m heap + total pre + (hb - 1), hc - 1) ∈
        heapBlocks (hl_release (hl_release m heap (heapFirst m heap + total pre + 4)) heap
          (heapFirst m heap + total pre + (hb - 1) + 4)) heap := by
  obtain ⟨t1, t3⟩ := release_two_rev hl hoB hoC hm1 hm2
  have hbe : (hb - 1) % 2 = 0 := by omega
  have t1' : Layout (hl_release (hl_release m heap (heapFirst m heap + total pre + 4)) heap
      (heapFirst m heap + total pre + (hb - 1) + 4)) heap
      ((pre ++ [hb - 1]) ++ (hc - 1) :: rest) := by
    rw [List.append_assoc]; exact t1
  have et : heapFirst m heap + total (pre ++ [hb - 1]) =
      heapFirst m heap + total pre + (hb - 1) := by
    rw [total_append]
    simp only [total, span_even (hb - 1) hbe, Nat.add_zero]
    omega
  obtain ⟨k1, _⟩ := layout_block t1
  obtain ⟨k2, _⟩ := layout_block t1'
  rw [t3] at k1
  rw [t3, et] at k2
  refine ⟨k1, k2, ?_, ?_⟩
  · rw [heapBlocks_eq t1, t3]
    exact (mem_blocksOf_append _ _ _ _).2 (Or.inr (List.mem_cons_self _ _))
  · rw [heapBlocks_eq t1', t3]
    refine (mem_blocksOf_append _ _ _ _).2 (Or.inr ?_)
    rw [et]
    exact List.mem_cons_self _ _

/-- Two allocated pointers whose blocks are adjacent, the second block followed by an
allocated block or by the end of the usable region, as consecutive entries of
the layout. -/
theorem adjacent_allocated {m : Mem} {heap pB pC : Nat} {hs : List Nat}
    (hi : HeapInv m heap hs) (hB : pB ∈ allocated m heap) (hC : pC ∈ allocated m heap)
    (hadj : pC = pB + capacity m pB + 8)
    (hnext : pC + capacity m pC + 4 = heapEnd m heap ∨
      read32 m (pC + capacity m pC + 4) % 2 = 1) :
    ∃ pre rest hb hc, hs = pre ++ hb :: hc :: rest ∧ hb % 2 = 1 ∧ hc % 2 = 1 ∧
      heapFirst m heap + total pre + 4 = pB ∧
      heapFirst m heap + total pre + (hb - 1) + 4 = pC ∧
      hb - 1 + (hc - 1) = capacity m pB + 8 + (capacity m pC + 8) ∧
      hb - 1 = capacity m pB + 8 ∧ hc - 1 = capacity m pC + 8 ∧
      mergedSpan (hc - 1) rest = hc - 1 ∧ afterMerge rest = rest := by
  obtain ⟨aB, hb, eB, hbB, hoB, _, _, cB3, _, _, _, _, _, cB9⟩ := allocated_block hi.lay hB
  obtain ⟨aC, hc, eC, hbC, hoC, _, _, cC3, _, _, _, _, _, cC9⟩ := allocated_block hi.lay hC
  have haC : aC = aB + span hb := by
    rw [span_odd hb hoB]
    clear hnext
    omega
  obtain ⟨pre, rest, e, ha⟩ := adjacent_blocks hi.lay.chain hi.lay.valid hbB hbC haC
  have hlay2 : Layout m heap ((pre ++ [hb]) ++ hc :: rest) := by
    have hl := hi.lay
    rw [e] at hl
    rw [List.append_assoc]
    exact hl
  have e1 : heapFirst m heap + total pre + 4 = pB := by
    clear hnext
    omega
  have e2 : heapFirst m heap + total pre + (hb - 1) + 4 = pC := by
    clear hnext
    omega
  have e3 : hb - 1 + (hc - 1) = capacity m pB + 8 + (capacity m pC + 8) := by
    clear hnext
    omega
  have e4 : hb - 1 = capacity m pB + 8 := by
    clear hnext
    omega
  have e5 : hc - 1 = capacity m pC + 8 := by
    clear hnext
    omega
  have hsucc : pC + capacity m pC + 4 = heapFirst m heap + total (pre ++ [hb]) + span hc := by
    rw [total_append]
    simp only [total, span_odd hb hoB, span_odd hc hoC, Nat.add_zero]
    clear hnext
    omega
  rw [hsucc] at hnext
  have hmc := (merge_of_next hlay2).1 hnext
  exact ⟨pre, rest, hb, hc, e, hoB, hoC, e1, e2, e3, e4, e5, hmc.1, hmc.2⟩

/-- C9 (amended): forward coalescing joins `B` and `C` when `C` is released first,
and only then.  On a well-formed heap let `pB`, `pC` be allocated pointers whose
blocks are adjacent (`C` starts where `B` ends) and let `C` be followed by an
allocated block or by the end of the usable region.  After `hl_release(heap, pC)`
and then `hl_release(heap, pB)` there is one free block at the address of `B`
whose header and footer words are `span(B) + span(C)`; and if no block below `B`
is free, a subsequent `hl_alloc` of the combined payload size
`span(B) + span(C) - 8` returns `pB`.  After `hl_release(heap, pB)` and then
`hl_release(heap, pC)` there are two separate free blocks, at the address of `B`
with header word `span(B)` and at the address of `C` with header word
`span(C)`. -/
theorem release_C_then_B_merges (m : Mem) (heap pB pC : Nat) (hwf : WF m heap)
    (hB : pB ∈ allocated m heap) (hC : pC ∈ allocated m heap)
    (hadj : pC = pB + capacity m pB + 8)
    (hnext : pC + capacity m pC + 4 = heapEnd m heap ∨
      read32 m (pC + capacity m pC + 4) % 2 = 1) :
    read32 (hl_release (hl_release m heap pC) heap pB) (pB - 4) =
        capacity m pB + 8 + (capacity m pC + 8) ∧
      read32 (hl_release (hl_release m heap pC) heap pB)
          (pB - 4 + (capacity m pB + 8 + (capacity m pC + 8)) - 4) =
        capacity m pB + 8 + (capacity m pC + 8) ∧
      (pB - 4, capacity m pB + 8 + (capacity m pC + 8)) ∈
        heapBlocks (hl_release (hl_release m heap pC) heap pB) heap ∧
      (capacity m pB + 8 + (capacity m pC + 8)) % 2 = 0 ∧
      ((∀ b ∈ heapBlocks m heap, b.1 < pB - 4 → b.2 % 2 = 1) →
        ∃ m3, hl_alloc (hl_release (hl_release m heap pC) heap pB) heap
          (capacity m pB + 8 + (capacity m pC + 8) - 8) = some (m3, pB)) ∧
      read32 (hl_release (hl_release m heap pB) heap pC) (pB - 4) = capacity m pB + 8 ∧
      read32 (hl_release (hl_release m heap pB) heap pC) (pC - 4) = capacity m pC + 8 ∧
      (pB - 4, capacity m pB + 8) ∈
        heapBlocks (hl_release (hl_release m heap pB) heap pC) heap ∧
      (pC - 4, capacity m pC + 8) ∈
        heapBlocks (hl_release (hl_release m heap pB) heap pC) heap ∧
      (capacity m pB + 8) % 2 = 0 ∧ (capacity m pC + 8) % 2 = 0 ∧
      pC - 4 = pB - 4 + (capacity m pB + 8) := by
  rcases hwf with ⟨hs, hi⟩ | hh
  swap
  · rw [(heapBlocks_huge hh).2] at hB
    exact absurd hB (List.not_mem_nil _)
  obtain ⟨pre, rest, hb, hc, e, hoB, hoC, epB, epC, esum, hB8, hC8, hm1, hm2⟩ :=
    adjacent_allocated hi hB hC hadj hnext
  clear hnext hadj hB hC
  have hlay : Layout m heap (pre ++ hb :: hc :: rest) := by rw [← e]; exact hi.lay
  have eaB : heapFirst m heap + total pre = pB - 4 := by omega
  have hsev : (capacity m pB + 8 + (capacity m pC + 8)) % 2 = 0 := by omega
  have hk := release_two_block hlay hoB hoC hm1 hm2
  have hs2 := release_two hlay hoB hoC hm1 hm2
  rw [epC, epB, eaB, esum] at hk
  rw [epC, epB, esum] at hs2
  have eaC : heapFirst m heap + total pre + (hb - 1) = pC - 4 := by omega
  have hevB : (capacity m pB + 8) % 2 = 0 := by omega
  have hevC : (capacity m pC + 8) % 2 = 0 := by omega
  have hsep : pC - 4 = pB - 4 + (capacity m pB + 8) := by omega
  have hr := release_two_rev_block hlay hoB hoC hm1 hm2
  rw [epB, epC, eaC, eaB, hB8, hC8] at hr
  refine ⟨hk.1, hk.2.1, hk.2.2, hsev, ?_, hr.1, hr.2.1, hr.2.2.1, hr.2.2.2, hevB, hevC, hsep⟩
  intro hbelow
  have hpreodd := pre_odd_of_below hlay (by rw [eaB]; exact hbelow)
  have hfin := alloc_after_release_two hi.hint hi.lay.valid e hs2.1 hsev hpreodd hs2.2.2
    hs2.2.1
  rw [epB] at hfin
  exact hfin

theorem reachable_fourBlocks : Reachable demoConsts 4096 fourBlocks :=
  reachable_allocStep 32 (reachable_allocStep 32 (reachable_allocStep 32
    (reachable_allocStep 32 reachable_demoState256 (by decide)) (by decide)) (by decide))
    (by decide)

theorem wf_fourBlocks : WF fourBlocks.mem 4096 :=
  reachable_wf demoConsts 4096 fourBlocks (by decide) (by decide) reachable_fourBlocks

theorem release_C_then_B_merges_witness :
    WF fourBlocks.mem 4096 ∧ 4160 ∈ allocated fourBlocks.mem 4096 ∧
    4200 ∈ allocated fourBlocks.mem 4096 ∧
    4200 = 4160 + capacity fourBlocks.mem 4160 + 8 ∧
    read32 fourBlocks.mem (4200 + capacity fourBlocks.mem 4200 + 4) % 2 = 1 ∧
    read32 (hl_release (hl_release fourBlocks.mem 4096 4200) 4096 4160) (4160 - 4) =
      capacity fourBlocks.mem 4160 + 8 + (capacity fourBlocks.mem 4200 + 8) ∧
    capacity fourBlocks.mem 4160 + 8 + (capacity fourBlocks.mem 4200 + 8) = 80 ∧
    read32 (hl_release (hl_release fourBlocks.mem 4096 4160) 4096 4200) (4160 - 4) =
      capacity fourBlocks.mem 4160 + 8 ∧
    read32 (hl_release (hl_release fourBlocks.mem 4096 4160) 4096 4200) (4200 - 4) =
      capacity fourBlocks.mem 4200 + 8 :=
  ⟨wf_fourBlocks, by decide, by decide, by decide, by decide,
    (release_C_then_B_merges fourBlocks.mem 4096 4160 4200 wf_fourBlocks (by decide)
      (by decide) (by decide) (Or.inr (by decide))).1, by decide,
    (release_C_then_B_merges fourBlocks.mem 4096 4160 4200 wf_fourBlocks (by decide)
      (by decide) (by decide) (Or.inr (by decide))).2.2.2.2.2.1,
    (release_C_then_B_merges fourBlocks.mem 4096 4160 4200 wf_fourBlocks (by decide)
      (by decide) (by decide) (Or.inr (by decide))).2.2.2.2.2.2.1⟩

/-! ## No-op shrink, and concrete runs of the code -/

/-- C11: no-op shrink.  On a well-formed heap, for an allocated pointer `p` and a
new size `n` whose round-up to a multiple of 8 is at most the payload capacity
of the block of `p`, `hl_resize(heap, p, n)` returns `p` and the memory after
the call is the memory before it: no byte of the buffer changes, so the free
capacity is the same. -/
theorem resize_shrink_noop (m : Mem) (heap p n : Nat) (hwf : WF m heap)
    (hp : p ∈ allocated m heap) (hle : (n + 7) / 8 * 8 ≤ capacity m p) :
    hl_resize m heap p n = some (m, p) ∧
      (∀ x, read8 (resizeMem m heap p n) x = read8 m x) ∧
      freeCapacity (resizeMem m heap p n) heap = freeCapacity m heap := by
  have key : hl_resize m heap p n = some (m, p) := by
    rcases hwf with ⟨hs, hi⟩ | hh
    · obtain ⟨a, h, _, _, _, _, _, c3, _, c5, _, _, _, c9⟩ := allocated_block hi.lay hp
      have hn : n ≤ 2147483640 := by omega
      have hr := roundUp_spec n hn
      exact (hl_resize_ok hi hn hp).1 (by omega)
    · rw [(heapBlocks_huge hh).2] at hp
      exact absurd hp (List.not_mem_nil _)
  have hm : resizeMem m heap p n = m := by
    unfold resizeMem
    rw [key]
  refine ⟨key, ?_, ?_⟩
  · intro x
    rw [hm]
  · rw [hm]

theorem resize_shrink_noop_witness :
    WF demoState2.mem 4096 ∧ 4120 ∈ allocated demoState2.mem 4096 ∧
    (5 + 7) / 8 * 8 ≤ capacity demoState2.mem 4120 ∧
    hl_resize demoState2.mem 4096 4120 5 = some (demoState2.mem, 4120) :=
  ⟨wf_demoState2, by decide, by decide,
    (resize_shrink_noop demoState2.mem 4096 4120 5 wf_demoState2 (by decide) (by decide)).1⟩

/-- C13 (counterexample): for the base address 4100, where `heap + 20` is already a
multiple of 8 (so that padding 0 would do), `hl_init` stores the padding 8 and
places the first block at 4124: the expression `8 - (heap + 4) % 8` of line 33
ranges over `1..8`, not `0..7`. -/
theorem init_padding_not_minimal :
    (4100 + 16 + 0 + 4) % 8 = 0 ∧
    (hl_init demoConsts zeroMem 4100 64).2 = demoConsts.SUCCESS ∧
    read32 (hl_init demoConsts zeroMem 4100 64).1 (4100 + 4) = 8 ∧
    heapFirst (hl_init demoConsts zeroMem 4100 64).1 4100 = 4124 := by
  decide

/-- C14 (failing input): after `hl_init(heap = 4096, heap_size = 2^31 + 64)` on zeroed
memory the walk from `heap + padding + 16` finds the single block at 4116 with
header word `2^31 + 40` and lands on the end of the usable region, but the
footer word of that block, at block start + span - 4, is 0 and not the header
word: the footer was written at an address computed from the span as a negative
`int`. -/
theorem init_huge_not_wellformed :
    (hl_init demoConsts zeroMem 4096 2147483712).2 = demoConsts.SUCCESS ∧
    heapBlocks (hl_init demoConsts zeroMem 4096 2147483712).1 4096 = [(4116, 2147483688)] ∧
    heapEnd (hl_init demoConsts zeroMem 4096 2147483712).1 4096 = 4116 + span 2147483688 ∧
    read32 (hl_init demoConsts zeroMem 4096 2147483712).1 4116 = 2147483688 ∧
    read32 (hl_init demoConsts zeroMem 4096 2147483712).1 (4116 + span 2147483688 - 4) = 0 := by
  decide

/-- C18 (counterexample): on the fresh 64-byte heap `hl_alloc(heap, 0)` returns 4120 and
leaves an allocated block of span 8 at 4116 (header word 9), followed by the
free remainder of span 32: a reachable state with a block whose span is below
16. -/
theorem alloc_zero_span_eight :
    Reachable demoConsts 4096 (allocStep 4096 0 demoState) ∧
    heapBlocks demoState.mem 4096 = [(4116, 40)] ∧
    (hl_alloc demoState.mem 4096 0).map Prod.snd = some 4120 ∧
    heapBlocks (allocStep 4096 0 demoState).mem 4096 = [(4116, 9), (4124, 32)] ∧
    span 9 = 8 :=
  ⟨reachable_allocStep 0 reachable_demoState (by decide), by decide, by decide, by decide,
    by decide⟩

/-- C19 (failing input): on the 256-byte heap with one allocated block of capacity 8
at 4120, `hl_resize(heap, 4120, 64)` returns 4136.  The internal `hl_alloc`
leaves the byte 0 at offset 8 of the new payload; after `hl_resize` that byte is
17, the low byte of the footer word of the old block: `memmove` copied
`block_size - 8 = 9` bytes, one more than the capacity of the old block. -/
theorem resize_copies_extra_byte :
    capacity (allocStep 4096 8 demoState256).mem 4120 = 8 ∧
    (hl_alloc (allocStep 4096 8 demoState256).mem 4096 (roundUp 64)).map Prod.snd =
      some 4136 ∧
    read8 (allocMem (allocStep 4096 8 demoState256).mem 4096 (roundUp 64)) (4136 + 8) = 0 ∧
    (hl_resize (allocStep 4096 8 demoState256).mem 4096 4120 64).map Prod.snd = some 4136 ∧
    read8 (resizeMem (allocStep 4096 8 demoState256).mem 4096 4120 64) (4136 + 8) = 17 ∧
    read32 (allocStep 4096 8 demoState256).mem (4120 + 8) = 17 := by
  decide

/-! ## Postcondition of `hl_release` and the search hint -/

/-- C15: postcondition of `hl_release`.  On a well-formed heap let `p` be an
allocated pointer whose block starts at `a = p - 4` and has span
`s = capacity + 8`.  After `hl_release(heap, p)`: if the block at `a + s` is
allocated or `a + s` is the end of the usable region, the block at `a` is free
with span `s` (header and footer words `s`); if the block at `a + s` is free
with span `t`, the block at `a` is free with span `s + t` (header word at `a`
and footer word at `a + s + t - 4` both `s + t`).  Every block that starts below
`a` is still a block, with the header and footer words it had.  The hint
becomes `a` if `a` is below the old hint and is unchanged otherwise. -/
theorem release_postcondition (m : Mem) (heap p : Nat) (hwf : WF m heap)
    (hp : p ∈ allocated m heap) :
    ((p - 4 + (capacity m p + 8) = heapEnd m heap ∨
        read32 m (p - 4 + (capacity m p + 8)) % 2 = 1) →
      read32 (hl_release m heap p) (p - 4) = capacity m p + 8 ∧
      read32 (hl_release m heap p) (p - 4 + (capacity m p + 8) - 4) = capacity m p + 8 ∧
      (capacity m p + 8) % 2 = 0 ∧
      (p - 4, capacity m p + 8) ∈ heapBlocks (hl_release m heap p) heap) ∧
    (p - 4 + (capacity m p + 8) < heapEnd m heap →
      read32 m (p - 4 + (capacity m p + 8)) % 2 = 0 →
      read32 (hl_release m heap p) (p - 4) =
        capacity m p + 8 + read32 m (p - 4 + (capacity m p + 8)) ∧
      read32 (hl_release m heap p)
          (p - 4 + (capacity m p + 8 + read32 m (p - 4 + (capacity m p + 8))) - 4) =
        capacity m p + 8 + read32 m (p - 4 + (capacity m p + 8)) ∧
      (capacity m p + 8 + read32 m (p - 4 + (capacity m p + 8))) % 2 = 0 ∧
      (p - 4, capacity m p + 8 + read32 m (p - 4 + (capacity m p + 8))) ∈
        heapBlocks (hl_release m heap p) heap) ∧
    (∀ b ∈ heapBlocks m heap, b.1 < p - 4 →
      b ∈ heapBlocks (hl_release m heap p) heap ∧
      read32 (hl_release m heap p) b.1 = read32 m b.1 ∧
      read32 (hl_release m heap p) (b.1 + span b.2 - 4) = read32 m (b.1 + span b.2 - 4)) ∧
    heapHint (hl_release m heap p) heap =
      (if p - 4 < heapHint m heap then p - 4 else heapHint m heap) := by
  rcases hwf with ⟨hs, hi⟩ | hh
  swap
  · rw [(heapBlocks_huge hh).2] at hp
    exact absurd hp (List.not_mem_nil _)
  obtain ⟨a, h, e, hb, ho, _, _, c3, _, _, _, _, _, c9⟩ := allocated_block hi.lay hp
  obtain ⟨pre, rest, e2, ha⟩ := mem_blocksOf_split hb
  simp only at e2 ha
  subst e2
  have hl := hi.lay
  obtain ⟨r1, r2, r3, r4⟩ := hl_release_spec hl ho
  have hsp := span_odd h ho
  have ep : heapFirst m heap + total pre + 4 = p := by omega
  have ea : p - 4 = a := by omega
  have ec2 : capacity m p + 8 = h - 1 := by omega
  rw [ep] at r1 r2 r3 r4
  rw [← ha] at r2 r4
  obtain ⟨mn1, mn2⟩ := merge_of_next hl
  rw [hsp, ← ha] at mn1 mn2
  rw [ea, ec2]
  obtain ⟨k1, k2, k3, k4, _⟩ := layout_block r1
  rw [r3, ← ha] at k1 k2
  have hmem : (a, mergedSpan (h - 1) rest) ∈ heapBlocks (hl_release m heap p) heap := by
    rw [heapBlocks_eq r1, r3]
    refine (mem_blocksOf_append _ _ _ _).2 (Or.inr ?_)
    rw [← ha]
    exact List.mem_cons_self _ _
  have hF := heapFirst_ge m heap
  refine ⟨?_, ?_, ?_, r2⟩
  · intro hc
    obtain ⟨q1, _⟩ := mn1 hc
    rw [q1] at k1 k2 hmem
    rw [span_even (h - 1) (by omega)] at k2
    exact ⟨k1, k2, by omega, hmem⟩
  · intro hlt hte
    obtain ⟨r, _, q1, _⟩ := mn2 hlt hte
    rw [q1] at k1 k2 hmem
    have hev : (h - 1 + read32 m (a + (h - 1))) % 2 = 0 := by omega
    rw [span_even _ hev] at k2
    exact ⟨k1, k2, hev, hmem⟩
  · intro b hbm hlt
    rw [heapBlocks_eq hl] at hbm
    rcases (mem_blocksOf_append _ _ _ _).1 hbm with h1 | h1
    · obtain ⟨g1, g2, g3⟩ := mem_blocksOf_bounds h1
      have hv := (valid_append.1 hl.valid).1 _ g3
      refine ⟨?_, ?_, ?_⟩
      · rw [heapBlocks_eq r1, r3]
        exact (mem_blocksOf_append _ _ _ _).2 (Or.inl h1)
      · exact frame_read32 r4 (by omega) (by omega)
      · exact frame_read32 r4 (by omega) (by omega)
    · have := (mem_blocksOf_bounds h1).1
      omega

theorem release_postcondition_witness :
    WF fourBlocks.mem 4096 ∧ 4160 ∈ allocated fourBlocks.mem 4096 ∧
    read32 fourBlocks.mem (4160 - 4 + (capacity fourBlocks.mem 4160 + 8)) % 2 = 1 ∧
    capacity fourBlocks.mem 4160 + 8 = 40 ∧
    read32 (hl_release fourBlocks.mem 4096 4160) (4160 - 4) =
      capacity fourBlocks.mem 4160 + 8 ∧
    heapHint (hl_release fourBlocks.mem 4096 4160) 4096 =
      (if 4160 - 4 < heapHint fourBlocks.mem 4096 then 4160 - 4
        else heapHint fourBlocks.mem 4096) :=
  ⟨wf_fourBlocks, by decide, by decide, by decide,
    ((release_postcondition fourBlocks.mem 4096 4160 wf_fourBlocks (by decide)).1
      (Or.inr (by decide))).1,
    (release_postcondition fourBlocks.mem 4096 4160 wf_fourBlocks (by decide)).2.2.2⟩

/-- On a heap that satisfies the invariant the hint is a block boundary and every
free block starts at or above it. -/
theorem hint_ok_blocks {m : Mem} {heap : Nat} {hs : List Nat} (hi : HeapInv m heap hs) :
    (heapHint m heap = heapEnd m heap ∨ ∃ b ∈ heapBlocks m heap, b.1 = heapHint m heap) ∧
    ∀ b ∈ heapBlocks m heap, b.1 < heapHint m heap → b.2 % 2 = 1 := by
  obtain ⟨pre, suf, e, hh, hodd⟩ := hi.hint
  subst e
  rw [heapBlocks_eq hi.lay]
  constructor
  · cases suf with
    | nil =>
      left
      have := hi.lay.tot
      rw [List.append_nil] at this
      rw [hh]
      unfold heapEnd
      rw [this]
    | cons t r =>
      right
      exact ⟨(heapFirst m heap + total pre, t),
        (mem_blocksOf_append _ _ _ _).2 (Or.inr (List.mem_cons_self _ _)), hh.symm⟩
  · intro b hb hlt
    rcases (mem_blocksOf_append _ _ _ _).1 hb with h1 | h1
    · exact hodd _ (mem_blocksOf_bounds h1).2.2
    · have := (mem_blocksOf_bounds h1).1
      omega

/-- C17: search-hint invariant.  In every state reachable from a successful
`hl_init` by calls with valid arguments, `header.first_free` is the address of a
block (a block boundary) or the end of the usable region, and no free block
starts at an address below it. -/
theorem hint_invariant (c : Consts) (heap : Nat) (s : State) (hmin : 40 ≤ c.MIN_HEAP_SIZE)
    (hSF : c.SUCCESS ≠ c.FAILURE) (hr : Reachable c heap s) :
    (heapHint s.mem heap = heapEnd s.mem heap ∨
      ∃ b ∈ heapBlocks s.mem heap, b.1 = heapHint s.mem heap) ∧
    ∀ b ∈ heapBlocks s.mem heap, b.1 < heapHint s.mem heap → b.2 % 2 = 1 := by
  rcases reachable_inv c heap s hmin hSF hr with ⟨hs, hi, _⟩ | ⟨hh, _⟩
  · exact hint_ok_blocks hi
  · rw [(heapBlocks_huge hh).1, hh.hint]
    refine ⟨Or.inr ⟨_, List.mem_singleton_self _, rfl⟩, ?_⟩
    intro b hb hlt
    rw [List.mem_singleton] at hb
    rw [hb] at hlt
    simp only at hlt
    omega

theorem hint_invariant_witness :
    40 ≤ demoConsts.MIN_HEAP_SIZE ∧ demoConsts.SUCCESS ≠ demoConsts.FAILURE ∧
    Reachable demoConsts 4096 fourBlocks ∧ heapHint fourBlocks.mem 4096 = 4276 ∧
    ((heapHint fourBlocks.mem 4096 = heapEnd fourBlocks.mem 4096 ∨
      ∃ b ∈ heapBlocks fourBlocks.mem 4096, b.1 = heapHint fourBlocks.mem 4096) ∧
    ∀ b ∈ heapBlocks fourBlocks.mem 4096, b.1 < heapHint fourBlocks.mem 4096 → b.2 % 2 = 1) :=
  ⟨by decide, by decide, reachable_fourBlocks, by decide,
    hint_invariant demoConsts 4096 fourBlocks (by decide) (by decide) reachable_fourBlocks⟩

theorem reachable_releaseStep {c : Consts} {heap : Nat} {s : State} (p : Nat)
    (hs : Reachable c heap s) (hp : p ∈ s.live ∨ p = 0) :
    Reachable c heap (releaseStep heap p s) :=
  Reachable.release s p hs hp

theorem reachable_twoFreed : Reachable demoConsts 4096 twoFreed :=
  reachable_releaseStep 4200 (reachable_releaseStep 4160 reachable_fourBlocks
    (Or.inl (by decide))) (Or.inl (by decide))

/-- C16 (counterexample): after four calls `hl_alloc(heap, 32)` on the fresh 256-byte
heap and the releases of the 2nd and 3rd block (in that order, which leaves them
as two free blocks), `hl_release(heap, 4120)` merges the 1st block with the 2nd
only: the free block of span 80 that starts at 4116 is immediately followed, at
4196, by the free block of span 40. -/
theorem release_leaves_adjacent_free :
    Reachable demoConsts 4096 twoFreed ∧ 4120 ∈ twoFreed.live ∧
    (4116, 80) ∈ heapBlocks (hl_release twoFreed.mem 4096 4120) 4096 ∧
    (4116 + span 80, 40) ∈ heapBlocks (hl_release twoFreed.mem 4096 4120) 4096 ∧
    4116 + span 80 < heapEnd (hl_release twoFreed.mem 4096 4120) 4096 ∧
    read32 (hl_release twoFreed.mem 4096 4120) (4116 + span 80) % 2 = 0 :=
  ⟨reachable_twoFreed, by decide, by decide, by decide, by decide, by decide⟩

/-- C16 (amended): on a well-formed heap, after `hl_release(heap, p)` of an
allocated pointer `p` the block that starts at `p - 4` is free, with a span `ms`
of at least the span of the released block, and the block that starts at its
end is allocated or is the end of the usable region, provided that before the
call the block that followed the block of `p` was not a free block that was
itself immediately followed by a free block. -/
theorem release_next_not_free (m : Mem) (heap p : Nat) (hwf : WF m heap)
    (hp : p ∈ allocated m heap)
    (hsep : ∀ b ∈ heapBlocks m heap, b.1 = p + capacity m p + 4 → b.2 % 2 = 0 →
      b.1 + span b.2 = heapEnd m heap ∨ read32 m (b.1 + span b.2) % 2 = 1) :
    ∃ ms, (p - 4, ms) ∈ heapBlocks (hl_release m heap p) heap ∧ ms % 2 = 0 ∧
      capacity m p + 8 ≤ ms ∧
      (p - 4 + ms = heapEnd (hl_release m heap p) heap ∨
        read32 (hl_release m heap p) (p - 4 + ms) % 2 = 1) := by
  rcases hwf with ⟨hs, hi⟩ | hh
  swap
  · rw [(heapBlocks_huge hh).2] at hp
    exact absurd hp (List.not_mem_nil _)
  obtain ⟨a, h, e, hb, ho, _, _, c3, _, _, _, _, _, c9⟩ := allocated_block hi.lay hp
  obtain ⟨pre, rest, e2, ha⟩ := mem_blocksOf_split hb
  simp only at e2 ha
  subst e2
  have hl := hi.lay
  obtain ⟨r1, _, r3, _⟩ := hl_release_spec hl ho
  have hsp := span_odd h ho
  have ep : heapFirst m heap + total pre + 4 = p := by omega
  have ea : p - 4 = a := by omega
  rw [ep] at r1 r3
  obtain ⟨_, _, _, _, _, b6, _, _, b9, b10, _⟩ := layout_block hl
  obtain ⟨_, _, k3, _, _, k6, _, _, k9, k10, _⟩ := layout_block r1
  rw [r3, ← ha] at k6 k9
  rw [hsp, ← ha] at b6 b9
  have hmem : (a, mergedSpan (h - 1) rest) ∈ heapBlocks (hl_release m heap p) heap := by
    rw [heapBlocks_eq r1, r3]
    refine (mem_blocksOf_append _ _ _ _).2 (Or.inr ?_)
    rw [← ha]
    exact List.mem_cons_self _ _
  rw [ea]
  have hsucc : afterMerge rest = [] ∨ ∃ u r, afterMerge rest = u :: r ∧ u % 2 = 1 := by
    rcases merge_cases (h - 1) rest with ⟨_, q2, q3⟩ | ⟨t, r, q0, q1, _, q4⟩
    · rw [q2]
      rcases q3 with q3 | ⟨t, r, q3, q5⟩
      · exact Or.inl q3
      · exact Or.inr ⟨t, r, q3, q5⟩
    · rw [q4]
      subst q0
      cases r with
      | nil => exact Or.inl rfl
      | cons u r2 =>
        right
        refine ⟨u, r2, rfl, ?_⟩
        have hmt : (a + (h - 1), t) ∈ heapBlocks m heap := by
          rw [heapBlocks_eq hl]
          refine (mem_blocksOf_append _ _ _ _).2 (Or.inr ?_)
          rw [← ha]
          have hbl : blocksOf a (h :: t :: u :: r2) =
              (a, h) :: (a + span h, t) :: blocksOf (a + span h + span t) (u :: r2) := rfl
          rw [hbl, hsp]
          exact List.mem_cons_of_mem _ (List.mem_cons_self _ _)
        have hu : read32 m (a + (h - 1) + span t) = u := b9.2.2.1
        have hvu := (valid_cons.1 (valid_cons.1 b10).2).1
        have := hsep _ hmt (by simp only; omega) q1
        simp only [hu, total] at this b6
        rcases this with h1 | h1
        · omega
        · exact h1
  have hms : mergedSpan (h - 1) rest % 2 = 0 ∧ h - 1 ≤ mergedSpan (h - 1) rest := by
    rcases merge_cases (h - 1) rest with ⟨q1, _, _⟩ | ⟨t, r, _, q1, q2, _⟩
    · rw [q1]; omega
    · rw [q2]; omega
  rw [span_even _ hms.1] at k6 k9
  refine ⟨mergedSpan (h - 1) rest, hmem, hms.1, by omega, ?_⟩
  rcases hsucc with h0 | ⟨u, r, h0, hu⟩
  · left
    rw [h0] at k6
    simp only [total] at k6
    omega
  · right
    rw [h0] at k9
    rw [k9.1]
    exact hu

theorem release_next_not_free_witness :
    WF fourBlocks.mem 4096 ∧ 4160 ∈ allocated fourBlocks.mem 4096 ∧
    (∀ b ∈ heapBlocks fourBlocks.mem 4096, b.1 = 4160 + capacity fourBlocks.mem 4160 + 4 →
      b.2 % 2 = 0 → b.1 + span b.2 = heapEnd fourBlocks.mem 4096 ∨
        read32 fourBlocks.mem (b.1 + span b.2) % 2 = 1) ∧
    ∃ ms, (4160 - 4, ms) ∈ heapBlocks (hl_release fourBlocks.mem 4096 4160) 4096 ∧
      ms % 2 = 0 ∧ capacity fourBlocks.mem 4160 + 8 ≤ ms ∧
      (4160 - 4 + ms = heapEnd (hl_release fourBlocks.mem 4096 4160) 4096 ∨
        read32 (hl_release fourBlocks.mem 4096 4160) (4160 - 4 + ms) % 2 = 1) :=
  ⟨wf_fourBlocks, by decide, by decide,
    release_next_not_free fourBlocks.mem 4096 4160 wf_fourBlocks (by decide) (by decide)⟩

/-! ## Write sets -/

/-- The bytes that the block update of `hl_release` can change: the header word of
the released block, its footer word, and the footer word of the block that
results from the merge. -/
theorem release_block_writes (m : Mem) (a s E : Nat) (rest : List Nat)
    (hE : E < 18446744073709551616)
    (b3 : 8 ≤ s) (b4 : s % 8 = 0) (hsm : s + total rest ≤ 2147483648)
    (b6 : a + s + total rest = E) (b9 : Chain m (a + s) rest) (b10 : Valid rest) (x : Nat)
    (h1 : x < a ∨ a + 4 ≤ x) (h2 : x < a + s - 4 ∨ a + s ≤ x)
    (h3 : x < a + mergedSpan s rest - 4 ∨ a + mergedSpan s rest ≤ x) :
    read8 (if a + s < E then
          if read32 m (a + s) % 2 = 0 then
            write32 (write32 (write32 (write32 m a s) (a + s - 4) s)
              (ADD_BYTES (a + s) (i32 (i32 (read32 m (a + s)) - 4)))
              (u32 ((read32 m (a + s) : Int) + s))) a (u32 ((read32 m (a + s) : Int) + s))
          else write32 (write32 m a s) (a + s - 4) s
        else write32 (write32 m a s) (a + s - 4) s) x = read8 m x := by
  have c2 : read8 (write32 (write32 m a s) (a + s - 4) s) x = read8 m x := by
    rw [read8_write32_ne _ _ _ _ (by omega), read8_write32_ne _ _ _ _ (by omega)]
  cases rest with
  | nil =>
    simp only [total] at b6
    rw [if_neg (by omega)]
    exact c2
  | cons t r =>
    have hv := valid_cons.1 b10
    simp only [total] at b6 hsm
    have ht : read32 m (a + s) = t := b9.1
    have htl : t < 4294967296 := by rw [← ht]; exact read32_lt _ _
    rw [if_pos (by omega), ht]
    by_cases hte : t % 2 = 0
    · have hspt : span t = t := span_even t hte
      rw [hspt] at hv b6 hsm
      rw [if_pos hte]
      have e10 : ADD_BYTES (a + s) (i32 (i32 (t : Int) - 4)) = a + s + t - 4 := by
        rw [i32_i32_sub _ _ (by omega) (by omega)]
        unfold ADD_BYTES; omega
      rw [e10]
      simp only [mergedSpan, if_pos hte] at h3
      rw [read8_write32_ne _ _ _ _ (by omega), read8_write32_ne _ _ _ _ (by omega)]
      exact c2
    · rw [if_neg hte]
      exact c2

/-- The bytes that `hl_release` can change, for the allocated block with header word
`h` that sits after the blocks `pre`: the hint field, the header word and the
footer word of the block, and the footer word of the merged block. -/
theorem hl_release_writes {m : Mem} {heap : Nat} {pre rest : List Nat} {h : Nat}
    (hl : Layout m heap (pre ++ h :: rest)) (hodd : h % 2 = 1) (x : Nat)
    (h0 : x < heap + 8 ∨ heap + 16 ≤ x)
    (h1 : x < heapFirst m heap + total pre ∨ heapFirst m heap + total pre + 4 ≤ x)
    (h2 : x < heapFirst m heap + total pre + (h - 1) - 4 ∨
      heapFirst m heap + total pre + (h - 1) ≤ x)
    (h3 : x < heapFirst m heap + total pre + mergedSpan (h - 1) rest - 4 ∨
      heapFirst m heap + total pre + mergedSpan (h - 1) rest ≤ x) :
    read8 (hl_release m heap (heapFirst m heap + total pre + 4)) x = read8 m x := by
  obtain ⟨b1, b2, b3, b4, b5, b6, b7, b8, b9, b10, b11, b12⟩ := layout_block hl
  have hsp : span h = h - 1 := span_odd h hodd
  rw [hsp] at b2 b3 b4 b6 b8 b9
  have hF := heapFirst_ge m heap
  have hsmall : h - 1 + total rest ≤ 2147483648 := by
    have := hl.small
    have hEd : heapEnd m heap = heapFirst m heap + read32 m heap := rfl
    omega
  have hunf := release_unfold m heap (heapFirst m heap + total pre) h (h - 1) hl.pad (by omega)
    b7 (by omega) b1 b2 (by omega) b3 b8
  have hw := release_block_writes m (heapFirst m heap + total pre) (h - 1) (heapEnd m heap)
    rest b7 b3 b4 hsmall b6 b9 b10 x h1 h2 h3
  rw [hunf]
  split
  · rw [read8_write64_ne _ _ _ _ h0]
    exact hw
  · exact hw

/-- The block that follows a block of the layout is a block of the heap. -/
theorem mem_heapBlocks_succ {m : Mem} {heap : Nat} {pre r : List Nat} {h t : Nat}
    (hl : Layout m heap (pre ++ h :: t :: r)) :
    (heapFirst m heap + total pre + span h, t) ∈ heapBlocks m heap := by
  rw [heapBlocks_eq hl]
  refine (mem_blocksOf_append _ _ _ _).2 (Or.inr ?_)
  have hbl : blocksOf (heapFirst m heap + total pre) (h :: t :: r) =
      (heapFirst m heap + total pre, h) :: (heapFirst m heap + total pre + span h, t) ::
        blocksOf (heapFirst m heap + total pre + span h + span t) r := rfl
  rw [hbl]
  exact List.mem_cons_of_mem _ (List.mem_cons_self _ _)

/-- The write set of `hl_release`: a byte that changes lies in the hint field, in a
block that was free (the last word of a free successor, which becomes the footer
of the merged block), or in the header or footer word of the released block. -/
theorem release_writes {m : Mem} {heap p : Nat} {hs : List Nat} (hi : HeapInv m heap hs)
    (hp : p ∈ allocated m heap) (x : Nat)
    (hx : read8 (hl_release m heap p) x ≠ read8 m x) :
    inHintField heap x ∨ inFreeBlock m heap x ∨ inHeaderFooter m p x := by
  obtain ⟨a, h, e, hb, ho, _, _, c3, _, _, _, _, _, c9⟩ := allocated_block hi.lay hp
  obtain ⟨pre, rest, e2, ha⟩ := mem_blocksOf_split hb
  simp only at e2 ha
  subst e2
  have hl := hi.lay
  by_contra hcon
  simp only [not_or] at hcon
  obtain ⟨n0, n1, n2⟩ := hcon
  apply hx
  have ep : heapFirst m heap + total pre + 4 = p := by omega
  rw [← ep]
  unfold inHintField at n0
  unfold inHeaderFooter at n2
  rw [c9] at n2
  refine hl_release_writes hl ho x (by omega) (by omega) (by omega) ?_
  rw [← ha]
  rcases merge_cases (h - 1) rest with ⟨q1, _, _⟩ | ⟨t, r, q0, q1, q2, _⟩
  · rw [q1]; omega
  · rw [q2]
    subst q0
    have hmt := mem_heapBlocks_succ hl
    rw [span_odd h ho, ← ha] at hmt
    have hnot : ¬ (a + (h - 1) ≤ x ∧ x < a + (h - 1) + span t) :=
      fun hh => n1 ⟨_, hmt, q1, hh.1, hh.2⟩
    rw [span_even t q1] at hnot
    omega

/-- A byte of an allocated block lies neither in the hint field nor in a free block
nor in the header or footer word of another allocated block. -/
theorem block_untouched {m : Mem} {heap pB x : Nat} {hs : List Nat} (hi : HeapInv m heap hs)
    (hB : pB ∈ allocated m heap) (hx : inBlock m pB x) :
    ¬ inHintField heap x ∧ ¬ inFreeBlock m heap x ∧
      ∀ p ∈ allocated m heap, p ≠ pB → ¬ inHeaderFooter m p x := by
  obtain ⟨a, h, e, hb, ho, _, _, c3, _, _, c6, _, _, c9⟩ := allocated_block hi.lay hB
  unfold inBlock at hx
  rw [c9] at hx
  have hF := heapFirst_ge m heap
  have hsp := span_odd h ho
  refine ⟨?_, ?_, ?_⟩
  · unfold inHintField; omega
  · rintro ⟨b, hbm, hbe, hb1, hb2⟩
    rw [heapBlocks_eq hi.lay] at hbm
    rcases blocks_disjoint hb hbm with h1 | h1 | h1
    · rw [← h1] at hbe
      simp only at hbe
      omega
    · simp only [hsp] at h1
      omega
    · simp only at h1
      omega
  · intro p hp hne hhf
    obtain ⟨a2, h2, e2, hb2, ho2, _, _, d3, _, _, _, _, _, d9⟩ := allocated_block hi.lay hp
    unfold inHeaderFooter at hhf
    rw [d9] at hhf
    have hsp2 := span_odd h2 ho2
    rcases blocks_disjoint hb hb2 with h1 | h1 | h1
    · have := congrArg Prod.fst h1
      simp only at this
      omega
    · simp only [hsp] at h1
      omega
    · simp only [hsp2] at h1
      omega

/-- The write set of `hl_alloc`: a byte that changes lies in the hint field or in a
block that was free. -/
theorem alloc_writes {m m' : Mem} {heap n q : Nat} {hs : List Nat} (hi : HeapInv m heap hs)
    (hn : n ≤ 2147483640) (hcall : hl_alloc m heap n = some (m', q)) (x : Nat)
    (hx : read8 m' x ≠ read8 m x) : inHintField heap x ∨ inFreeBlock m heap x := by
  obtain ⟨m1, q1, h1, h2, h3⟩ := hl_alloc_ok hi hn
  rw [hcall] at h1
  have e := Option.some.inj h1
  have e1 := congrArg Prod.fst e
  have e2 := congrArg Prod.snd e
  simp only at e1 e2
  subst e1
  subst e2
  by_cases hq : q = 0
  · rw [h2 hq] at hx
    exact absurd rfl hx
  · obtain ⟨hs', af, hf, _, _, hmem, hev, _, _, hfr, _, _⟩ := h3 hq
    by_contra hcon
    simp only [not_or] at hcon
    apply hx
    refine hfr x ?_ ?_
    · by_contra hin
      refine hcon.2 ⟨(af, hf), ?_, hev, ?_, ?_⟩
      · rw [heapBlocks_eq hi.lay]; exact hmem
      · simp only; omega
      · simp only [span_even hf hev]; omega
    · have := hcon.1
      unfold inHintField at this
      omega

/-- After `hl_alloc` every free block lies inside a block that was free before. -/
theorem free_after_alloc {m m' : Mem} {heap n q : Nat} {hs : List Nat}
    (hi : HeapInv m heap hs) (hn : n ≤ 2147483640)
    (hcall : hl_alloc m heap n = some (m', q)) (x : Nat) (hx : inFreeBlock m' heap x) :
    inFreeBlock m heap x := by
  rcases hl_alloc_cases hi hn with ⟨h0, _⟩ |
    ⟨m1, pre, skipped, h, rest, oddrun, rest2, e, _, _, _, hfit, _, _, _, hc, hi1, _, hF1, _⟩
  · rw [hcall] at h0
    have := congrArg Prod.fst (Option.some.inj h0)
    simp only at this
    rw [this] at hx
    exact hx
  · rw [hcall] at hc
    have e1 := congrArg Prod.fst (Option.some.inj hc)
    simp only at e1
    subst e1
    subst e
    have hl0 : Layout m heap ((pre ++ skipped) ++ h :: rest) := by
      rw [List.append_assoc]; exact hi.lay
    have hl1 : Layout m' heap ((pre ++ skipped) ++ (placed h (roundUp n) ++ rest)) := by
      rw [List.append_assoc]; exact hi1.lay
    obtain ⟨_, _, b3, _, _, _, _, b8, _⟩ := layout_block hl0
    obtain ⟨fe, fle, fsp⟩ := fit_block (roundUp_spec n hn).2.2.2 b3 b8 hfit
    have hr8 := (roundUp_spec n hn).2.2.1
    have htp := total_placed h (roundUp n) fe hr8 fle
    have hmh : (heapFirst m heap + total (pre ++ skipped), h) ∈ heapBlocks m heap := by
      rw [heapBlocks_eq hl0]
      exact (mem_blocksOf_append _ _ _ _).2 (Or.inr (List.mem_cons_self _ _))
    obtain ⟨b, hbm, hbe, hb1, hb2⟩ := hx
    rw [heapBlocks_eq hl1, hF1] at hbm
    rcases (mem_blocksOf_append _ _ _ _).1 hbm with g | g
    · exact ⟨b, by rw [heapBlocks_eq hl0]; exact (mem_blocksOf_append _ _ _ _).2 (Or.inl g),
        hbe, hb1, hb2⟩
    · rcases (mem_blocksOf_append _ _ _ _).1 g with g | g
      · rw [blocksOf_placed _ _ _ hr8] at g
        split at g
        · simp only [List.mem_singleton] at g
          rw [g] at hbe
          simp only at hbe
          omega
        · simp only [List.mem_cons, List.mem_singleton, List.not_mem_nil, or_false] at g
          rcases g with g | g
          · rw [g] at hbe
            simp only at hbe
            omega
          · rw [g] at hb1 hb2
            simp only at hb1 hb2
            have hle := span_le (h - roundUp n - 8)
            refine ⟨_, hmh, fe, ?_, ?_⟩
            · simp only; omega
            · simp only [fsp]; omega
      · rw [htp] at g
        refine ⟨b, ?_, hbe, hb1, hb2⟩
        rw [heapBlocks_eq hl0]
        refine (mem_blocksOf_append _ _ _ _).2 (Or.inr ?_)
        have hbl : blocksOf (heapFirst m heap + total (pre ++ skipped)) (h :: rest) =
            (heapFirst m heap + total (pre ++ skipped), h) ::
              blocksOf (heapFirst m heap + total (pre ++ skipped) + span h) rest := rfl
        rw [hbl, fsp]
        exact List.mem_cons_of_mem _ g

/-- The write set of `hl_resize`: a byte that changes lies in the hint field, in a
block that was free (which holds the new block and its payload), or in the
header or footer word of the block of `p`. -/
theorem resize_writes {m m' : Mem} {heap n p q : Nat} {hs : List Nat} (hi : HeapInv m heap hs)
    (hn : n ≤ 2147483640) (hp : p ∈ allocated m heap)
    (hcall : hl_resize m heap p n = some (m', q)) (x : Nat) (hx : read8 m' x ≠ read8 m x) :
    inHintField heap x ∨ inFreeBlock m heap x ∨ inHeaderFooter m p x := by
  obtain ⟨hsh, hgr⟩ := hl_resize_ok hi hn hp
  by_cases hle : roundUp n ≤ capacity m p
  · rw [hsh hle] at hcall
    have := congrArg Prod.fst (Option.some.inj hcall)
    simp only at this
    rw [← this] at hx
    exact absurd rfl hx
  · have hgt : capacity m p < roundUp n := by omega
    obtain ⟨m1, q1, ha, hre, hrd⟩ := hgr hgt
    rw [hre] at hcall
    have e := Option.some.inj hcall
    have e1 := congrArg Prod.fst e
    have e2 := congrArg Prod.snd e
    simp only at e1 e2
    subst e2
    have hrs := roundUp_spec n hn
    have hrn : roundUp n ≤ 2147483640 := hrs.2.2.2
    by_cases hq : q1 = 0
    · rw [if_pos hq] at e1
      subst e1
      rcases alloc_writes hi hrn ha x hx with g | g
      · exact Or.inl g
      · exact Or.inr (Or.inl g)
    · rw [if_neg hq] at e1
      subst e1
      obtain ⟨hs1, hs3, i1, i2, _, _, _, a1, a2, _, _, _⟩ :=
        resize_grow_inv hi hn hp hgt ha hq
      obtain ⟨m1', q1', k1, _, k3⟩ := hl_alloc_ok hi hrn
      rw [ha] at k1
      have f1 := congrArg Prod.fst (Option.some.inj k1)
      have f2 := congrArg Prod.snd (Option.some.inj k1)
      simp only at f1 f2
      subst f1
      subst f2
      obtain ⟨_, af, hf, _, eq, hmem, hev, hfle, _, _, _, _⟩ := k3 hq
      rw [roundUp_idem _ hrs.2.2.1] at hfle
      obtain ⟨a, h, e, hb, ho, _, _, c3, _, _, c6, _, _, c9⟩ := allocated_block hi.lay hp
      have hdis : a + span h ≤ af ∨ af + span hf ≤ a := by
        rcases blocks_disjoint hb hmem with g | g | g
        · have := congrArg Prod.snd g
          simp only at this
          omega
        · exact Or.inl g
        · exact Or.inr g
      rw [span_odd h ho, span_even hf hev] at hdis
      have hF := heapFirst_ge m heap
      have haf := (mem_blocksOf_bounds hmem).1
      simp only at haf
      by_contra hcon
      simp only [not_or] at hcon
      obtain ⟨n0, n1, n2⟩ := hcon
      apply hx
      have hfree : ¬ (af ≤ x ∧ x < af + hf) := fun hh =>
        n1 ⟨(af, hf), by rw [heapBlocks_eq hi.lay]; exact hmem, hev, hh.1,
          by simp only [span_even hf hev]; exact hh.2⟩
      have s1 : read8 m1 x = read8 m x := by
        by_contra h1
        rcases alloc_writes hi hrn ha x h1 with g | g
        · exact n0 g
        · exact n1 g
      have s2 : read8 (memmove m1 q1 p (capacity m p + 1)) x = read8 m1 x :=
        read8_memmove_ne _ _ _ _ _ (by omega)
      have hrd2 : read32 (memmove m1 q1 p (capacity m p + 1)) (p - 4) = read32 m (p - 4) := by
        rw [read32_memmove_ne _ _ _ _ _ (by omega), hrd]
      obtain ⟨_, _, _, g4, _⟩ :=
        fields_same heap (sameOutside_memmove m1 q1 p (capacity m p + 1)) (by omega)
      generalize memmove m1 q1 p (capacity m p + 1) = m2 at *
      have hblocks : heapBlocks m2 heap = heapBlocks m1 heap := by
        rw [heapBlocks_eq i2.lay, heapBlocks_eq i1.lay, g4]
      have hcap : capacity m2 p = capacity m p := by
        unfold capacity
        rw [hrd2]
      have hp2 : p ∈ allocated m2 heap := by
        rw [a2]
        exact (a1 p).2 (Or.inl hp)
      have s3 : read8 (hl_release m2 heap p) x = read8 m2 x := by
        by_contra h3
        rcases release_writes i2 hp2 x h3 with g | g | g
        · exact n0 g
        · refine n1 (free_after_alloc hi hrn ha x ?_)
          unfold inFreeBlock at g ⊢
          rw [hblocks] at g
          exact g
        · unfold inHeaderFooter at g n2
          rw [hcap] at g
          exact n2 g
      rw [s3, s2, s1]

/-- C20: live data is never clobbered.  On a well-formed heap, for a call
`hl_alloc(heap, n)`, `hl_release(heap, p)` or `hl_resize(heap, p, n)` with
`n <= 2^31 - 8` and `p` an allocated pointer: every byte that the call changes
lies in the field `first_free` of the heap header, in a block that was free
(this is where the new block of `hl_alloc` and the new payload of `hl_resize`
are), or in the header or footer word of the block of `p`; and every byte of
every other allocated block `B` (header word, payload, footer word) is
unchanged. -/
theorem live_data_preserved (m : Mem) (heap : Nat) (hwf : WF m heap) :
    (∀ n m' q, n ≤ 2147483640 → hl_alloc m heap n = some (m', q) →
      (∀ x, read8 m' x ≠ read8 m x → inHintField heap x ∨ inFreeBlock m heap x) ∧
      ∀ pB ∈ allocated m heap, ∀ x, inBlock m pB x → read8 m' x = read8 m x) ∧
    (∀ p ∈ allocated m heap,
      (∀ x, read8 (hl_release m heap p) x ≠ read8 m x →
        inHintField heap x ∨ inFreeBlock m heap x ∨ inHeaderFooter m p x) ∧
      ∀ pB ∈ allocated m heap, pB ≠ p → ∀ x, inBlock m pB x →
        read8 (hl_release m heap p) x = read8 m x) ∧
    (∀ p ∈ allocated m heap, ∀ n m' q, n ≤ 2147483640 →
      hl_resize m heap p n = some (m', q) →
      (∀ x, read8 m' x ≠ read8 m x →
        inHintField heap x ∨ inFreeBlock m heap x ∨ inHeaderFooter m p x) ∧
      ∀ pB ∈ allocated m heap, pB ≠ p → ∀ x, inBlock m pB x → read8 m' x = read8 m x) := by
  rcases hwf with ⟨hs, hi⟩ | hh
  · refine ⟨?_, ?_, ?_⟩
    · intro n m' q hn hcall
      refine ⟨alloc_writes hi hn hcall, ?_⟩
      intro pB hB x hx
      obtain ⟨u1, u2, _⟩ := block_untouched hi hB hx
      by_contra hne
      rcases alloc_writes hi hn hcall x hne with g | g
      · exact u1 g
      · exact u2 g
    · intro p hp
      refine ⟨release_writes hi hp, ?_⟩
      intro pB hB hne x hx
      obtain ⟨u1, u2, u3⟩ := block_untouched hi hB hx
      by_contra hch
      rcases release_writes hi hp x hch with g | g | g
      · exact u1 g
      · exact u2 g
      · exact u3 p hp (fun e => hne e.symm) g
    · intro p hp n m' q hn hcall
      refine ⟨resize_writes hi hn hp hcall, ?_⟩
      intro pB hB hne x hx
      obtain ⟨u1, u2, u3⟩ := block_untouched hi hB hx
      by_contra hch
      rcases resize_writes hi hn hp hcall x hch with g | g | g
      · exact u1 g
      · exact u2 g
      · exact u3 p hp (fun e => hne e.symm) g
  · have hnil := (heapBlocks_huge hh).2
    refine ⟨?_, ?_, ?_⟩
    · intro n m' q hn hcall
      rw [hl_alloc_huge hh hn] at hcall
      have := congrArg Prod.fst (Option.some.inj hcall)
      simp only at this
      subst this
      exact ⟨fun x hx => absurd rfl hx, fun _ _ _ _ => rfl⟩
    · intro p hp
      rw [hnil] at hp
      exact absurd hp (List.not_mem_nil _)
    · intro p hp
      rw [hnil] at hp
      exact absurd hp (List.not_mem_nil _)

theorem live_data_preserved_witness :
    WF fourBlocks.mem 4096 ∧ 4200 ∈ allocated fourBlocks.mem 4096 ∧
    4160 ∈ allocated fourBlocks.mem 4096 ∧ inBlock fourBlocks.mem 4160 4170 ∧
    read8 (hl_release fourBlocks.mem 4096 4200) 4170 = read8 fourBlocks.mem 4170 :=
  ⟨wf_fourBlocks, by decide, by decide,
    (by decide : 4160 - 4 ≤ 4170 ∧ 4170 < 4160 + capacity fourBlocks.mem 4160 + 4),
    ((live_data_preserved fourBlocks.mem 4096 wf_fourBlocks).2.1 4200 (by decide)).2 4160
      (by decide) (by decide) 4170
      (by decide : 4160 - 4 ≤ 4170 ∧ 4170 < 4160 + capacity fourBlocks.mem 4160 + 4)⟩

/-! ## Alignment -/

theorem total_mod_eight (xs : List Nat) (hv : Valid xs) : total xs % 8 = 0 := by
  induction xs with
  | nil => rfl
  | cons h t ih =>
    have h1 := valid_cons.1 hv
    have h2 := ih h1.2
    simp only [total]
    omega

/-- A call that changes no byte below `heap + 8` leaves the padding field, and so the
address of the first block, as it was. -/
theorem heapFirst_of_writes {m m' : Mem} {heap : Nat}
    (h : ∀ x, read8 m' x ≠ read8 m x → heap + 8 ≤ x) :
    heapFirst m' heap = heapFirst m heap := by
  unfold heapFirst
  have : read32 m' (heap + 4) = read32 m (heap + 4) := by
    refine read32_congr (fun x h1 h2 => ?_)
    by_contra hne
    have := h x hne
    omega
  rw [this]

/-- The write sets of the three calls lie at or above `heap + 8`. -/
theorem writes_above {m : Mem} {heap x : Nat} {hs : List Nat} (hi : HeapInv m heap hs) :
    (inHintField heap x → heap + 8 ≤ x) ∧ (inFreeBlock m heap x → heap + 8 ≤ x) ∧
      ∀ p ∈ allocated m heap, inHeaderFooter m p x → heap + 8 ≤ x := by
  have hF := heapFirst_ge m heap
  refine ⟨fun h => h.1, ?_, ?_⟩
  · rintro ⟨b, hb, _, h1, _⟩
    rw [heapBlocks_eq hi.lay] at hb
    have := (mem_blocksOf_bounds hb).1
    omega
  · intro p hp hx
    obtain ⟨a, h, e, _, _, _, _, c3, _, _, c6, _, _, c9⟩ := allocated_block hi.lay hp
    unfold inHeaderFooter at hx
    omega

theorem heapFirst_alloc {m m' : Mem} {heap n q : Nat} (hwf : WF m heap) (hn : n ≤ 2147483640)
    (hcall : hl_alloc m heap n = some (m', q)) : heapFirst m' heap = heapFirst m heap := by
  rcases hwf with ⟨hs, hi⟩ | hh
  · refine heapFirst_of_writes (fun x hx => ?_)
    rcases alloc_writes hi hn hcall x hx with g | g
    · exact (writes_above hi).1 g
    · exact (writes_above hi).2.1 g
  · rw [hl_alloc_huge hh hn] at hcall
    have := congrArg Prod.fst (Option.some.inj hcall)
    simp only at this
    rw [← this]

theorem heapFirst_release {m : Mem} {heap p : Nat} (hwf : WF m heap)
    (hp : p ∈ allocated m heap ∨ p = 0) :
    heapFirst (hl_release m heap p) heap = heapFirst m heap := by
  rcases hp with hp | hp
  · rcases hwf with ⟨hs, hi⟩ | hh
    · refine heapFirst_of_writes (fun x hx => ?_)
      rcases release_writes hi hp x hx with g | g | g
      · exact (writes_above hi).1 g
      · exact (writes_above hi).2.1 g
      · exact (writes_above hi).2.2 p hp g
    · rw [(heapBlocks_huge hh).2] at hp
      exact absurd hp (List.not_mem_nil _)
  · rw [hp, hl_release_null]

theorem heapFirst_resize {m m' : Mem} {heap p n q : Nat} (hwf : WF m heap)
    (hp : p ∈ allocated m heap ∨ p = 0) (hn : n ≤ 2147483640)
    (hcall : hl_resize m heap p n = some (m', q)) : heapFirst m' heap = heapFirst m heap := by
  rcases hp with hp | hp
  · rcases hwf with ⟨hs, hi⟩ | hh
    · refine heapFirst_of_writes (fun x hx => ?_)
      rcases resize_writes hi hn hp hcall x hx with g | g | g
      · exact (writes_above hi).1 g
      · exact (writes_above hi).2.1 g
      · exact (writes_above hi).2.2 p hp g
    · rw [(heapBlocks_huge hh).2] at hp
      exact absurd hp (List.not_mem_nil _)
  · rw [hp, hl_resize_null] at hcall
    exact heapFirst_alloc hwf hn hcall

/-- In a state that satisfies the invariant the client holds allocated pointers. -/
theorem rinv_live {heap : Nat} {s : State} (hR : RInv heap s) {p : Nat} (hp : p ∈ s.live) :
    p ∈ allocated s.mem heap := by
  rcases hR with ⟨hs, _, hl⟩ | ⟨_, hl⟩
  · exact (hl p).1 hp
  · rw [hl] at hp
    exact absurd hp (List.not_mem_nil _)

theorem rinv_wf {heap : Nat} {s : State} (hR : RInv heap s) : WF s.mem heap := by
  rcases hR with ⟨hs, hi, _⟩ | ⟨hh, _⟩
  · exact Or.inl ⟨hs, hi⟩
  · exact Or.inr hh

/-- In every reachable state the payload of the first block is 8-byte aligned. -/
theorem reachable_first_aligned (c : Consts) (heap : Nat) (s : State)
    (hmin : 40 ≤ c.MIN_HEAP_SIZE) (hSF : c.SUCCESS ≠ c.FAILURE) (hr : Reachable c heap s) :
    (heapFirst s.mem heap + 4) % 8 = 0 := by
  induction hr with
  | init m0 heap_size h32 hfit hok =>
    have hsz := hl_init_success c m0 heap heap_size hSF hok
    obtain ⟨_, _, h3, _⟩ := hl_init_spec c m0 heap heap_size hmin hsz h32 hfit
    exact h3
  | alloc s n m' q hs hn hcall ih =>
    have hR := reachable_inv c heap s hmin hSF hs
    show (heapFirst m' heap + 4) % 8 = 0
    rw [heapFirst_alloc (rinv_wf hR) hn hcall]
    exact ih
  | release s p hs hp ih =>
    have hR := reachable_inv c heap s hmin hSF hs
    show (heapFirst (hl_release s.mem heap p) heap + 4) % 8 = 0
    rw [heapFirst_release (rinv_wf hR) (hp.imp (fun h => rinv_live hR h) id)]
    exact ih
  | resize s p n m' q hs hp hn hcall ih =>
    have hR := reachable_inv c heap s hmin hSF hs
    show (heapFirst m' heap + 4) % 8 = 0
    rw [heapFirst_resize (rinv_wf hR) (hp.imp (fun h => rinv_live hR h) id) hn hcall]
    exact ih
  | store s p i v hs hp hi ih =>
    have hR := reachable_inv c heap s hmin hSF hs
    show (heapFirst (write8 s.mem (p + i) v) heap + 4) % 8 = 0
    have hpa := rinv_live hR hp
    have hfirst : heapFirst (write8 s.mem (p + i) v) heap = heapFirst s.mem heap := by
      rcases hR with ⟨hs0, hi0, _⟩ | ⟨hh, hl⟩
      · obtain ⟨a, h, e, _, _, _, _, _, _, _, c6, _, _, _⟩ := allocated_block hi0.lay hpa
        have hF := heapFirst_ge s.mem heap
        exact (fields_same heap (sameOutside_write8 s.mem (p + i) v) (by omega)).2.2.2.1
      · rw [hl] at hp
        exact absurd hp (List.not_mem_nil _)
    rw [hfirst]
    exact ih

/-- In every reachable state the blocks have spans that are multiples of 8 and
payload addresses that are multiples of 8, and so have the pointers that the
client holds. -/
theorem reachable_aligned (c : Consts) (heap : Nat) (s : State)
    (hmin : 40 ≤ c.MIN_HEAP_SIZE) (hSF : c.SUCCESS ≠ c.FAILURE) (hr : Reachable c heap s) :
    (∀ b ∈ heapBlocks s.mem heap, span b.2 % 8 = 0 ∧ (b.1 + 4) % 8 = 0) ∧
    ∀ p ∈ s.live, p % 8 = 0 := by
  have hfa := reachable_first_aligned c heap s hmin hSF hr
  rcases reachable_inv c heap s hmin hSF hr with ⟨hs, hi, hl⟩ | ⟨hh, hl⟩
  · have hblocks : ∀ b ∈ heapBlocks s.mem heap, span b.2 % 8 = 0 ∧ (b.1 + 4) % 8 = 0 := by
      intro b hb
      rw [heapBlocks_eq hi.lay] at hb
      obtain ⟨pre, rest, e, ha⟩ := mem_blocksOf_split hb
      have hv := hi.lay.valid
      rw [e] at hv
      have h1 := total_mod_eight pre (valid_append.1 hv).1
      have h2 := (valid_cons.1 (valid_append.1 hv).2).1
      omega
    refine ⟨hblocks, ?_⟩
    intro p hp
    obtain ⟨b, hb, _, e⟩ := (mem_allocated_iff hi.lay p).1 ((hl p).1 hp)
    rw [← heapBlocks_eq hi.lay] at hb
    have := (hblocks b hb).2
    omega
  · refine ⟨?_, ?_⟩
    · intro b hb
      rw [(heapBlocks_huge hh).1, List.mem_singleton] at hb
      rw [hb]
      have := hh.even
      simp only
      unfold span
      omega
    · intro p hp
      rw [hl] at hp
      exact absurd hp (List.not_mem_nil _)

/-- C12: alignment.  For every base address of the buffer, in every state reachable
from a successful `hl_init` by calls with valid arguments: the payload address
of the first block, `heap + padding + 20`, is a multiple of 8; every block has a
span that is a multiple of 8 and a payload address that is a multiple of 8; and
every pointer returned by `hl_alloc` or by `hl_resize` in that state is a
multiple of 8 (`NULL` or the aligned payload address of a block). -/
theorem pointers_aligned (c : Consts) (heap : Nat) (s : State) (hmin : 40 ≤ c.MIN_HEAP_SIZE)
    (hSF : c.SUCCESS ≠ c.FAILURE) (hr : Reachable c heap s) :
    (heap + read32 s.mem (heap + 4) + 20) % 8 = 0 ∧
    (∀ b ∈ heapBlocks s.mem heap, span b.2 % 8 = 0 ∧ (b.1 + 4) % 8 = 0) ∧
    (∀ p ∈ s.live, p % 8 = 0) ∧
    (∀ n m' q, n ≤ 2147483640 → hl_alloc s.mem heap n = some (m', q) → q % 8 = 0) ∧
    (∀ p n m' q, p ∈ s.live ∨ p = 0 → n ≤ 2147483640 →
      hl_resize s.mem heap p n = some (m', q) → q % 8 = 0) := by
  have hfa := reachable_first_aligned c heap s hmin hSF hr
  have hal := reachable_aligned c heap s hmin hSF hr
  refine ⟨?_, hal.1, hal.2, ?_, ?_⟩
  · unfold heapFirst at hfa
    omega
  · intro n m' q hn hcall
    by_cases hq : q = 0
    · rw [hq]
    · have hr2 := Reachable.alloc s n m' q hr hn hcall
      have := (reachable_aligned c heap _ hmin hSF hr2).2 q
      rw [if_neg hq] at this
      exact this (List.mem_cons_self _ _)
  · intro p n m' q hp hn hcall
    by_cases hq : q = 0
    · rw [hq]
    · have hr2 := Reachable.resize s p n m' q hr hp hn hcall
      have := (reachable_aligned c heap _ hmin hSF hr2).2 q
      rw [if_neg hq] at this
      exact this (List.mem_cons_self _ _)

theorem pointers_aligned_witness :
    40 ≤ demoConsts.MIN_HEAP_SIZE ∧ demoConsts.SUCCESS ≠ demoConsts.FAILURE ∧
    Reachable demoConsts 4096 fourBlocks ∧ fourBlocks.live = [4240, 4200, 4160, 4120] ∧
    (4096 + read32 fourBlocks.mem (4096 + 4) + 20) % 8 = 0 ∧
    (∀ p ∈ fourBlocks.live, p % 8 = 0) :=
  ⟨by decide, by decide, reachable_fourBlocks, by decide,
    (pointers_aligned demoConsts 4096 fourBlocks (by decide) (by decide)
      reachable_fourBlocks).1,
    (pointers_aligned demoConsts 4096 fourBlocks (by decide) (by decide)
      reachable_fourBlocks).2.2.1⟩

/-! ## Padding and minimum span -/

/-- C13 (amended): the padding that a successful `hl_init` stores lies in `1..15` and
makes the payload address of the first block, `heap + 16 + padding + 4`, a
multiple of 8, for every base address.  For a base address with
`heap + 4 < 2^63` (a non-negative `long`) the padding is `8 - (heap + 4) % 8`:
it lies in `1..8`, it is the smallest `k >= 1` for which `heap + 16 + k + 4` is a
multiple of 8, and it is 8, not 0, when `heap + 20` is already a multiple
of 8. -/
theorem init_padding_value (c : Consts) (m : Mem) (heap heap_size : Nat)
    (hmin : 40 ≤ c.MIN_HEAP_SIZE) (hsz : c.MIN_HEAP_SIZE ≤ heap_size)
    (h32 : heap_size < 4294967296) (hfit : heap + heap_size < 18446744073709551616) :
    (hl_init c m heap heap_size).2 = c.SUCCESS ∧
    1 ≤ read32 (hl_init c m heap heap_size).1 (heap + 4) ∧
    read32 (hl_init c m heap heap_size).1 (heap + 4) ≤ 15 ∧
    (heap + 16 + read32 (hl_init c m heap heap_size).1 (heap + 4) + 4) % 8 = 0 ∧
    (heap + 4 < 9223372036854775808 →
      read32 (hl_init c m heap heap_size).1 (heap + 4) = 8 - (heap + 4) % 8 ∧
      read32 (hl_init c m heap heap_size).1 (heap + 4) ≤ 8 ∧
      (∀ k, 1 ≤ k → (heap + 16 + k + 4) % 8 = 0 →
        read32 (hl_init c m heap heap_size).1 (heap + 4) ≤ k) ∧
      ((heap + 20) % 8 = 0 → read32 (hl_init c m heap heap_size).1 (heap + 4) = 8)) := by
  obtain ⟨h1, h2, h3, h4, _, _, _, _, _, hA, hB⟩ :=
    hl_init_spec c m heap heap_size hmin hsz h32 hfit
  have hpad : read32 (hl_init c m heap heap_size).1 (heap + 4) ≤ 15 := by
    by_cases hle : read32 (hl_init c m heap heap_size).1 heap ≤ 2147483648
    · exact (hA hle).lay.pad
    · exact (hB (by omega)).pad
  unfold heapFirst at h3
  refine ⟨h1, h2, hpad, by omega, ?_⟩
  intro hlt
  have h5 := h4 hlt
  generalize read32 (hl_init c m heap heap_size).1 (heap + 4) = pad at *
  refine ⟨h5, by omega, ?_, by omega⟩
  intro k hk1 hk2
  omega

theorem init_padding_value_witness :
    40 ≤ demoConsts.MIN_HEAP_SIZE ∧ demoConsts.MIN_HEAP_SIZE ≤ 64 ∧
    read32 (hl_init demoConsts zeroMem 4100 64).1 (4100 + 4) = 8 - (4100 + 4) % 8 ∧
    (4100 + 16 + read32 (hl_init demoConsts zeroMem 4100 64).1 (4100 + 4) + 4) % 8 = 0 :=
  ⟨by decide, by decide,
    ((init_padding_value demoConsts zeroMem 4100 64 (by decide) (by decide) (by decide)
      (by decide)).2.2.2.2 (by decide)).1,
    (init_padding_value demoConsts zeroMem 4100 64 (by decide) (by decide) (by decide)
      (by decide)).2.2.2.1⟩

/-- The block that `hl_alloc` returns has room for the rounded request. -/
theorem alloc_capacity {m m' : Mem} {heap n q : Nat} {hs : List Nat} (hi : HeapInv m heap hs)
    (hn : n ≤ 2147483640) (hcall : hl_alloc m heap n = some (m', q)) (hq : q ≠ 0) :
    roundUp n ≤ capacity m' q := by
  obtain ⟨m1, q1, h1, _, h3⟩ := hl_alloc_ok hi hn
  rw [hcall] at h1
  have e := Option.some.inj h1
  have e1 := congrArg Prod.fst e
  have e2 := congrArg Prod.snd e
  simp only at e1 e2
  subst e1
  subst e2
  obtain ⟨hs', af, hf, hi', eq, _, hev, hle, hF, _, _, hmem⟩ := h3 hq
  rw [← hF] at hmem
  have hrd := (mem_blocksOf_chain hi'.lay.chain hmem).1
  simp only at hrd
  have hq4 : q - 4 = af := by omega
  unfold capacity
  rw [hq4, hrd]
  have hr8 := (roundUp_spec n hn).2.2.1
  split
  · rw [span_succ hf hev]; omega
  · have : roundUp n + 9 = (roundUp n + 8) + 1 := rfl
    rw [this, span_succ _ (by omega)]
    omega

theorem reachableNZ_reachable {c : Consts} {heap : Nat} {s : State}
    (hr : ReachableNZ c heap s) : Reachable c heap s := by
  induction hr with
  | init m0 heap_size h32 hfit hok _ => exact Reachable.init m0 heap_size h32 hfit hok
  | alloc s n m' q _ hn _ hcall ih => exact Reachable.alloc s n m' q ih hn hcall
  | release s p _ hp ih => exact Reachable.release s p ih hp
  | resize s p n m' q _ hp hn hcall ih =>
    exact Reachable.resize s p n m' q ih (hp.imp id And.left) hn hcall
  | store s p i v _ hp hi ih => exact Reachable.store s p i v ih hp hi

theorem reachableNZ_allocStep {c : Consts} {heap : Nat} {s : State} (n : Nat)
    (hs : ReachableNZ c heap s) (hn : n ≤ 2147483640) (hpos : 1 ≤ n) :
    ReachableNZ c heap (allocStep heap n s) := by
  unfold allocStep
  cases hc : hl_alloc s.mem heap n with
  | none => exact hs
  | some r =>
    obtain ⟨m', q⟩ := r
    exact ReachableNZ.alloc s n m' q hs hn hpos hc

theorem exists_block_of_mem (F : Nat) {hs : List Nat} {x : Nat} (hx : x ∈ hs) :
    ∃ a, (a, x) ∈ blocksOf F hs := by
  obtain ⟨pre, rest, e⟩ := List.append_of_mem hx
  subst e
  exact ⟨F + total pre, (mem_blocksOf_append _ _ _ _).2 (Or.inr (List.mem_cons_self _ _))⟩

/-- A bound on the spans of the blocks found by the walk is a bound on the spans of
the header words of the layout. -/
theorem floor_blocks_iff (F : Nat) (hs : List Nat) (k : Nat) :
    (∀ b ∈ blocksOf F hs, k ≤ span b.2) ↔ ∀ x ∈ hs, k ≤ span x := by
  constructor
  · intro h x hx
    obtain ⟨a, ha⟩ := exists_block_of_mem F hx
    exact h (a, x) ha
  · intro h b hb
    exact h b.2 (mem_blocksOf_bounds hb).2.2

/-- A successful `hl_init` on a base address that is non-negative as a `long`, or on a
buffer of at least 47 bytes, leaves one block of span at least 16. -/
theorem init_keeps_floor (c : Consts) (m0 : Mem) (heap heap_size : Nat)
    (hmin : 40 ≤ c.MIN_HEAP_SIZE) (hSF : c.SUCCESS ≠ c.FAILURE) (h32 : heap_size < 4294967296)
    (hfit : heap + heap_size < 18446744073709551616)
    (hok : (hl_init c m0 heap heap_size).2 = c.SUCCESS)
    (hbase : heap + 4 < 9223372036854775808 ∨ 47 ≤ heap_size) :
    ∀ b ∈ heapBlocks (hl_init c m0 heap heap_size).1 heap, 16 ≤ span b.2 := by
  have hsz := hl_init_success c m0 heap heap_size hSF hok
  obtain ⟨_, hp1, _, hpv, hfield, _, _, h8, _, hA, hB⟩ :=
    hl_init_spec c m0 heap heap_size hmin hsz h32 hfit
  have hpad : read32 (hl_init c m0 heap heap_size).1 (heap + 4) ≤ 15 := by
    by_cases hle : read32 (hl_init c m0 heap heap_size).1 heap ≤ 2147483648
    · exact (hA hle).lay.pad
    · exact (hB (by omega)).pad
  have h16 : 16 ≤ span (read32 (hl_init c m0 heap heap_size).1 heap) := by
    generalize read32 (hl_init c m0 heap heap_size).1 (heap + 4) = pad at *
    generalize read32 (hl_init c m0 heap heap_size).1 heap = field at *
    clear hA hB
    unfold span
    rcases hbase with hb | hb
    · have := hpv hb
      omega
    · omega
  intro b hb
  by_cases hle : read32 (hl_init c m0 heap heap_size).1 heap ≤ 2147483648
  · rw [heapBlocks_eq (hA hle).lay] at hb
    have := (mem_blocksOf_bounds hb).2.2
    rw [List.mem_singleton] at this
    rw [this]
    exact h16
  · rw [(heapBlocks_huge (hB (by omega))).1, List.mem_singleton] at hb
    rw [hb]
    exact h16

/-- A request of at least 8 bytes (after rounding) keeps every span at 16 or more:
the block handed out has span at least 16 and a split leaves a remainder of at
least 16 bytes. -/
theorem alloc_keeps_floor {m m' : Mem} {heap n q : Nat} (hwf : WF m heap)
    (hn : n ≤ 2147483640) (h8 : 8 ≤ roundUp n) (hcall : hl_alloc m heap n = some (m', q))
    (h16 : ∀ b ∈ heapBlocks m heap, 16 ≤ span b.2) :
    ∀ b ∈ heapBlocks m' heap, 16 ≤ span b.2 := by
  by_cases hq : q = 0
  · have hm : m' = m := by
      rcases hwf with ⟨hs, hi⟩ | hh
      · obtain ⟨m2, q2, hc2, hq0, _⟩ := hl_alloc_ok hi hn
        rw [hcall] at hc2
        simp only [Option.some.injEq, Prod.mk.injEq] at hc2
        obtain ⟨rfl, rfl⟩ := hc2
        exact hq0 hq
      · have := hl_alloc_huge hh hn
        rw [hcall] at this
        simp only [Option.some.injEq, Prod.mk.injEq] at this
        exact this.1
    rw [hm]
    exact h16
  · obtain ⟨a, s, pre, rest, _, _, e3, hev, hle, e6, _⟩ :=
      alloc_result_blocks m m' heap n q hwf hn hcall hq
    rw [e3, floor_blocks_iff] at h16
    rw [e6, floor_blocks_iff]
    have hs16 := h16 s (by simp)
    rw [span_even s hev] at hs16
    intro x hx
    simp only [List.mem_append] at hx
    rcases hx with hx | hx | hx
    · exact h16 x (by simp [hx])
    · unfold placed at hx
      split at hx
      · rw [List.mem_singleton] at hx
        rw [hx, span_succ s hev]
        exact hs16
      · simp only [List.mem_cons, List.mem_singleton, List.not_mem_nil, or_false] at hx
        have hr8 := (roundUp_spec n hn).2.2.1
        clear h16
        rcases hx with hx | hx
        · rw [hx]; unfold span; omega
        · rw [hx]; unfold span; omega
    · exact h16 x (by simp [hx])

/-- Releasing a block keeps every span at 16 or more: the released block keeps its
span or grows by the span of the free block that follows it. -/
theorem release_keeps_floor {m : Mem} {heap p : Nat} {hs : List Nat} (hi : HeapInv m heap hs)
    (hp : p ∈ allocated m heap) (h16 : ∀ b ∈ heapBlocks m heap, 16 ≤ span b.2) :
    ∀ b ∈ heapBlocks (hl_release m heap p) heap, 16 ≤ span b.2 := by
  obtain ⟨b, hb, hodd, e⟩ := (mem_allocated_iff hi.lay p).1 hp
  obtain ⟨pre, rest, e1, _, hinv, _⟩ := hl_release_inv hi hb hodd
  rw [← e] at hinv
  rw [heapBlocks_eq hi.lay, floor_blocks_iff, e1] at h16
  rw [heapBlocks_eq hinv.lay, floor_blocks_iff]
  have hb16 := h16 b.2 (by simp)
  intro x hx
  simp only [List.mem_append, List.mem_cons] at hx
  rcases merge_cases (b.2 - 1) rest with ⟨g1, g2, _⟩ | ⟨t, r, g0, g1, g2, g3⟩
  · rw [g1, g2] at hx
    rcases hx with hx | hx | hx
    · exact h16 x (by simp [hx])
    · rw [hx]
      clear h16
      unfold span at *
      omega
    · exact h16 x (by simp [hx])
  · rw [g2, g3] at hx
    rcases hx with hx | hx | hx
    · exact h16 x (by simp [hx])
    · rw [hx]
      clear h16
      unfold span at *
      omega
    · exact h16 x (by simp [g0, hx])

/-- A call of `hl_resize` on an allocated block keeps every span at 16 or more. -/
theorem resize_keeps_floor {m m' : Mem} {heap n p q : Nat} {hs : List Nat}
    (hi : HeapInv m heap hs) (hn : n ≤ 2147483640) (hp : p ∈ allocated m heap)
    (hcall : hl_resize m heap p n = some (m', q))
    (h16 : ∀ b ∈ heapBlocks m heap, 16 ≤ span b.2) :
    ∀ b ∈ heapBlocks m' heap, 16 ≤ span b.2 := by
  obtain ⟨hsh, hgr⟩ := hl_resize_ok hi hn hp
  by_cases hle : roundUp n ≤ capacity m p
  · rw [hsh hle] at hcall
    have := congrArg Prod.fst (Option.some.inj hcall)
    simp only at this
    rw [← this]
    exact h16
  · have hgt : capacity m p < roundUp n := by omega
    obtain ⟨m1, q1, ha, hre, _⟩ := hgr hgt
    rw [hre] at hcall
    have e := Option.some.inj hcall
    have e1 := congrArg Prod.fst e
    have e2 := congrArg Prod.snd e
    simp only at e1 e2
    subst e2
    have hrs := roundUp_spec n hn
    have h8 : 8 ≤ roundUp (roundUp n) := by
      rw [roundUp_idem _ hrs.2.2.1]
      omega
    have h1 := alloc_keeps_floor (Or.inl ⟨hs, hi⟩) hrs.2.2.2 h8 ha h16
    by_cases hq : q1 = 0
    · rw [if_pos hq] at e1
      rw [← e1]
      exact h1
    · rw [if_neg hq] at e1
      rw [← e1]
      obtain ⟨hs1, hs3, i1, i2, _, _, _, a1, a2, _⟩ := resize_grow_inv hi hn hp hgt ha hq
      have h2 : ∀ b ∈ heapBlocks (memmove m1 q1 p (capacity m p + 1)) heap, 16 ≤ span b.2 := by
        rw [heapBlocks_eq i1.lay, floor_blocks_iff] at h1
        rw [heapBlocks_eq i2.lay, floor_blocks_iff]
        exact h1
      refine release_keeps_floor i2 ?_ h2
      rw [a2, a1]
      exact Or.inl hp

/-- A client store into a live payload changes no block. -/
theorem store_keeps_blocks {m : Mem} {heap p i v : Nat} {hs : List Nat}
    (hi : HeapInv m heap hs) (hp : p ∈ allocated m heap) (hlt : i < capacity m p) :
    heapBlocks (write8 m (p + i) v) heap = heapBlocks m heap := by
  obtain ⟨a, h, e, hb, hodd, c1, c2, c3, c4, c5, c6, c7, c8, c9⟩ := allocated_block hi.lay hp
  rw [c9] at hlt
  have hsp := span_odd h hodd
  have h1 : a + 4 ≤ p + i := by omega
  have h2 : p + i + 1 + 4 ≤ a + span h := by omega
  exact (heapInv_payload hi hb h1 h2 (sameOutside_write8 _ _ v)).2.2.2

/-- Without requests of 0 bytes, every block of every reachable state has span at
least 16. -/
theorem reachableNZ_floor (c : Consts) (heap : Nat) (s : State) (hmin : 40 ≤ c.MIN_HEAP_SIZE)
    (hSF : c.SUCCESS ≠ c.FAILURE) (hr : ReachableNZ c heap s) :
    ∀ b ∈ heapBlocks s.mem heap, 16 ≤ span b.2 := by
  induction hr with
  | init m0 heap_size h32 hfit hok hbase =>
    exact init_keeps_floor c m0 heap heap_size hmin hSF h32 hfit hok hbase
  | alloc s n m' q hs hn hpos hcall ih =>
    have hR := reachable_inv c heap s hmin hSF (reachableNZ_reachable hs)
    have hrs := roundUp_spec n hn
    exact alloc_keeps_floor (rinv_wf hR) hn (by omega) hcall ih
  | release s p hs hp ih =>
    have hR := reachable_inv c heap s hmin hSF (reachableNZ_reachable hs)
    rcases hp with hp | rfl
    · rcases hR with ⟨hs0, hi, hlive⟩ | ⟨_, hl⟩
      · exact release_keeps_floor hi ((hlive p).1 hp) ih
      · rw [hl] at hp
        exact absurd hp (List.not_mem_nil _)
    · simp only [hl_release_null]
      exact ih
  | resize s p n m' q hs hp hn hcall ih =>
    have hR := reachable_inv c heap s hmin hSF (reachableNZ_reachable hs)
    rcases hp with hp | ⟨rfl, hpos⟩
    · rcases hR with ⟨hs0, hi, hlive⟩ | ⟨_, hl⟩
      · exact resize_keeps_floor hi hn ((hlive p).1 hp) hcall ih
      · rw [hl] at hp
        exact absurd hp (List.not_mem_nil _)
    · rw [hl_resize_null] at hcall
      have hrs := roundUp_spec n hn
      exact alloc_keeps_floor (rinv_wf hR) hn (by omega) hcall ih
  | store s p i v hs hp hi ih =>
    have hR := reachable_inv c heap s hmin hSF (reachableNZ_reachable hs)
    rcases hR with ⟨hs0, hinv, hlive⟩ | ⟨_, hl⟩
    · simp only [store_keeps_blocks hinv ((hlive p).1 hp) hi]
      exact ih
    · rw [hl] at hp
      exact absurd hp (List.not_mem_nil _)

/-- The floor that holds with requests of 0 bytes: in every reachable state every block
has a span of at least 8 bytes that is a multiple of 8, and a request of at
least one byte returns `NULL` or a block of span at least 16. -/
theorem reachable_span_floor (c : Consts) (heap : Nat) (s : State) (hmin : 40 ≤ c.MIN_HEAP_SIZE)
    (hSF : c.SUCCESS ≠ c.FAILURE) (hr : Reachable c heap s) :
    (∀ b ∈ heapBlocks s.mem heap, 8 ≤ span b.2 ∧ span b.2 % 8 = 0) ∧
    ∀ n m' q, 1 ≤ n → n ≤ 2147483640 → hl_alloc s.mem heap n = some (m', q) → q ≠ 0 →
      16 ≤ capacity m' q + 8 := by
  rcases reachable_inv c heap s hmin hSF hr with ⟨hs, hi, _⟩ | ⟨hh, _⟩
  · constructor
    · intro b hb
      rw [heapBlocks_eq hi.lay] at hb
      exact hi.lay.valid _ (mem_blocksOf_bounds hb).2.2
    · intro n m' q h1 hn hcall hq
      have := alloc_capacity hi hn hcall hq
      have := roundUp_spec n hn
      omega
  · constructor
    · intro b hb
      rw [(heapBlocks_huge hh).1, List.mem_singleton] at hb
      rw [hb]
      have h1 := hh.even
      have h2 := hh.huge
      simp only
      unfold span
      omega
    · intro n m' q _ hn hcall hq
      rw [hl_alloc_huge hh hn] at hcall
      have := congrArg Prod.snd (Option.some.inj hcall)
      simp only at this
      exact absurd this.symm hq

theorem reachableNZ_demoState : ReachableNZ demoConsts 4096 demoState :=
  ReachableNZ.init zeroMem 64 (by decide) (by decide) (by decide) (Or.inl (by decide))

/-- On a base address that is negative as a `long`, `hl_init` on a buffer of 40 bytes
stores padding 15 and leaves a single block of span 8. -/
theorem init_negative_base_span_eight :
    (hl_init demoConsts zeroMem 9223372036854775813 40).2 = demoConsts.SUCCESS ∧
    read32 (hl_init demoConsts zeroMem 9223372036854775813 40).1 (9223372036854775813 + 4) = 15 ∧
    heapBlocks (hl_init demoConsts zeroMem 9223372036854775813 40).1 9223372036854775813 =
      [(9223372036854775844, 8)] := by
  decide

/-- C18 (amended): in every state reachable from a successful `hl_init` (on a base
address that is non-negative as a `long`, or on a buffer of at least 47 bytes)
by valid calls none of which asks for a block of 0 bytes, every block has a
span of at least 16 bytes that is a multiple of 8.  When requests of 0 bytes
are made as well, every block still has a span of at least 8 bytes that is a
multiple of 8, and a call of `hl_alloc` with a request of at least one byte
returns `NULL` or a block of span at least 16. -/
theorem block_span_floor (c : Consts) (heap : Nat) (hmin : 40 ≤ c.MIN_HEAP_SIZE)
    (hSF : c.SUCCESS ≠ c.FAILURE) :
    (∀ s, ReachableNZ c heap s →
      ∀ b ∈ heapBlocks s.mem heap, 16 ≤ span b.2 ∧ span b.2 % 8 = 0) ∧
    (∀ s, Reachable c heap s →
      (∀ b ∈ heapBlocks s.mem heap, 8 ≤ span b.2 ∧ span b.2 % 8 = 0) ∧
      ∀ n m' q, 1 ≤ n → n ≤ 2147483640 → hl_alloc s.mem heap n = some (m', q) → q ≠ 0 →
        16 ≤ capacity m' q + 8) :=
  ⟨fun s hr b hb => ⟨reachableNZ_floor c heap s hmin hSF hr b hb,
      ((reachable_span_floor c heap s hmin hSF (reachableNZ_reachable hr)).1 b hb).2⟩,
    fun s hr => reachable_span_floor c heap s hmin hSF hr⟩

theorem block_span_floor_witness :
    40 ≤ demoConsts.MIN_HEAP_SIZE ∧ demoConsts.SUCCESS ≠ demoConsts.FAILURE ∧
    ReachableNZ demoConsts 4096 (allocStep 4096 8 demoState) ∧
    (∀ b ∈ heapBlocks (allocStep 4096 8 demoState).mem 4096,
      16 ≤ span b.2 ∧ span b.2 % 8 = 0) ∧
    Reachable demoConsts 4096 (allocStep 4096 0 demoState) ∧
    (∀ b ∈ heapBlocks (allocStep 4096 0 demoState).mem 4096,
      8 ≤ span b.2 ∧ span b.2 % 8 = 0) :=
  ⟨by decide, by decide,
    reachableNZ_allocStep 8 reachableNZ_demoState (by decide) (by decide),
    (block_span_floor demoConsts 4096 (by decide) (by decide)).1 _
      (reachableNZ_allocStep 8 reachableNZ_demoState (by decide) (by decide)),
    reachable_allocStep 0 reachable_demoState (by decide),
    ((block_span_floor demoConsts 4096 (by decide) (by decide)).2 _
      (reachable_allocStep 0 reachable_demoState (by decide))).1⟩

/-! ## Well-formedness of reachable states -/

/-- Well-formedness in the reachable states of a heap whose usable size is at most
`2^31`: the walk from `heap + padding + 16` by the spans in the headers lands
exactly on the end of the usable region, every span is a positive multiple
of 8, and the footer word of every block equals its header word. -/
theorem reachable_wellformed (c : Consts) (heap : Nat) (s : State)
    (hmin : 40 ≤ c.MIN_HEAP_SIZE) (hSF : c.SUCCESS ≠ c.FAILURE) (hr : Reachable c heap s)
    (hsmall : read32 s.mem heap ≤ 2147483648) :
    ∃ hs, heapBlocks s.mem heap = blocksOf (heapFirst s.mem heap) hs ∧
      heapFirst s.mem heap + total hs = heapEnd s.mem heap ∧
      ∀ b ∈ heapBlocks s.mem heap, 8 ≤ span b.2 ∧ span b.2 % 8 = 0 ∧
        read32 s.mem b.1 = b.2 ∧ read32 s.mem (b.1 + span b.2 - 4) = b.2 := by
  rcases reachable_inv c heap s hmin hSF hr with ⟨hs, hi, _⟩ | ⟨hh, _⟩
  · refine ⟨hs, heapBlocks_eq hi.lay, ?_, ?_⟩
    · rw [hi.lay.tot]
      rfl
    · intro b hb
      rw [heapBlocks_eq hi.lay] at hb
      have hv := hi.lay.valid _ (mem_blocksOf_bounds hb).2.2
      have hc := mem_blocksOf_chain hi.lay.chain hb
      exact ⟨hv.1, hv.2, hc.1, hc.2⟩
  · have := hh.huge
    omega
end Heaplib
